import Mathlib

/-!
Shallow embedding of the `rust-trees` ordered-map engine: the shared
binary-search-tree substrate (`src/lib.rs`), the AVL policy (`src/avl.rs`)
and the red-black policy (`src/rb.rs`).  Rust `Option<Box<Node>>` children
become a `nil` constructor; in-place mutation becomes value passing;
`unwrap`/`unreachable!` panics become `Option` failure (`none`).
-/

set_option linter.unusedVariables false
set_option linter.unusedSectionVars false

/-- Side of a child, mirroring `Side` in `lib.rs` / `avl.rs`. -/
inductive Side where
  | Left
  | Right
deriving DecidableEq, Repr

/-- Mirrors `Side::other`. -/
def Side.other : Side → Side
  | .Left => .Right
  | .Right => .Left

/-- Mirrors `HeightChange` in `avl.rs`. -/
inductive HeightChange where
  | Increased
  | Decreased
  | Unchanged
deriving DecidableEq, Repr

/-- Mirrors `Color` in `rb.rs`. -/
inductive Color where
  | Black
  | Red
deriving DecidableEq, Repr

/-- The substrate node of `lib.rs`: key, value, two optional children and a
balancing-metadata slot; `nil` stands for an absent child (`None`). -/
inductive STree (K V M : Type) where
  | nil
  | node (key : K) (value : V) (left right : STree K V M) (metadata : M)
deriving DecidableEq, Repr

namespace STree

variable {K V M : Type}

/-- Mirrors `Node::find` of `lib.rs` (iterative descent; absent child gives
`None`, which the `nil` case captures, together with `Tree::find` on an
empty root). -/
def find [LinearOrder K] : STree K V M → K → Option V
  | nil, _ => none
  | node k0 v0 l r _, k =>
    if k < k0 then find l k
    else if k0 < k then find r k
    else some v0

/-- Mirrors `Node::min` of `lib.rs` (descends through `right_child` until it
is absent) combined with `Tree::min` (empty root gives `None`). -/
def minPair : STree K V M → Option (K × V)
  | nil => none
  | node k v _ nil _ => some (k, v)
  | node _ _ _ (node k1 v1 l1 r1 m1) _ => minPair (node k1 v1 l1 r1 m1)

/-- Mirrors `Node::max` of `lib.rs` (descends through `right_child` until it
is absent) combined with `Tree::max` (empty root gives `None`). -/
def maxPair : STree K V M → Option (K × V)
  | nil => none
  | node k v _ nil _ => some (k, v)
  | node _ _ _ (node k1 v1 l1 r1 m1) _ => maxPair (node k1 v1 l1 r1 m1)

/-- Mirrors the loop of `Node::next` of `lib.rs`; `lg` is `last_greater`
(we keep only its key/value, which is all the source reads from it). -/
def nextFrom [LinearOrder K] : STree K V M → K → Option (K × V) → Option (K × V)
  | nil, _, _ => none
  | node k0 v0 l r _, k, lg =>
    if k < k0 then
      match l with
      | nil => some (k0, v0)
      | node k1 v1 l1 r1 m1 => nextFrom (node k1 v1 l1 r1 m1) k (some (k0, v0))
    else if k0 < k then
      match r with
      | nil => none
      | node k1 v1 l1 r1 m1 => nextFrom (node k1 v1 l1 r1 m1) k lg
    else
      match r with
      | nil => lg
      | node k1 v1 l1 r1 m1 => minPair (node k1 v1 l1 r1 m1)

/-- Mirrors `Tree::next` of `lib.rs`: `last_greater` starts as `None`. -/
def nextPair [LinearOrder K] (t : STree K V M) (k : K) : Option (K × V) :=
  nextFrom t k none

/-- Number of nodes of a substrate tree. -/
def size : STree K V M → Nat
  | nil => 0
  | node _ _ l r _ => 1 + size l + size r

/-- All keys of the tree satisfy `p`. -/
def allKeys (p : K → Bool) : STree K V M → Bool
  | nil => true
  | node k _ l r _ => p k && allKeys p l && allKeys p r

/-- Strict binary-search-tree ordering: left keys below, right keys above. -/
def isBST [LinearOrder K] : STree K V M → Bool
  | nil => true
  | node k _ l r _ =>
    allKeys (fun y => decide (y < k)) l && allKeys (fun y => decide (k < y)) r &&
      isBST l && isBST r

end STree

/-- The red-black tree node type: the substrate instantiated at `Color`
metadata, as in `rb.rs` (`type Node<K, V> = super::Node<K, V, Color>`). -/
abbrev RBT (K V : Type) := STree K V Color

namespace RB

open STree

variable {K V : Type}

/-- Color slot of a node; a `nil` tree has no metadata (never read there by
the source, which only calls it through `&mut self` on a real node). -/
def metaOf : RBT K V → Color
  | .nil => Color.Black
  | .node _ _ _ _ c => c

/-- Mirrors `Node::is_red`: an absent child counts as black. -/
def isRedT : RBT K V → Bool
  | .node _ _ _ _ Color.Red => true
  | _ => false

/-- Mirrors `Node::child`. -/
def childOf : RBT K V → Side → RBT K V
  | .node _ _ l _ _, .Left => l
  | .node _ _ _ r _, .Right => r
  | .nil, _ => .nil

/-- Writes back through the `&mut` reference obtained from `Node::child`. -/
def setChild : RBT K V → Side → RBT K V → RBT K V
  | .node k v _ r c, .Left, nl => .node k v nl r c
  | .node k v l _ c, .Right, nr => .node k v l nr c
  | .nil, _, _ => .nil

/-- Assignment `self.metadata = c`. -/
def setColor : RBT K V → Color → RBT K V
  | .nil, _ => .nil
  | .node k v l r _, c => .node k v l r c

/-- Mirrors `Node::rotate_left`; the `unwrap` of the right child is the
`none` case. -/
def rotateLeft : RBT K V → Option (RBT K V)
  | .node k v l (.node rk rv rl rr rc) c =>
    some (.node rk rv (.node k v l rl c) rr rc)
  | _ => none

/-- Mirrors `Node::rotate_right`. -/
def rotateRight : RBT K V → Option (RBT K V)
  | .node k v (.node lk lv ll lr lc) r c =>
    some (.node lk lv ll (.node k v lr r c) lc)
  | _ => none

/-- Mirrors `Node::rotate_from`. -/
def rotateFrom (t : RBT K V) : Side → Option (RBT K V)
  | .Left => rotateRight t
  | .Right => rotateLeft t

/-- Mirrors `Node::rotate_to`. -/
def rotateTo (t : RBT K V) : Side → Option (RBT K V)
  | .Left => rotateLeft t
  | .Right => rotateRight t

/-- Statement `self.child(side).as_mut().unwrap().metadata = c`. -/
def paintChild (t : RBT K V) (side : Side) (c : Color) : Option (RBT K V) :=
  match childOf t side with
  | .nil => none
  | .node k v l r _ => some (setChild t side (.node k v l r c))

/-- Statement `self.child(cside).as_mut().unwrap().rotate_from(fside)`. -/
def rotateChildFrom (t : RBT K V) (cside fside : Side) : Option (RBT K V) :=
  match childOf t cside with
  | .nil => none
  | c => do
    let c1 ← rotateFrom c fside
    some (setChild t cside c1)

/-- Mirrors `Node::resolve_rotation`. -/
def resolveRotation (t : RBT K V) (childColor : Color) (childSide : Side) :
    Option Side :=
  if childColor = Color.Red ∧ metaOf t = Color.Red then some childSide else none

/-- Mirrors `Node::rotate` (the insert-fixup rotation). -/
def insRotate (t : RBT K V) (childSide grandchildSide : Side) :
    Option (RBT K V) :=
  Option.bind
    (if grandchildSide ≠ childSide then rotateChildFrom t childSide grandchildSide
     else some t) fun t1 =>
  Option.bind (paintChild t1 childSide Color.Black) fun t2 =>
  rotateFrom (setColor t2 Color.Red) childSide

/-- Mirrors `Node::handle_insert_rotation`. -/
def handleInsertRotation (t : RBT K V) (rot : Option Side) (childSide : Side) :
    Option (RBT K V × Option Side) :=
  match rot with
  | none => some (t, none)
  | some grandchildSide =>
    match childOf t childSide.other with
    | .node sk sv sl sr sc =>
      if sc = Color.Red then
        let t1 := setChild t childSide.other (.node sk sv sl sr Color.Black)
        let t2 :=
          match childOf t1 childSide with
          | .nil => t1
          | .node ck cv cl cr _ =>
            setChild t1 childSide (.node ck cv cl cr Color.Black)
        let t3 := setColor t2 Color.Red
        some (t3, resolveRotation t3 Color.Red childSide)
      else do
        let t1 ← insRotate t childSide grandchildSide
        some (t1, none)
    | .nil => do
      let t1 ← insRotate t childSide grandchildSide
      some (t1, none)

/-- Mirrors `Node::insert_recursively`. -/
def insertRec [LinearOrder K] : RBT K V → K → V → Option (RBT K V × Option Side)
  | .nil, _, _ => none
  | .node k0 v0 l r c, k, v =>
    if k < k0 then
      match l with
      | .nil =>
        let t1 : RBT K V := .node k0 v0 (.node k v .nil .nil Color.Red) r c
        some (t1, resolveRotation t1 Color.Red Side.Left)
      | .node k1 v1 l1 r1 m1 => do
        let (l2, rot) ← insertRec (.node k1 v1 l1 r1 m1) k v
        handleInsertRotation (.node k0 v0 l2 r c) rot Side.Left
    else if k0 < k then
      match r with
      | .nil =>
        let t1 : RBT K V := .node k0 v0 l (.node k v .nil .nil Color.Red) c
        some (t1, resolveRotation t1 Color.Red Side.Right)
      | .node k1 v1 l1 r1 m1 => do
        let (r2, rot) ← insertRec (.node k1 v1 l1 r1 m1) k v
        handleInsertRotation (.node k0 v0 l r2 c) rot Side.Right
    else
      some (.node k v l r c, none)

/-- Mirrors `Node::insert` (recursive insertion followed by painting the
root black). -/
def nodeInsert [LinearOrder K] (t : RBT K V) (k : K) (v : V) :
    Option (RBT K V) := do
  let (t1, _) ← insertRec t k v
  some (setColor t1 Color.Black)

/-- Mirrors `RedBlack::insert` (`Tree` facade; empty root gets a black
node via `new_node(key, value, Color::Black)`). -/
def treeInsert [LinearOrder K] : RBT K V → K → V → Option (RBT K V)
  | .nil, k, v => some (.node k v .nil .nil Color.Black)
  | .node k0 v0 l r c, k, v => nodeInsert (.node k0 v0 l r c) k v

/-- Mirrors `Node::balance_red_node`. -/
def balanceRedNode (t : RBT K V) (side : Side) : Option (RBT K V) :=
  paintChild (setColor t Color.Black) side.other Color.Red

/-- Mirrors `Node::balance_other_side_nephew_is_red`. -/
def balanceOtherNephewRed (t : RBT K V) (side : Side) : Option (RBT K V) := do
  let color := metaOf t
  let t1 ← rotateTo (setColor t Color.Black) side
  paintChild (setColor t1 color) side.other Color.Black

/-- Mirrors `Node::balance_same_side_nephew_is_red`. -/
def balanceSameNephewRed (t : RBT K V) (side : Side) : Option (RBT K V) :=
  match childOf t side.other with
  | .nil => none
  | .node sk sv sl sr _ => do
    let s1 ← rotateTo (.node sk sv sl sr Color.Red) side.other
    balanceOtherNephewRed (setChild t side.other (setColor s1 Color.Black)) side

/-- Mirrors `Node::balance_red_sibling`. -/
def balanceRedSibling (t : RBT K V) (side : Side) : Option (RBT K V) :=
  Option.bind (rotateTo t side) fun t1 =>
  match childOf (setColor t1 Color.Black) side with
  | .nil => none
  | .node pk pv pl pr _ =>
    match childOf (STree.node pk pv pl pr Color.Red) side.other with
    | .nil => none
    | sib =>
      Option.bind
        (if isRedT (childOf sib side.other) then
           balanceOtherNephewRed (STree.node pk pv pl pr Color.Red) side
         else if isRedT (childOf sib side) then
           balanceSameNephewRed (STree.node pk pv pl pr Color.Red) side
         else balanceRedNode (STree.node pk pv pl pr Color.Red) side) fun ps2 =>
      some (setChild (setColor t1 Color.Black) side ps2)

/-- Mirrors `Node::check_imbalance_after_delete`; the `unwrap` of the
sibling is the `none` case. -/
def checkImbalance (t : RBT K V) (side : Side) : Option (RBT K V × Bool) :=
  match childOf t side.other with
  | .nil => none
  | .node sk sv sl sr sc =>
    if sc = Color.Red then do
      let t1 ← balanceRedSibling t side
      some (t1, false)
    else if isRedT (childOf (STree.node sk sv sl sr sc) side.other) then do
      let t1 ← balanceOtherNephewRed t side
      some (t1, false)
    else if isRedT (childOf (STree.node sk sv sl sr sc) side) then do
      let t1 ← balanceSameNephewRed t side
      some (t1, false)
    else if metaOf t = Color.Red then do
      let t1 ← balanceRedNode t side
      some (t1, false)
    else
      some (setChild t side.other (.node sk sv sl sr Color.Red), true)

/-- Mirrors `Node::pop_smallest_node` of `rb.rs`; the popped node's key and
value are all the caller reads from it. -/
def popSmallest : RBT K V → Option (RBT K V × (K × V) × Bool)
  | .nil => none
  | .node k v l r c =>
    match l with
    | .nil =>
      match r with
      | .nil =>
        match c with
        | Color.Red => some (.nil, (k, v), false)
        | Color.Black => some (.nil, (k, v), true)
      | .node rk rv rl rr _ =>
        some (.node rk rv rl rr Color.Black, (k, v), false)
    | .node k1 v1 l1 r1 m1 => do
      let (l2, p, chk) ← popSmallest (.node k1 v1 l1 r1 m1)
      if chk then do
        let (t2, chk2) ← checkImbalance (.node k v l2 r c) Side.Left
        some (t2, p, chk2)
      else
        some (.node k v l2 r c, p, false)

/-- Mirrors `Node::remove_recursively`. -/
def removeRec [LinearOrder K] : RBT K V → K → Option (RBT K V × Option (K × V) × Bool)
  | .nil, _ => none
  | .node k0 v0 l r c, k =>
    if k < k0 then
      match l with
      | .nil => some (.node k0 v0 l r c, none, false)
      | .node k1 v1 l1 r1 m1 => do
        let (l2, rv, chk) ← removeRec (.node k1 v1 l1 r1 m1) k
        if chk then do
          let (t2, chk2) ← checkImbalance (.node k0 v0 l2 r c) Side.Left
          some (t2, rv, chk2)
        else
          some (.node k0 v0 l2 r c, rv, false)
    else if k0 < k then
      match r with
      | .nil => some (.node k0 v0 l r c, none, false)
      | .node k1 v1 l1 r1 m1 => do
        let (r2, rv, chk) ← removeRec (.node k1 v1 l1 r1 m1) k
        if chk then do
          let (t2, chk2) ← checkImbalance (.node k0 v0 l r2 c) Side.Right
          some (t2, rv, chk2)
        else
          some (.node k0 v0 l r2 c, rv, false)
    else
      match l, r with
      | .node lk lv ll lr lm, .node rk rv1 rl rr rm => do
        let (r2, p, chk) ← popSmallest (.node rk rv1 rl rr rm)
        if chk then do
          let (t2, chk2) ←
            checkImbalance (.node p.1 p.2 (.node lk lv ll lr lm) r2 c) Side.Right
          some (t2, some (k0, v0), chk2)
        else
          some (.node p.1 p.2 (.node lk lv ll lr lm) r2 c, some (k0, v0), false)
      | .nil, .node rk rv1 rl rr _ =>
        some (.node rk rv1 rl rr Color.Black, some (k0, v0), false)
      | .node lk lv ll lr _, .nil =>
        some (.node lk lv ll lr Color.Black, some (k0, v0), false)
      | .nil, .nil =>
        match c with
        | Color.Red => some (.nil, some (k0, v0), false)
        | Color.Black => some (.nil, some (k0, v0), true)

/-- Mirrors `Node::remove` (recursive removal, then the surviving root is
painted black). -/
def nodeRemove [LinearOrder K] (t : RBT K V) (k : K) :
    Option (RBT K V × Option (K × V)) := do
  let (t1, rv, _) ← removeRec t k
  some (setColor t1 Color.Black, rv)

/-- Mirrors `RedBlack::remove` (`Tree` facade). -/
def treeRemove [LinearOrder K] : RBT K V → K → Option (RBT K V × Option (K × V))
  | .nil, _ => some (.nil, none)
  | .node k0 v0 l r c, k => nodeRemove (.node k0 v0 l r c) k

/-- Red-black structural invariant, part 1: no red node has a red child. -/
def noRedRed : RBT K V → Bool
  | .nil => true
  | .node _ _ l r c =>
    (c = Color.Black || (!isRedT l && !isRedT r)) && noRedRed l && noRedRed r

/-- Red-black structural invariant, part 2: every root-to-absent-child path
carries the same count of black nodes; `none` when the counts disagree. -/
def blackHeight : RBT K V → Option Nat
  | .nil => some 0
  | .node _ _ l r c => do
    let hl ← blackHeight l
    let hr ← blackHeight r
    if hl = hr then some (hl + (if c = Color.Black then 1 else 0)) else none

/-- The root (of a nonempty tree) is black. -/
def rootBlack : RBT K V → Bool
  | .nil => true
  | .node _ _ _ _ c => c = Color.Black

/-- Full red-black invariant of the spec: black root, no red-red edge,
consistent black-heights. -/
def isRB (t : RBT K V) : Bool :=
  rootBlack t && noRedRed t && (blackHeight t).isSome

end RB

/-- One public mutating operation on the red-black facade. -/
inductive RBOp (K V : Type) where
  | ins (k : K) (v : V)
  | del (k : K)
deriving DecidableEq, Repr

/-- Runs a sequence of public operations on a red-black tree; `none` means
some operation panicked. -/
def runRBFrom [LinearOrder K] {V : Type} : RBT K V → List (RBOp K V) → Option (RBT K V)
  | t, [] => some t
  | t, RBOp.ins k v :: ops => do runRBFrom (← RB.treeInsert t k v) ops
  | t, RBOp.del k :: ops => do
    let (t1, _) ← RB.treeRemove t k
    runRBFrom t1 ops

/-- Runs a sequence of public operations from the empty red-black tree. -/
def runRB [LinearOrder K] {V : Type} (ops : List (RBOp K V)) : Option (RBT K V) :=
  runRBFrom .nil ops

/-- The AVL node of `avl.rs`: a value, two optional children and a signed
balance factor (`i8` in the source; it only ever holds values in `[-2, 2]`,
so `Int` arithmetic coincides with `i8` arithmetic on it). -/
inductive AVLTree (α : Type) where
  | nil
  | node (value : α) (left right : AVLTree α) (bf : Int)
deriving DecidableEq, Repr

namespace AVLTree

variable {α : Type}

/-- Mirrors `new_node` of `avl.rs`. -/
def newNode (x : α) : AVLTree α := node x nil nil 0

/-- Mirrors `AVLNode::find` combined with `AVL::find` on an empty root. -/
def find [LinearOrder α] : AVLTree α → α → Option α
  | nil, _ => none
  | node v l r _, x =>
    if x < v then find l x
    else if v < x then find r x
    else some v

/-- Mirrors `AVLNode::min` of `avl.rs` (descends through `right_child`)
combined with `AVL::min` on an empty root. -/
def minVal : AVLTree α → Option α
  | nil => none
  | node v _ nil _ => some v
  | node _ _ (node v1 l1 r1 b1) _ => minVal (node v1 l1 r1 b1)

/-- Mirrors `AVLNode::max` of `avl.rs` (descends through `right_child`)
combined with `AVL::max` on an empty root. -/
def maxVal : AVLTree α → Option α
  | nil => none
  | node v _ nil _ => some v
  | node _ _ (node v1 l1 r1 b1) _ => maxVal (node v1 l1 r1 b1)

/-- Mirrors the loop of `AVLNode::next`; `lg` is `last_greater`. -/
def nextFrom [LinearOrder α] : AVLTree α → α → Option α → Option α
  | nil, _, _ => none
  | node v l r _, x, lg =>
    if x < v then
      match l with
      | nil => some v
      | node v1 l1 r1 b1 => nextFrom (node v1 l1 r1 b1) x (some v)
    else if v < x then
      match r with
      | nil => none
      | node v1 l1 r1 b1 => nextFrom (node v1 l1 r1 b1) x lg
    else
      match r with
      | nil => lg
      | node v1 l1 r1 b1 => maxVal (node v1 l1 r1 b1)

/-- Mirrors `AVL::next`. -/
def nextVal [LinearOrder α] (t : AVLTree α) (x : α) : Option α :=
  nextFrom t x none

/-- Balance factor slot (only read on real nodes by the source). -/
def bfOf : AVLTree α → Int
  | nil => 0
  | node _ _ _ b => b

/-- Mirrors `AVLNode::rotate_right`; the `unwrap` of the left child is the
`none` case. -/
def rotateRight : AVLTree α → Option (AVLTree α)
  | node a (node b bl br bbf) r _ =>
    if bbf = 0 then some (node b bl (node a br r (-1)) 1)
    else some (node b bl (node a br r 0) 0)
  | _ => none

/-- Mirrors `AVLNode::rotate_left`. -/
def rotateLeft : AVLTree α → Option (AVLTree α)
  | node a l (node b bl br bbf) _ =>
    if bbf = 0 then some (node b (node a l bl 1) br (-1))
    else some (node b (node a l bl 0) br 0)
  | _ => none

/-- Mirrors `AVLNode::rotate_left_right` (left child `b`, its right child
`c` becomes the root). -/
def rotateLeftRight : AVLTree α → Option (AVLTree α)
  | node a (node b x c bbf) w _ =>
    match c with
    | node cv y z cbf =>
      some (node cv (node b x y (if cbf = 1 then -1 else 0))
                     (node a z w (if cbf = -1 then 1 else 0)) 0)
    | nil => none
  | _ => none

/-- Mirrors `AVLNode::rotate_right_left` (right child `b`, its left child
`c` becomes the root). -/
def rotateRightLeft : AVLTree α → Option (AVLTree α)
  | node a w (node b c x bbf) _ =>
    match c with
    | node cv y z cbf =>
      some (node cv (node a w y (if cbf = 1 then -1 else 0))
                     (node b z x (if cbf = -1 then 1 else 0)) 0)
    | nil => none
  | _ => none

/-- Mirrors `AVLNode::balance`; the `unreachable!` arm and the child
`unwrap`s are the `none` cases. -/
def balance : AVLTree α → Option (AVLTree α)
  | nil => none
  | node v l r bf =>
    if bf = -2 then
      match l with
      | nil => none
      | node _ _ _ lbf =>
        if lbf ≤ 0 then rotateRight (node v l r bf)
        else rotateLeftRight (node v l r bf)
    else if bf = 2 then
      match r with
      | nil => none
      | node _ _ _ rbf =>
        if 0 ≤ rbf then rotateLeft (node v l r bf)
        else rotateRightLeft (node v l r bf)
    else none

/-- Mirrors `AVLNode::handle_child_change`. -/
def handleChildChange : AVLTree α → HeightChange → Side → Option (AVLTree α × HeightChange)
  | nil, _, _ => none
  | node v l r bf, ch, side =>
    match ch with
    | .Unchanged => some (node v l r bf, .Unchanged)
    | .Increased =>
      let bf1 := bf + (match side with | .Left => (-1 : Int) | .Right => 1)
      if bf1 = 0 then some (node v l r bf1, .Unchanged)
      else if bf1.natAbs = 1 then some (node v l r bf1, .Increased)
      else
        match balance (node v l r bf1) with
        | none => none
        | some t2 => some (t2, .Unchanged)
    | .Decreased =>
      let bf1 := bf + (match side with | .Left => (1 : Int) | .Right => -1)
      if bf1 = 0 then some (node v l r bf1, .Decreased)
      else if bf1.natAbs = 1 then some (node v l r bf1, .Unchanged)
      else
        match balance (node v l r bf1) with
        | none => none
        | some t2 =>
          if bfOf t2 = 0 then some (t2, .Decreased) else some (t2, .Unchanged)

/-- Mirrors `AVLNode::insert`. -/
def insert [LinearOrder α] : AVLTree α → α → Option (AVLTree α × HeightChange)
  | nil, _ => none
  | node v l r bf, x =>
    if x < v then
      match l with
      | nil => handleChildChange (node v (newNode x) r bf) .Increased .Left
      | node v1 l1 r1 b1 => do
        let (l2, ch) ← insert (node v1 l1 r1 b1) x
        handleChildChange (node v l2 r bf) ch .Left
    else if v < x then
      match r with
      | nil => handleChildChange (node v l (newNode x) bf) .Increased .Right
      | node v1 l1 r1 b1 => do
        let (r2, ch) ← insert (node v1 l1 r1 b1) x
        handleChildChange (node v l r2 bf) ch .Right
    else
      some (node x l r bf, .Unchanged)

/-- Mirrors `AVLNode::pop_smallest_node`. -/
def popSmallest : AVLTree α → Option (AVLTree α × α × HeightChange)
  | nil => none
  | node v l r bf =>
    match l with
    | nil => some (r, v, .Decreased)
    | node v1 l1 r1 b1 => do
      let (l2, p, ch) ← popSmallest (node v1 l1 r1 b1)
      let (t1, ch1) ← handleChildChange (node v l2 r bf) ch .Left
      some (t1, p, ch1)

/-- Mirrors `AVLNode::remove`. -/
def remove [LinearOrder α] : AVLTree α → α → Option (AVLTree α × HeightChange × Option α)
  | nil, _ => none
  | node v l r bf, x =>
    if x < v then
      match l with
      | nil => some (node v l r bf, .Unchanged, none)
      | node v1 l1 r1 b1 => do
        let (l2, ch, rv) ← remove (node v1 l1 r1 b1) x
        let (t1, ch1) ← handleChildChange (node v l2 r bf) ch .Left
        some (t1, ch1, rv)
    else if v < x then
      match r with
      | nil => some (node v l r bf, .Unchanged, none)
      | node v1 l1 r1 b1 => do
        let (r2, ch, rv) ← remove (node v1 l1 r1 b1) x
        let (t1, ch1) ← handleChildChange (node v l r2 bf) ch .Right
        some (t1, ch1, rv)
    else
      match l, r with
      | node lv ll lr lb, node rv1 rl rr rb => do
        let (r2, repl, ch) ← popSmallest (node rv1 rl rr rb)
        let (t1, ch1) ← handleChildChange (node repl (node lv ll lr lb) r2 bf) ch .Right
        some (t1, ch1, some v)
      | nil, node rv1 rl rr rb => some (node rv1 rl rr rb, .Decreased, some v)
      | node lv ll lr lb, nil => some (node lv ll lr lb, .Decreased, some v)
      | nil, nil => some (nil, .Decreased, some v)

/-- Mirrors `AVL::insert` (facade; discards the height-change signal). -/
def treeInsert [LinearOrder α] : AVLTree α → α → Option (AVLTree α)
  | nil, x => some (newNode x)
  | node v l r bf, x => do
    let (t1, _) ← insert (node v l r bf) x
    some t1

/-- Mirrors `AVL::remove` (facade). -/
def treeRemove [LinearOrder α] : AVLTree α → α → Option (AVLTree α × Option α)
  | nil, _ => some (nil, none)
  | node v l r bf, x => do
    let (t1, _, rv) ← remove (node v l r bf) x
    some (t1, rv)

/-- Height of an AVL tree (`nil` has height 0), as an integer for direct
comparison with balance factors. -/
def height : AVLTree α → Int
  | nil => 0
  | node _ l r _ => 1 + max (height l) (height r)

/-- Number of nodes. -/
def size : AVLTree α → Nat
  | nil => 0
  | node _ l r _ => 1 + size l + size r

/-- All values of the tree satisfy `p`. -/
def allKeys (p : α → Bool) : AVLTree α → Bool
  | nil => true
  | node v l r _ => p v && allKeys p l && allKeys p r

/-- Strict binary-search-tree ordering for AVL trees. -/
def isBST [LinearOrder α] : AVLTree α → Bool
  | nil => true
  | node v l r _ =>
    allKeys (fun y => decide (y < v)) l && allKeys (fun y => decide (v < y)) r &&
      isBST l && isBST r

/-- The AVL invariant of the spec: every node stores
`height right - height left` and that difference is at most 1 in absolute
value. -/
def isAVL : AVLTree α → Bool
  | nil => true
  | node _ l r bf =>
    decide (bf = height r - height l) && decide (bf.natAbs ≤ 1) &&
      isAVL l && isAVL r

end AVLTree

/-- One public mutating operation on the AVL facade. -/
inductive AVLOp (α : Type) where
  | ins (x : α)
  | del (x : α)
deriving DecidableEq, Repr

/-- Runs a sequence of public operations on an AVL tree; `none` means some
operation panicked. -/
def runAVLFrom [LinearOrder α] : AVLTree α → List (AVLOp α) → Option (AVLTree α)
  | t, [] => some t
  | t, AVLOp.ins x :: ops => do runAVLFrom (← AVLTree.treeInsert t x) ops
  | t, AVLOp.del x :: ops => do
    let (t1, _) ← AVLTree.treeRemove t x
    runAVLFrom t1 ops

/-- Runs a sequence of public operations from the empty AVL tree. -/
def runAVL [LinearOrder α] (ops : List (AVLOp α)) : Option (AVLTree α) :=
  runAVLFrom .nil ops

/-! ## Concrete evaluation facts -/

/-- Insertions driving the red-black insert fixup into its flawed case:
after inserting 1, the recolor at node 10 propagates a stale violation
signal to the red node 20, which rotates and bumps the black-height of its
subtree. -/
def c3ops : List (RBOp Nat Nat) :=
  [RBOp.ins 20 20, RBOp.ins 10 10, RBOp.ins 30 30, RBOp.ins 60 60,
   RBOp.ins 50 50, RBOp.ins 70 70, RBOp.ins 80 80, RBOp.ins 5 5,
   RBOp.ins 15 15, RBOp.ins 1 1]

/-- The same insertions followed by removals that drive a double-black
deficiency into a node whose sibling slot is empty. -/
def c9ops : List (RBOp Nat Nat) :=
  [RBOp.ins 20 20, RBOp.ins 10 10, RBOp.ins 30 30, RBOp.ins 60 60,
   RBOp.ins 50 50, RBOp.ins 70 70, RBOp.ins 80 80, RBOp.ins 5 5,
   RBOp.ins 15 15, RBOp.ins 1 1,
   RBOp.del 50, RBOp.del 60, RBOp.del 70, RBOp.del 20]

/-- AVL tree built by inserting 1 then 2. -/
def c4ops : List (AVLOp Nat) := [AVLOp.ins 1, AVLOp.ins 2]

/-- Resulting tree of `c4ops`: root 1 with right child 2. -/
def c4tree : AVLTree Nat := .node 1 .nil (.node 2 .nil .nil 0) 1

/-- AVL tree built by inserting 10 then 5. -/
def c5ops : List (AVLOp Nat) := [AVLOp.ins 10, AVLOp.ins 5]

/-- Resulting tree of `c5ops`: root 10 with left child 5. -/
def c5tree : AVLTree Nat := .node 10 (.node 5 .nil .nil 0) .nil (-1)

/-- Height delta encoded by a `HeightChange` signal. -/
def HeightChange.delta : HeightChange → Int
  | .Increased => 1
  | .Decreased => -1
  | .Unchanged => 0

/-- Order-and-size preservation between two red-black trees: every `allKeys`
bound and the search-tree ordering carry over, and the node count is
unchanged. -/
def RB.Pres {K V : Type} [LinearOrder K] (t t' : RBT K V) : Prop :=
  (∀ p : K → Bool, STree.allKeys p t = true → STree.allKeys p t' = true) ∧
    (STree.isBST t = true → STree.isBST t' = true) ∧
    STree.size t' = STree.size t

/-- Exact key membership in an AVL tree (set of stored values). -/
def AVLTree.keyMem {α : Type} [DecidableEq α] (x : α) : AVLTree α → Bool
  | .nil => false
  | .node v l r _ => decide (x = v) || AVLTree.keyMem x l || AVLTree.keyMem x r

/-- Exact key membership in a substrate tree (set of stored keys). -/
def STree.keyMemS {K V M : Type} [DecidableEq K] (k : K) : STree K V M → Bool
  | .nil => false
  | .node k0 _ l r _ => decide (k = k0) || STree.keyMemS k l || STree.keyMemS k r

/-- Value-erased view of a red-black tree: keys, shape and colors only. -/
def RB.stripVals {K V : Type} : RBT K V → STree K Unit Color
  | .nil => .nil
  | .node k _ l r c => .node k () (RB.stripVals l) (RB.stripVals r) c

/-- Claim C3: the red-black invariant is violated by the code: after the
ten insertions of `c3ops` from an empty tree the resulting tree fails the
invariant (its black-heights disagree between the two root subtrees). -/
theorem claim_C3 : (runRB c3ops).map RB.isRB = some false := by decide

/-- Claim C9: the no-panic claim is violated by the code: the operation
sequence `c9ops` (all inserts and removes on a red-black tree from empty)
reaches the `unwrap()` of an absent sibling inside
`check_imbalance_after_delete`, modeled as `none`. -/
theorem claim_C9 : runRB c9ops = none := by decide

/-- Claim C4: `min` is claimed to return the smallest key, but the code
descends through right children: on the AVL tree holding {1, 2} it returns
2 although 1 is present and smaller. -/
theorem claim_C4 :
    runAVL c4ops = some c4tree ∧ AVLTree.minVal c4tree = some 2 ∧
      AVLTree.find c4tree 1 = some 1 ∧ (1 : Nat) < 2 := by decide

/-- Claim C5: `next` is claimed to return the smallest stored key strictly
greater than the argument, and `none` exactly when no stored key exceeds
it; but on the AVL tree holding {5, 10} the code returns `none` for
`next 7` although 10 is present and greater. -/
theorem claim_C5 :
    runAVL c5ops = some c5tree ∧ AVLTree.nextVal c5tree 7 = none ∧
      AVLTree.find c5tree 10 = some 10 ∧ (7 : Nat) < 10 := by decide

/-- Claim C10: substrate `min` and `max` descend the same direction, so on
every tree (the shared substrate and the AVL tree alike) they return the
same result. -/
theorem claim_C10 :
    (∀ (K V M : Type) (t : STree K V M), STree.minPair t = STree.maxPair t) ∧
      (∀ (α : Type) (t : AVLTree α), AVLTree.minVal t = AVLTree.maxVal t) := by
  constructor
  · intro K V M t
    induction t with
    | nil => rfl
    | node k v l r m ihl ihr =>
      cases r with
      | nil => rfl
      | node k1 v1 l1 r1 m1 =>
        simpa [STree.minPair, STree.maxPair] using ihr
  · intro α t
    induction t with
    | nil => rfl
    | node v l r bf ihl ihr =>
      cases r with
      | nil => rfl
      | node v1 l1 r1 b1 =>
        simpa [AVLTree.minVal, AVLTree.maxVal] using ihr

/-! ## AVL balance verification -/

namespace AVLTree

variable {α : Type} [LinearOrder α]

theorem height_nonneg (t : AVLTree α) : 0 ≤ height t := by
  induction t with
  | nil => simp [height]
  | node v l r bf ihl ihr => simp only [height]; omega

theorem height_nil : height (nil : AVLTree α) = 0 := rfl

theorem height_node (v : α) (l r : AVLTree α) (bf : Int) :
    height (node v l r bf) = 1 + max (height l) (height r) := rfl

theorem isAVL_node {v : α} {l r : AVLTree α} {bf : Int} :
    isAVL (node v l r bf) = true ↔
      bf = height r - height l ∧ bf.natAbs ≤ 1 ∧ isAVL l = true ∧ isAVL r = true := by
  simp [isAVL, Bool.and_eq_true, and_assoc]

theorem rotateRight_spec {a : α} {l r : AVLTree α} {bf : Int} {t' : AVLTree α}
    (h : rotateRight (node a l r bf) = some t')
    (hl : isAVL l = true) (hr : isAVL r = true)
    (hh : height l = height r + 2) (hbf : bfOf l ≤ 0) :
    isAVL t' = true ∧
      (bfOf t' = 0 → height t' = height l) ∧
      (bfOf t' ≠ 0 → height t' = height l + 1) ∧
      (bfOf t' ≠ 0 → bfOf l = 0) := by
  cases l with
  | nil => have := height_nonneg r; simp [height_nil] at hh; omega
  | node b bl br bbf =>
    rw [isAVL_node] at hl
    obtain ⟨hb1, hb2, hbl, hbr⟩ := hl
    have hblh := height_nonneg bl
    have hbrh := height_nonneg br
    simp only [bfOf] at hbf
    have hc : height (node b bl br bbf) = 1 + max (height bl) (height br) := rfl
    simp only [rotateRight] at h
    by_cases h0 : bbf = 0
    · rw [if_pos h0] at h
      injection h with h
      subst h
      have e1 : height (node a br r (-1)) = 1 + max (height br) (height r) := rfl
      have e2 : height (node b bl (node a br r (-1)) 1) =
          1 + max (height bl) (height (node a br r (-1))) := rfl
      refine ⟨?_, ?_, ?_, ?_⟩
      · rw [isAVL_node, isAVL_node]
        refine ⟨?_, ?_, hbl, ?_, ?_, hbr, hr⟩ <;> omega
      · intro hx; simp only [bfOf] at hx; omega
      · intro _; omega
      · intro _; simp only [bfOf]; omega
    · rw [if_neg h0] at h
      injection h with h
      subst h
      have e1 : height (node a br r 0) = 1 + max (height br) (height r) := rfl
      have e2 : height (node b bl (node a br r 0) 0) =
          1 + max (height bl) (height (node a br r 0)) := rfl
      refine ⟨?_, ?_, ?_, ?_⟩
      · rw [isAVL_node, isAVL_node]
        refine ⟨?_, ?_, hbl, ?_, ?_, hbr, hr⟩ <;> omega
      · intro _; omega
      · intro hx; simp only [bfOf] at hx; omega
      · intro hx; simp only [bfOf] at hx; omega

theorem rotateLeft_spec {a : α} {l r : AVLTree α} {bf : Int} {t' : AVLTree α}
    (h : rotateLeft (node a l r bf) = some t')
    (hl : isAVL l = true) (hr : isAVL r = true)
    (hh : height r = height l + 2) (hbf : 0 ≤ bfOf r) :
    isAVL t' = true ∧
      (bfOf t' = 0 → height t' = height r) ∧
      (bfOf t' ≠ 0 → height t' = height r + 1) ∧
      (bfOf t' ≠ 0 → bfOf r = 0) := by
  cases r with
  | nil => have := height_nonneg l; simp [height_nil] at hh; omega
  | node b bl br bbf =>
    rw [isAVL_node] at hr
    obtain ⟨hb1, hb2, hbl, hbr⟩ := hr
    have hblh := height_nonneg bl
    have hbrh := height_nonneg br
    simp only [bfOf] at hbf
    have hc : height (node b bl br bbf) = 1 + max (height bl) (height br) := rfl
    simp only [rotateLeft] at h
    by_cases h0 : bbf = 0
    · rw [if_pos h0] at h
      injection h with h
      subst h
      have e1 : height (node a l bl 1) = 1 + max (height l) (height bl) := rfl
      have e2 : height (node b (node a l bl 1) br (-1)) =
          1 + max (height (node a l bl 1)) (height br) := rfl
      refine ⟨?_, ?_, ?_, ?_⟩
      · rw [isAVL_node, isAVL_node]
        refine ⟨?_, ?_, ⟨?_, ?_, hl, hbl⟩, hbr⟩ <;> omega
      · intro hx; simp only [bfOf] at hx; omega
      · intro _; omega
      · intro _; simp only [bfOf]; omega
    · rw [if_neg h0] at h
      injection h with h
      subst h
      have e1 : height (node a l bl 0) = 1 + max (height l) (height bl) := rfl
      have e2 : height (node b (node a l bl 0) br 0) =
          1 + max (height (node a l bl 0)) (height br) := rfl
      refine ⟨?_, ?_, ?_, ?_⟩
      · rw [isAVL_node, isAVL_node]
        refine ⟨?_, ?_, ⟨?_, ?_, hl, hbl⟩, hbr⟩ <;> omega
      · intro _; omega
      · intro hx; simp only [bfOf] at hx; omega
      · intro hx; simp only [bfOf] at hx; omega

theorem rotateLeftRight_spec {a : α} {l w : AVLTree α} {bf : Int} {t' : AVLTree α}
    (h : rotateLeftRight (node a l w bf) = some t')
    (hl : isAVL l = true) (hw : isAVL w = true)
    (hh : height l = height w + 2) (hbf : bfOf l = 1) :
    isAVL t' = true ∧ bfOf t' = 0 ∧ height t' = height l := by
  cases l with
  | nil => have := height_nonneg w; simp [height_nil] at hh; omega
  | node b x c bbf =>
    rw [isAVL_node] at hl
    obtain ⟨hb1, hb2, hx, hc⟩ := hl
    have hxh := height_nonneg x
    have hwh := height_nonneg w
    simp only [bfOf] at hbf
    have e0 : height (node b x c bbf) = 1 + max (height x) (height c) := rfl
    cases c with
    | nil => rw [height_nil] at hb1; omega
    | node cv y z cbf =>
      rw [isAVL_node] at hc
      obtain ⟨hcb1, hcb2, hy, hz⟩ := hc
      have hyh := height_nonneg y
      have hzh := height_nonneg z
      have e1 : height (node cv y z cbf) = 1 + max (height y) (height z) := rfl
      simp only [rotateLeftRight] at h
      injection h with h
      subst h
      have e2 : height (node b x y (if cbf = 1 then -1 else 0)) =
          1 + max (height x) (height y) := rfl
      have e3 : height (node a z w (if cbf = -1 then 1 else 0)) =
          1 + max (height z) (height w) := rfl
      have e4 : height (node cv (node b x y (if cbf = 1 then -1 else 0))
          (node a z w (if cbf = -1 then 1 else 0)) 0) =
          1 + max (height (node b x y (if cbf = 1 then -1 else 0)))
            (height (node a z w (if cbf = -1 then 1 else 0))) := rfl
      have hcases : cbf = -1 ∨ cbf = 0 ∨ cbf = 1 := by omega
      refine ⟨?_, rfl, ?_⟩
      · rw [isAVL_node, isAVL_node, isAVL_node]
        refine ⟨?_, ?_, ⟨?_, ?_, hx, hy⟩, ?_, ?_, hz, hw⟩ <;>
          (rcases hcases with h5 | h5 | h5 <;> subst h5 <;>
            simp only [reduceIte] at e2 e3 e4 ⊢ <;> omega)
      · rcases hcases with h5 | h5 | h5 <;> subst h5 <;>
          simp only [reduceIte] at e2 e3 e4 ⊢ <;> omega

theorem rotateRightLeft_spec {a : α} {w r : AVLTree α} {bf : Int} {t' : AVLTree α}
    (h : rotateRightLeft (node a w r bf) = some t')
    (hw : isAVL w = true) (hr : isAVL r = true)
    (hh : height r = height w + 2) (hbf : bfOf r = -1) :
    isAVL t' = true ∧ bfOf t' = 0 ∧ height t' = height r := by
  cases r with
  | nil => have := height_nonneg w; simp [height_nil] at hh; omega
  | node b c x bbf =>
    rw [isAVL_node] at hr
    obtain ⟨hb1, hb2, hc, hx⟩ := hr
    have hxh := height_nonneg x
    have hwh := height_nonneg w
    simp only [bfOf] at hbf
    have e0 : height (node b c x bbf) = 1 + max (height c) (height x) := rfl
    cases c with
    | nil => rw [height_nil] at hb1; omega
    | node cv y z cbf =>
      rw [isAVL_node] at hc
      obtain ⟨hcb1, hcb2, hy, hz⟩ := hc
      have hyh := height_nonneg y
      have hzh := height_nonneg z
      have e1 : height (node cv y z cbf) = 1 + max (height y) (height z) := rfl
      simp only [rotateRightLeft] at h
      injection h with h
      subst h
      have e2 : height (node a w y (if cbf = 1 then -1 else 0)) =
          1 + max (height w) (height y) := rfl
      have e3 : height (node b z x (if cbf = -1 then 1 else 0)) =
          1 + max (height z) (height x) := rfl
      have e4 : height (node cv (node a w y (if cbf = 1 then -1 else 0))
          (node b z x (if cbf = -1 then 1 else 0)) 0) =
          1 + max (height (node a w y (if cbf = 1 then -1 else 0)))
            (height (node b z x (if cbf = -1 then 1 else 0))) := rfl
      have hcases : cbf = -1 ∨ cbf = 0 ∨ cbf = 1 := by omega
      refine ⟨?_, rfl, ?_⟩
      · rw [isAVL_node, isAVL_node, isAVL_node]
        refine ⟨?_, ?_, ⟨?_, ?_, hw, hy⟩, ?_, ?_, hz, hx⟩ <;>
          (rcases hcases with h5 | h5 | h5 <;> subst h5 <;>
            simp only [reduceIte] at e2 e3 e4 ⊢ <;> omega)
      · rcases hcases with h5 | h5 | h5 <;> subst h5 <;>
          simp only [reduceIte] at e2 e3 e4 ⊢ <;> omega

theorem balance_spec {v : α} {l r : AVLTree α} {bf : Int} {t' : AVLTree α}
    (h : balance (node v l r bf) = some t')
    (hl : isAVL l = true) (hr : isAVL r = true)
    (hbf : bf = height r - height l) (h2 : bf = -2 ∨ bf = 2) :
    isAVL t' = true ∧
      (bfOf t' = 0 → height t' = max (height l) (height r)) ∧
      (bfOf t' ≠ 0 → height t' = 1 + max (height l) (height r) ∧
        ((bf = -2 ∧ bfOf l = 0) ∨ (bf = 2 ∧ bfOf r = 0))) := by
  rcases h2 with h2 | h2
  · subst h2
    cases l with
    | nil =>
      have := height_nonneg r
      rw [height_nil] at hbf; omega
    | node lv ll lr lbf =>
      simp only [balance, reduceIte] at h
      have hh : height (node lv ll lr lbf) = height r + 2 := by omega
      have hnat := (isAVL_node.mp hl).2.1
      by_cases h0 : lbf ≤ 0
      · rw [if_pos h0] at h
        obtain ⟨s1, s2, s3, s4⟩ :=
          rotateRight_spec h hl hr hh (by simp only [bfOf]; omega)
        refine ⟨s1, fun hx => ?_, fun hx => ⟨?_, ?_⟩⟩
        · have := s2 hx; omega
        · have := s3 hx; omega
        · have := s4 hx; left; exact ⟨rfl, this⟩
      · rw [if_neg h0] at h
        have hlbf : bfOf (node lv ll lr lbf) = 1 := by
          simp only [bfOf]; omega
        obtain ⟨s1, s2, s3⟩ := rotateLeftRight_spec h hl hr hh hlbf
        refine ⟨s1, fun hx => ?_, fun hx => absurd s2 hx⟩
        rw [s3]; omega
  · subst h2
    cases r with
    | nil =>
      have := height_nonneg l
      rw [height_nil] at hbf; omega
    | node rv rl rr rbf =>
      have hne : ((2 : Int) = -2) ↔ False := by decide
      simp only [balance, hne, if_false, reduceIte] at h
      have hh : height (node rv rl rr rbf) = height l + 2 := by omega
      have hnat := (isAVL_node.mp hr).2.1
      by_cases h0 : 0 ≤ rbf
      · rw [if_pos h0] at h
        obtain ⟨s1, s2, s3, s4⟩ :=
          rotateLeft_spec h hl hr hh (by simp only [bfOf]; omega)
        refine ⟨s1, fun hx => ?_, fun hx => ⟨?_, ?_⟩⟩
        · have := s2 hx; omega
        · have := s3 hx; omega
        · have := s4 hx; right; exact ⟨rfl, this⟩
      · rw [if_neg h0] at h
        have hrbf : bfOf (node rv rl rr rbf) = -1 := by
          simp only [bfOf]; omega
        obtain ⟨s1, s2, s3⟩ := rotateRightLeft_spec h hl hr hh hrbf
        refine ⟨s1, fun hx => ?_, fun hx => absurd s2 hx⟩
        rw [s3]; omega

theorem handleChildChange_left_spec {v : α} {l r : AVLTree α} {bf L : Int}
    {ch ch' : HeightChange} {t' : AVLTree α}
    (h : handleChildChange (node v l r bf) ch Side.Left = some (t', ch'))
    (hl : isAVL l = true) (hr : isAVL r = true)
    (hbf : bf = height r - L) (hb2 : bf.natAbs ≤ 1)
    (hrel : height l = L + ch.delta)
    (hsig : ch = HeightChange.Increased → (bfOf l ≠ 0 ∨ height l ≤ 1)) :
    isAVL t' = true ∧ height t' = 1 + max L (height r) + ch'.delta ∧
      (ch' = HeightChange.Increased →
        bfOf t' ≠ 0 ∧ ch = HeightChange.Increased) := by
  have hlh := height_nonneg l
  have hrh := height_nonneg r
  cases ch with
  | Unchanged =>
    simp only [handleChildChange] at h
    simp only [Option.some.injEq, Prod.mk.injEq] at h
    obtain ⟨h1, h2⟩ := h
    subst h1; subst h2
    simp only [HeightChange.delta] at hrel ⊢
    refine ⟨isAVL_node.mpr ⟨by omega, hb2, hl, hr⟩, ?_, fun hx => nomatch hx⟩
    rw [height_node]; omega
  | Increased =>
    simp only [handleChildChange] at h
    simp only [HeightChange.delta] at hrel
    split_ifs at h with h0 h1
    · simp only [Option.some.injEq, Prod.mk.injEq] at h
      obtain ⟨h1', h2'⟩ := h
      subst h1'; subst h2'
      simp only [HeightChange.delta]
      refine ⟨isAVL_node.mpr ⟨by omega, by omega, hl, hr⟩, ?_, fun hx => nomatch hx⟩
      rw [height_node]; omega
    · simp only [Option.some.injEq, Prod.mk.injEq] at h
      obtain ⟨h1', h2'⟩ := h
      subst h1'; subst h2'
      simp only [HeightChange.delta]
      refine ⟨isAVL_node.mpr ⟨by omega, by omega, hl, hr⟩, ?_, fun _ => ?_⟩
      · rw [height_node]; omega
      · exact ⟨by simp only [bfOf]; omega, by trivial⟩
    · split at h
      · exact absurd h (by simp)
      · rename_i t2 heq
        simp only [Option.some.injEq, Prod.mk.injEq] at h
        obtain ⟨h1', h2'⟩ := h
        subst h1'; subst h2'
        have hbal := balance_spec heq hl hr (by omega) (by omega)
        obtain ⟨s1, s2, s3⟩ := hbal
        by_cases hb0 : bfOf t2 = 0
        · have hh2 := s2 hb0
          simp only [HeightChange.delta]
          exact ⟨s1, by omega, fun hx => nomatch hx⟩
        · obtain ⟨hh2, hcase⟩ := s3 hb0
          rcases hcase with ⟨hm, hlbf⟩ | ⟨hm, hrbf⟩
          · rcases hsig rfl with hs | hs
            · exact absurd hlbf hs
            · omega
          · omega
  | Decreased =>
    simp only [handleChildChange] at h
    simp only [HeightChange.delta] at hrel
    split_ifs at h with h0 h1
    · simp only [Option.some.injEq, Prod.mk.injEq] at h
      obtain ⟨h1', h2'⟩ := h
      subst h1'; subst h2'
      simp only [HeightChange.delta]
      refine ⟨isAVL_node.mpr ⟨by omega, by omega, hl, hr⟩, ?_, fun hx => nomatch hx⟩
      rw [height_node]; omega
    · simp only [Option.some.injEq, Prod.mk.injEq] at h
      obtain ⟨h1', h2'⟩ := h
      subst h1'; subst h2'
      simp only [HeightChange.delta]
      refine ⟨isAVL_node.mpr ⟨by omega, by omega, hl, hr⟩, ?_, fun hx => nomatch hx⟩
      rw [height_node]; omega
    · split at h
      · exact absurd h (by simp)
      · rename_i t2 heq
        have hbal := balance_spec heq hl hr (by omega) (by omega)
        obtain ⟨s1, s2, s3⟩ := hbal
        split_ifs at h with hb0
        · simp only [Option.some.injEq, Prod.mk.injEq] at h
          obtain ⟨h1', h2'⟩ := h
          subst h1'; subst h2'
          have hh2 := s2 hb0
          simp only [HeightChange.delta]
          exact ⟨s1, by omega, fun hx => nomatch hx⟩
        · simp only [Option.some.injEq, Prod.mk.injEq] at h
          obtain ⟨h1', h2'⟩ := h
          subst h1'; subst h2'
          obtain ⟨hh2, hcase⟩ := s3 hb0
          simp only [HeightChange.delta]
          exact ⟨s1, by omega, fun hx => nomatch hx⟩

theorem handleChildChange_right_spec {v : α} {l r : AVLTree α} {bf R : Int}
    {ch ch' : HeightChange} {t' : AVLTree α}
    (h : handleChildChange (node v l r bf) ch Side.Right = some (t', ch'))
    (hl : isAVL l = true) (hr : isAVL r = true)
    (hbf : bf = R - height l) (hb2 : bf.natAbs ≤ 1)
    (hrel : height r = R + ch.delta)
    (hsig : ch = HeightChange.Increased → (bfOf r ≠ 0 ∨ height r ≤ 1)) :
    isAVL t' = true ∧ height t' = 1 + max (height l) R + ch'.delta ∧
      (ch' = HeightChange.Increased →
        bfOf t' ≠ 0 ∧ ch = HeightChange.Increased) := by
  have hlh := height_nonneg l
  have hrh := height_nonneg r
  cases ch with
  | Unchanged =>
    simp only [handleChildChange] at h
    simp only [Option.some.injEq, Prod.mk.injEq] at h
    obtain ⟨h1, h2⟩ := h
    subst h1; subst h2
    simp only [HeightChange.delta] at hrel ⊢
    refine ⟨isAVL_node.mpr ⟨by omega, hb2, hl, hr⟩, ?_, fun hx => nomatch hx⟩
    rw [height_node]; omega
  | Increased =>
    simp only [handleChildChange] at h
    simp only [HeightChange.delta] at hrel
    split_ifs at h with h0 h1
    · simp only [Option.some.injEq, Prod.mk.injEq] at h
      obtain ⟨h1', h2'⟩ := h
      subst h1'; subst h2'
      simp only [HeightChange.delta]
      refine ⟨isAVL_node.mpr ⟨by omega, by omega, hl, hr⟩, ?_, fun hx => nomatch hx⟩
      rw [height_node]; omega
    · simp only [Option.some.injEq, Prod.mk.injEq] at h
      obtain ⟨h1', h2'⟩ := h
      subst h1'; subst h2'
      simp only [HeightChange.delta]
      refine ⟨isAVL_node.mpr ⟨by omega, by omega, hl, hr⟩, ?_, fun _ => ?_⟩
      · rw [height_node]; omega
      · exact ⟨by simp only [bfOf]; omega, by trivial⟩
    · split at h
      · exact absurd h (by simp)
      · rename_i t2 heq
        simp only [Option.some.injEq, Prod.mk.injEq] at h
        obtain ⟨h1', h2'⟩ := h
        subst h1'; subst h2'
        have hbal := balance_spec heq hl hr (by omega) (by omega)
        obtain ⟨s1, s2, s3⟩ := hbal
        by_cases hb0 : bfOf t2 = 0
        · have hh2 := s2 hb0
          simp only [HeightChange.delta]
          exact ⟨s1, by omega, fun hx => nomatch hx⟩
        · obtain ⟨hh2, hcase⟩ := s3 hb0
          rcases hcase with ⟨hm, hlbf⟩ | ⟨hm, hrbf⟩
          · omega
          · rcases hsig rfl with hs | hs
            · exact absurd hrbf hs
            · omega
  | Decreased =>
    simp only [handleChildChange] at h
    simp only [HeightChange.delta] at hrel
    split_ifs at h with h0 h1
    · simp only [Option.some.injEq, Prod.mk.injEq] at h
      obtain ⟨h1', h2'⟩ := h
      subst h1'; subst h2'
      simp only [HeightChange.delta]
      refine ⟨isAVL_node.mpr ⟨by omega, by omega, hl, hr⟩, ?_, fun hx => nomatch hx⟩
      rw [height_node]; omega
    · simp only [Option.some.injEq, Prod.mk.injEq] at h
      obtain ⟨h1', h2'⟩ := h
      subst h1'; subst h2'
      simp only [HeightChange.delta]
      refine ⟨isAVL_node.mpr ⟨by omega, by omega, hl, hr⟩, ?_, fun hx => nomatch hx⟩
      rw [height_node]; omega
    · split at h
      · exact absurd h (by simp)
      · rename_i t2 heq
        have hbal := balance_spec heq hl hr (by omega) (by omega)
        obtain ⟨s1, s2, s3⟩ := hbal
        split_ifs at h with hb0
        · simp only [Option.some.injEq, Prod.mk.injEq] at h
          obtain ⟨h1', h2'⟩ := h
          subst h1'; subst h2'
          have hh2 := s2 hb0
          simp only [HeightChange.delta]
          exact ⟨s1, by omega, fun hx => nomatch hx⟩
        · simp only [Option.some.injEq, Prod.mk.injEq] at h
          obtain ⟨h1', h2'⟩ := h
          subst h1'; subst h2'
          obtain ⟨hh2, hcase⟩ := s3 hb0
          simp only [HeightChange.delta]
          exact ⟨s1, by omega, fun hx => nomatch hx⟩

theorem isAVL_newNode (x : α) : isAVL (newNode x) = true := by
  rw [newNode, isAVL_node]
  refine ⟨by rw [height_nil]; omega, by decide, rfl, rfl⟩

theorem height_newNode (x : α) : height (newNode x) = 1 := by
  rw [newNode, height_node, height_nil]; simp

theorem insert_spec {x : α} : ∀ {t t' : AVLTree α} {ch : HeightChange},
    insert t x = some (t', ch) → isAVL t = true →
    isAVL t' = true ∧ height t' = height t + ch.delta ∧
      (ch = HeightChange.Increased → bfOf t' ≠ 0) := by
  intro t
  induction t with
  | nil => intro t' ch h _; simp [insert] at h
  | node v l r bf ihl ihr =>
    intro t' ch h ht
    rw [isAVL_node] at ht
    obtain ⟨hbf, hb2, hl, hr⟩ := ht
    have e0 : height (node v l r bf) = 1 + max (height l) (height r) := rfl
    unfold insert at h
    split_ifs at h with hlt hgt
    · split at h
      · rw [height_nil] at hbf e0
        have hs := handleChildChange_left_spec (L := 0) h (isAVL_newNode x) hr
          (by omega) hb2
          (by rw [height_newNode]; rfl)
          (fun _ => Or.inr (by rw [height_newNode]))
        obtain ⟨s1, s2, s3⟩ := hs
        exact ⟨s1, by omega, fun hx => (s3 hx).1⟩
      · rename_i v1 l1 r1 b1
        obtain ⟨⟨l2, ch0⟩, hp, h2⟩ := Option.bind_eq_some.mp h
        have h2' : handleChildChange (node v l2 r bf) ch0 Side.Left = some (t', ch) := h2
        obtain ⟨s1, s2, s3⟩ := ihl hp hl
        have hs := handleChildChange_left_spec (L := height (node v1 l1 r1 b1))
          h2' s1 hr hbf hb2 (by omega) (fun hx => Or.inl (s3 hx))
        obtain ⟨u1, u2, u3⟩ := hs
        exact ⟨u1, by omega, fun hx => (u3 hx).1⟩
    · split at h
      · rw [height_nil] at hbf e0
        have hs := handleChildChange_right_spec (R := 0) h hl (isAVL_newNode x)
          (by omega) hb2
          (by rw [height_newNode]; rfl)
          (fun _ => Or.inr (by rw [height_newNode]))
        obtain ⟨s1, s2, s3⟩ := hs
        exact ⟨s1, by omega, fun hx => (s3 hx).1⟩
      · rename_i v1 l1 r1 b1
        obtain ⟨⟨r2, ch0⟩, hp, h2⟩ := Option.bind_eq_some.mp h
        have h2' : handleChildChange (node v l r2 bf) ch0 Side.Right = some (t', ch) := h2
        obtain ⟨s1, s2, s3⟩ := ihr hp hr
        have hs := handleChildChange_right_spec (R := height (node v1 l1 r1 b1))
          h2' hl s1 hbf hb2 (by omega) (fun hx => Or.inl (s3 hx))
        obtain ⟨u1, u2, u3⟩ := hs
        exact ⟨u1, by omega, fun hx => (u3 hx).1⟩
    · simp only [Option.some.injEq, Prod.mk.injEq] at h
      obtain ⟨h1, h2⟩ := h
      subst h1; subst h2
      have e1 : height (node x l r bf) = 1 + max (height l) (height r) := rfl
      refine ⟨isAVL_node.mpr ⟨by omega, hb2, hl, hr⟩, ?_, fun hx => nomatch hx⟩
      simp only [HeightChange.delta]; omega

theorem popSmallest_spec : ∀ {t t2 : AVLTree α} {p : α} {ch : HeightChange},
    popSmallest t = some (t2, p, ch) → isAVL t = true →
    isAVL t2 = true ∧ height t2 = height t + ch.delta ∧ ch ≠ HeightChange.Increased := by
  intro t
  induction t with
  | nil => intro t2 p ch h _; simp [popSmallest] at h
  | node v l r bf ihl ihr =>
    intro t2 p ch h ht
    rw [isAVL_node] at ht
    obtain ⟨hbf, hb2, hl, hr⟩ := ht
    have e0 : height (node v l r bf) = 1 + max (height l) (height r) := rfl
    have hlh := height_nonneg l
    have hrh := height_nonneg r
    unfold popSmallest at h
    split at h
    · simp only [Option.some.injEq, Prod.mk.injEq] at h
      obtain ⟨h1, h2, h3⟩ := h
      subst h1; subst h3
      rw [height_nil] at e0 hbf
      refine ⟨hr, ?_, by decide⟩
      simp only [HeightChange.delta]
      omega
    · rename_i v1 l1 r1 b1
      obtain ⟨⟨l2, p0, ch0⟩, hp, h2⟩ := Option.bind_eq_some.mp h
      have h2' : (do
          let (t1, ch1) ← handleChildChange (node v l2 r bf) ch0 Side.Left
          some (t1, p0, ch1) : Option _) = some (t2, p, ch) := h2
      obtain ⟨⟨t1, ch1⟩, hq, h3⟩ := Option.bind_eq_some.mp h2'
      have h3' : (some (t1, p0, ch1) : Option _) = some (t2, p, ch) := h3
      simp only [Option.some.injEq, Prod.mk.injEq] at h3'
      obtain ⟨e1, e2, e3⟩ := h3'
      subst e1; subst e3
      obtain ⟨s1, s2, s3⟩ := ihl hp hl
      obtain ⟨u1, u2, u3⟩ := handleChildChange_left_spec
        (L := height (node v1 l1 r1 b1)) hq s1 hr hbf hb2 (by omega)
        (fun hx => absurd hx s3)
      exact ⟨u1, by omega, fun hx => s3 (u3 hx).2⟩

theorem remove_spec {x : α} : ∀ {t t' : AVLTree α} {ch : HeightChange} {rv : Option α},
    remove t x = some (t', ch, rv) → isAVL t = true →
    isAVL t' = true ∧ height t' = height t + ch.delta ∧ ch ≠ HeightChange.Increased := by
  intro t
  induction t with
  | nil => intro t' ch rv h _; simp [remove] at h
  | node v l r bf ihl ihr =>
    intro t' ch rv h ht
    rw [isAVL_node] at ht
    obtain ⟨hbf, hb2, hl, hr⟩ := ht
    have e0 : height (node v l r bf) = 1 + max (height l) (height r) := rfl
    have hlh := height_nonneg l
    have hrh := height_nonneg r
    unfold remove at h
    split_ifs at h with hlt hgt
    · split at h
      · simp only [Option.some.injEq, Prod.mk.injEq] at h
        obtain ⟨h1, h2, h3⟩ := h
        subst h1; subst h2
        refine ⟨isAVL_node.mpr ⟨hbf, hb2, hl, hr⟩, ?_, by decide⟩
        simp only [HeightChange.delta]
        omega
      · rename_i v1 l1 r1 b1
        obtain ⟨⟨l2, ch0, rv0⟩, hp, h2⟩ := Option.bind_eq_some.mp h
        have h2' : (do
            let (t1, ch1) ← handleChildChange (node v l2 r bf) ch0 Side.Left
            some (t1, ch1, rv0) : Option _) = some (t', ch, rv) := h2
        obtain ⟨⟨t1, ch1⟩, hq, h3⟩ := Option.bind_eq_some.mp h2'
        have h3' : (some (t1, ch1, rv0) : Option _) = some (t', ch, rv) := h3
        simp only [Option.some.injEq, Prod.mk.injEq] at h3'
        obtain ⟨e1, e2, e3⟩ := h3'
        subst e1; subst e2
        obtain ⟨s1, s2, s3⟩ := ihl hp hl
        obtain ⟨u1, u2, u3⟩ := handleChildChange_left_spec
          (L := height (node v1 l1 r1 b1)) hq s1 hr hbf hb2 (by omega)
          (fun hx => absurd hx s3)
        exact ⟨u1, by omega, fun hx => s3 (u3 hx).2⟩
    · split at h
      · simp only [Option.some.injEq, Prod.mk.injEq] at h
        obtain ⟨h1, h2, h3⟩ := h
        subst h1; subst h2
        refine ⟨isAVL_node.mpr ⟨hbf, hb2, hl, hr⟩, ?_, by decide⟩
        simp only [HeightChange.delta]
        omega
      · rename_i v1 l1 r1 b1
        obtain ⟨⟨r2, ch0, rv0⟩, hp, h2⟩ := Option.bind_eq_some.mp h
        have h2' : (do
            let (t1, ch1) ← handleChildChange (node v l r2 bf) ch0 Side.Right
            some (t1, ch1, rv0) : Option _) = some (t', ch, rv) := h2
        obtain ⟨⟨t1, ch1⟩, hq, h3⟩ := Option.bind_eq_some.mp h2'
        have h3' : (some (t1, ch1, rv0) : Option _) = some (t', ch, rv) := h3
        simp only [Option.some.injEq, Prod.mk.injEq] at h3'
        obtain ⟨e1, e2, e3⟩ := h3'
        subst e1; subst e2
        obtain ⟨s1, s2, s3⟩ := ihr hp hr
        obtain ⟨u1, u2, u3⟩ := handleChildChange_right_spec
          (R := height (node v1 l1 r1 b1)) hq hl s1 hbf hb2 (by omega)
          (fun hx => absurd hx s3)
        exact ⟨u1, by omega, fun hx => s3 (u3 hx).2⟩
    · split at h
      · rename_i lv ll lr lb rv1 rl rr rb
        obtain ⟨⟨r2, repl, ch0⟩, hp, h2⟩ := Option.bind_eq_some.mp h
        have h2' : (do
            let (t1, ch1) ←
              handleChildChange (node repl (node lv ll lr lb) r2 bf) ch0 Side.Right
            some (t1, ch1, some v) : Option _) = some (t', ch, rv) := h2
        obtain ⟨⟨t1, ch1⟩, hq, h3⟩ := Option.bind_eq_some.mp h2'
        have h3' : (some (t1, ch1, some v) : Option _) = some (t', ch, rv) := h3
        simp only [Option.some.injEq, Prod.mk.injEq] at h3'
        obtain ⟨e1, e2, e3⟩ := h3'
        subst e1; subst e2
        obtain ⟨s1, s2, s3⟩ := popSmallest_spec hp hr
        obtain ⟨u1, u2, u3⟩ := handleChildChange_right_spec
          (R := height (node rv1 rl rr rb)) hq hl s1 hbf hb2 (by omega)
          (fun hx => absurd hx s3)
        exact ⟨u1, by omega, fun hx => s3 (u3 hx).2⟩
      · rename_i rv1 rl rr rb
        simp only [Option.some.injEq, Prod.mk.injEq] at h
        obtain ⟨h1, h2, h3⟩ := h
        subst h1; subst h2
        rw [height_nil] at e0
        refine ⟨hr, ?_, by decide⟩
        simp only [HeightChange.delta]
        omega
      · rename_i lv ll lr lb
        simp only [Option.some.injEq, Prod.mk.injEq] at h
        obtain ⟨h1, h2, h3⟩ := h
        subst h1; subst h2
        rw [height_nil] at e0
        refine ⟨hl, ?_, by decide⟩
        simp only [HeightChange.delta]
        omega
      · simp only [Option.some.injEq, Prod.mk.injEq] at h
        obtain ⟨h1, h2, h3⟩ := h
        subst h1; subst h2
        refine ⟨rfl, ?_, by decide⟩
        simp only [HeightChange.delta, height_nil, e0]
        omega

theorem treeInsert_isAVL {t t' : AVLTree α} {x : α}
    (h : treeInsert t x = some t') (ht : isAVL t = true) : isAVL t' = true := by
  cases t with
  | nil =>
    simp only [treeInsert, Option.some.injEq] at h
    subst h
    exact isAVL_newNode x
  | node v l r bf =>
    simp only [treeInsert] at h
    obtain ⟨⟨t1, ch⟩, hp, h2⟩ := Option.bind_eq_some.mp h
    have h2' : (some t1 : Option _) = some t' := h2
    rw [Option.some.injEq] at h2'
    subst h2'
    exact (insert_spec hp ht).1

theorem treeRemove_isAVL {t t' : AVLTree α} {x : α} {rv : Option α}
    (h : treeRemove t x = some (t', rv)) (ht : isAVL t = true) : isAVL t' = true := by
  cases t with
  | nil =>
    simp only [treeRemove, Option.some.injEq, Prod.mk.injEq] at h
    obtain ⟨h1, h2⟩ := h
    subst h1
    exact rfl
  | node v l r bf =>
    simp only [treeRemove] at h
    obtain ⟨⟨t1, ch, rv0⟩, hp, h2⟩ := Option.bind_eq_some.mp h
    have h2' : (some (t1, rv0) : Option _) = some (t', rv) := h2
    simp only [Option.some.injEq, Prod.mk.injEq] at h2'
    obtain ⟨h1, h2⟩ := h2'
    subst h1
    exact (remove_spec hp ht).1

end AVLTree

theorem runAVLFrom_isAVL {α : Type} [LinearOrder α] :
    ∀ (ops : List (AVLOp α)) (t t' : AVLTree α),
      runAVLFrom t ops = some t' → AVLTree.isAVL t = true →
      AVLTree.isAVL t' = true := by
  intro ops
  induction ops with
  | nil =>
    intro t t' h ht
    simp only [runAVLFrom, Option.some.injEq] at h
    subst h; exact ht
  | cons op ops ih =>
    intro t t' h ht
    cases op with
    | ins x =>
      simp only [runAVLFrom] at h
      obtain ⟨t1, hp, h2⟩ := Option.bind_eq_some.mp h
      exact ih t1 t' h2 (AVLTree.treeInsert_isAVL hp ht)
    | del x =>
      simp only [runAVLFrom] at h
      obtain ⟨⟨t1, rv⟩, hp, h2⟩ := Option.bind_eq_some.mp h
      have h2' : runAVLFrom t1 ops = some t' := h2
      exact ih t1 t' h2' (AVLTree.treeRemove_isAVL hp ht)

/-- Claim C2: after every sequence of public AVL operations from the empty
tree, every node's balance factor equals the height of its right subtree
minus the height of its left subtree, and its absolute value is at most 1. -/
theorem claim_C2 {α : Type} [LinearOrder α] (ops : List (AVLOp α))
    (t : AVLTree α) (h : runAVL ops = some t) : AVLTree.isAVL t = true :=
  runAVLFrom_isAVL ops .nil t h rfl

/-- Witness for claim C2 at a concrete operation sequence. -/
theorem claim_C2_witness :
    AVLTree.isAVL (AVLTree.node 2 (AVLTree.node 1 .nil .nil 0)
      (AVLTree.node 3 .nil .nil 0) (0 : Int) : AVLTree Nat) = true :=
  claim_C2 [AVLOp.ins 1, AVLOp.ins 2, AVLOp.ins 3]
    (AVLTree.node 2 (AVLTree.node 1 .nil .nil 0) (AVLTree.node 3 .nil .nil 0) 0)
    (by decide)

/-! ## AVL binary-search-tree order preservation -/

namespace AVLTree

variable {α : Type} [LinearOrder α]

theorem allKeys_node {p : α → Bool} {v : α} {l r : AVLTree α} {bf : Int} :
    allKeys p (node v l r bf) = true ↔
      p v = true ∧ allKeys p l = true ∧ allKeys p r = true := by
  simp [allKeys, Bool.and_eq_true, and_assoc]

theorem isBST_node {v : α} {l r : AVLTree α} {bf : Int} :
    isBST (node v l r bf) = true ↔
      allKeys (fun y => decide (y < v)) l = true ∧
      allKeys (fun y => decide (v < y)) r = true ∧
      isBST l = true ∧ isBST r = true := by
  simp [isBST, Bool.and_eq_true, and_assoc]

theorem allKeys_imp {p q : α → Bool} (hpq : ∀ y, p y = true → q y = true) :
    ∀ {t : AVLTree α}, allKeys p t = true → allKeys q t = true := by
  intro t
  induction t with
  | nil => intro h; rfl
  | node v l r bf ihl ihr =>
    intro h
    rw [allKeys_node] at h ⊢
    exact ⟨hpq v h.1, ihl h.2.1, ihr h.2.2⟩

theorem rotateRight_keys {t t' : AVLTree α} {p : α → Bool}
    (h : rotateRight t = some t') (hk : allKeys p t = true) :
    allKeys p t' = true := by
  cases t with
  | nil => simp [rotateRight] at h
  | node a l r bf =>
    cases l with
    | nil => simp [rotateRight] at h
    | node b bl br bbf =>
      simp only [rotateRight] at h
      split_ifs at h <;> (injection h with h; subst h) <;>
        (simp only [allKeys_node] at hk ⊢; tauto)

theorem rotateLeft_keys {t t' : AVLTree α} {p : α → Bool}
    (h : rotateLeft t = some t') (hk : allKeys p t = true) :
    allKeys p t' = true := by
  cases t with
  | nil => simp [rotateLeft] at h
  | node a l r bf =>
    cases r with
    | nil => simp [rotateLeft] at h
    | node b bl br bbf =>
      simp only [rotateLeft] at h
      split_ifs at h <;> (injection h with h; subst h) <;>
        (simp only [allKeys_node] at hk ⊢; tauto)

theorem rotateLeftRight_keys {t t' : AVLTree α} {p : α → Bool}
    (h : rotateLeftRight t = some t') (hk : allKeys p t = true) :
    allKeys p t' = true := by
  cases t with
  | nil => simp [rotateLeftRight] at h
  | node a l w bf =>
    cases l with
    | nil => simp [rotateLeftRight] at h
    | node b x c bbf =>
      cases c with
      | nil => simp [rotateLeftRight] at h
      | node cv y z cbf =>
        simp only [rotateLeftRight] at h
        injection h with h; subst h
        simp only [allKeys_node] at hk ⊢; tauto

theorem rotateRightLeft_keys {t t' : AVLTree α} {p : α → Bool}
    (h : rotateRightLeft t = some t') (hk : allKeys p t = true) :
    allKeys p t' = true := by
  cases t with
  | nil => simp [rotateRightLeft] at h
  | node a w r bf =>
    cases r with
    | nil => simp [rotateRightLeft] at h
    | node b c x bbf =>
      cases c with
      | nil => simp [rotateRightLeft] at h
      | node cv y z cbf =>
        simp only [rotateRightLeft] at h
        injection h with h; subst h
        simp only [allKeys_node] at hk ⊢; tauto

theorem balance_keys {t t' : AVLTree α} {p : α → Bool}
    (h : balance t = some t') (hk : allKeys p t = true) :
    allKeys p t' = true := by
  cases t with
  | nil => simp [balance] at h
  | node v l r bf =>
    simp only [balance] at h
    split_ifs at h with h1 h2
    · split at h
      · exact absurd h (by simp)
      · split_ifs at h
        · exact rotateRight_keys h hk
        · exact rotateLeftRight_keys h hk
    · split at h
      · exact absurd h (by simp)
      · split_ifs at h
        · exact rotateLeft_keys h hk
        · exact rotateRightLeft_keys h hk

theorem handleChildChange_keys {v : α} {l r t' : AVLTree α} {bf : Int}
    {ch ch' : HeightChange} {side : Side} {p : α → Bool}
    (h : handleChildChange (node v l r bf) ch side = some (t', ch'))
    (hv : p v = true) (hkl : allKeys p l = true) (hkr : allKeys p r = true) :
    allKeys p t' = true := by
  cases ch with
  | Unchanged =>
    simp only [handleChildChange] at h
    simp only [Option.some.injEq, Prod.mk.injEq] at h
    obtain ⟨h1, h2⟩ := h
    subst h1
    exact allKeys_node.mpr ⟨hv, hkl, hkr⟩
  | Increased =>
    simp only [handleChildChange] at h
    split_ifs at h with h0 h1
    · simp only [Option.some.injEq, Prod.mk.injEq] at h
      obtain ⟨h1', h2'⟩ := h
      subst h1'
      exact allKeys_node.mpr ⟨hv, hkl, hkr⟩
    · simp only [Option.some.injEq, Prod.mk.injEq] at h
      obtain ⟨h1', h2'⟩ := h
      subst h1'
      exact allKeys_node.mpr ⟨hv, hkl, hkr⟩
    · split at h
      · exact absurd h (by simp)
      · rename_i t2 heq
        simp only [Option.some.injEq, Prod.mk.injEq] at h
        obtain ⟨h1', h2'⟩ := h
        subst h1'
        exact balance_keys heq (allKeys_node.mpr ⟨hv, hkl, hkr⟩)
  | Decreased =>
    simp only [handleChildChange] at h
    split_ifs at h with h0 h1
    · simp only [Option.some.injEq, Prod.mk.injEq] at h
      obtain ⟨h1', h2'⟩ := h
      subst h1'
      exact allKeys_node.mpr ⟨hv, hkl, hkr⟩
    · simp only [Option.some.injEq, Prod.mk.injEq] at h
      obtain ⟨h1', h2'⟩ := h
      subst h1'
      exact allKeys_node.mpr ⟨hv, hkl, hkr⟩
    · split at h
      · exact absurd h (by simp)
      · rename_i t2 heq
        split_ifs at h <;>
          (simp only [Option.some.injEq, Prod.mk.injEq] at h;
           obtain ⟨h1', h2'⟩ := h; subst h1';
           exact balance_keys heq (allKeys_node.mpr ⟨hv, hkl, hkr⟩))

theorem allKeys_newNode {p : α → Bool} {x : α} :
    allKeys p (newNode x) = true ↔ p x = true := by
  simp [newNode, allKeys]

theorem rotateRight_isBST {t t' : AVLTree α} (h : rotateRight t = some t')
    (hb : isBST t = true) : isBST t' = true := by
  cases t with
  | nil => simp [rotateRight] at h
  | node a l r bf =>
    cases l with
    | nil => simp [rotateRight] at h
    | node b bl br bbf =>
      rw [isBST_node] at hb
      obtain ⟨hal, har, hbstl, hbstr⟩ := hb
      rw [allKeys_node] at hal
      obtain ⟨hba, hbla, hbra⟩ := hal
      rw [isBST_node] at hbstl
      obtain ⟨hlb, hrb, hbst1, hbst2⟩ := hbstl
      have hba' : b < a := of_decide_eq_true hba
      simp only [rotateRight] at h
      split_ifs at h <;> (injection h with h; subst h)
      all_goals
        rw [isBST_node]
        refine ⟨hlb, ?_, hbst1, ?_⟩
      any_goals
        rw [allKeys_node]
        exact ⟨decide_eq_true hba', hrb,
          allKeys_imp (fun y hy =>
            decide_eq_true (lt_trans hba' (of_decide_eq_true hy))) har⟩
      all_goals
        rw [isBST_node]
        exact ⟨hbra, har, hbst2, hbstr⟩

theorem rotateLeft_isBST {t t' : AVLTree α} (h : rotateLeft t = some t')
    (hb : isBST t = true) : isBST t' = true := by
  cases t with
  | nil => simp [rotateLeft] at h
  | node a l r bf =>
    cases r with
    | nil => simp [rotateLeft] at h
    | node b bl br bbf =>
      rw [isBST_node] at hb
      obtain ⟨hal, har, hbstl, hbstr⟩ := hb
      rw [allKeys_node] at har
      obtain ⟨hab, hbla, hbra⟩ := har
      rw [isBST_node] at hbstr
      obtain ⟨hlb, hrb, hbst1, hbst2⟩ := hbstr
      have hab' : a < b := of_decide_eq_true hab
      simp only [rotateLeft] at h
      split_ifs at h <;> (injection h with h; subst h)
      all_goals
        rw [isBST_node]
        refine ⟨?_, hrb, ?_, hbst2⟩
      any_goals
        rw [allKeys_node]
        exact ⟨decide_eq_true hab',
          allKeys_imp (fun y hy =>
            decide_eq_true (lt_trans (of_decide_eq_true hy) hab')) hal, hlb⟩
      all_goals
        rw [isBST_node]
        exact ⟨hal, hbla, hbstl, hbst1⟩

theorem rotateLeftRight_isBST {t t' : AVLTree α} (h : rotateLeftRight t = some t')
    (hb : isBST t = true) : isBST t' = true := by
  cases t with
  | nil => simp [rotateLeftRight] at h
  | node a l w bf =>
    cases l with
    | nil => simp [rotateLeftRight] at h
    | node b x c bbf =>
      cases c with
      | nil => simp [rotateLeftRight] at h
      | node cv y z cbf =>
        rw [isBST_node] at hb
        obtain ⟨hal, haw, hbstl, hbstw⟩ := hb
        rw [allKeys_node] at hal
        obtain ⟨hba, hxa, hca⟩ := hal
        rw [allKeys_node] at hca
        obtain ⟨hcva, hya, hza⟩ := hca
        rw [isBST_node] at hbstl
        obtain ⟨hxb, hcb, hbstx, hbstc⟩ := hbstl
        rw [allKeys_node] at hcb
        obtain ⟨hbcv, hyb, hzb⟩ := hcb
        rw [isBST_node] at hbstc
        obtain ⟨hyc, hzc, hbsty, hbstz⟩ := hbstc
        have hbcv' : b < cv := of_decide_eq_true hbcv
        have hcva' : cv < a := of_decide_eq_true hcva
        simp only [rotateLeftRight] at h
        injection h with h; subst h
        rw [isBST_node]
        refine ⟨?_, ?_, ?_, ?_⟩
        · rw [allKeys_node]
          exact ⟨decide_eq_true hbcv',
            allKeys_imp (fun u hu =>
              decide_eq_true (lt_trans (of_decide_eq_true hu) hbcv')) hxb, hyc⟩
        · rw [allKeys_node]
          refine ⟨decide_eq_true hcva', hzc, ?_⟩
          exact allKeys_imp (fun u hu =>
            decide_eq_true (lt_trans hcva' (of_decide_eq_true hu))) haw
        · rw [isBST_node]
          exact ⟨hxb, hyb, hbstx, hbsty⟩
        · rw [isBST_node]
          exact ⟨hza, haw, hbstz, hbstw⟩

theorem rotateRightLeft_isBST {t t' : AVLTree α} (h : rotateRightLeft t = some t')
    (hb : isBST t = true) : isBST t' = true := by
  cases t with
  | nil => simp [rotateRightLeft] at h
  | node a w r bf =>
    cases r with
    | nil => simp [rotateRightLeft] at h
    | node b c x bbf =>
      cases c with
      | nil => simp [rotateRightLeft] at h
      | node cv y z cbf =>
        rw [isBST_node] at hb
        obtain ⟨haw, har, hbstw, hbstr⟩ := hb
        rw [allKeys_node] at har
        obtain ⟨hab, hca, hxa⟩ := har
        rw [allKeys_node] at hca
        obtain ⟨hacv, hya, hza⟩ := hca
        rw [isBST_node] at hbstr
        obtain ⟨hcb, hxb, hbstc, hbstx⟩ := hbstr
        rw [allKeys_node] at hcb
        obtain ⟨hcvb, hyb, hzb⟩ := hcb
        rw [isBST_node] at hbstc
        obtain ⟨hyc, hzc, hbsty, hbstz⟩ := hbstc
        have hacv' : a < cv := of_decide_eq_true hacv
        have hcvb' : cv < b := of_decide_eq_true hcvb
        simp only [rotateRightLeft] at h
        injection h with h; subst h
        rw [isBST_node]
        refine ⟨?_, ?_, ?_, ?_⟩
        · rw [allKeys_node]
          refine ⟨decide_eq_true hacv', ?_, hyc⟩
          exact allKeys_imp (fun u hu =>
            decide_eq_true (lt_trans (of_decide_eq_true hu) hacv')) haw
        · rw [allKeys_node]
          refine ⟨decide_eq_true hcvb', hzc, ?_⟩
          exact allKeys_imp (fun u hu =>
            decide_eq_true (lt_trans hcvb' (of_decide_eq_true hu))) hxb
        · rw [isBST_node]
          exact ⟨haw, hya, hbstw, hbsty⟩
        · rw [isBST_node]
          exact ⟨hzb, hxb, hbstz, hbstx⟩

theorem balance_isBST {t t' : AVLTree α}
    (h : balance t = some t') (hb : isBST t = true) : isBST t' = true := by
  cases t with
  | nil => simp [balance] at h
  | node v l r bf =>
    simp only [balance] at h
    split_ifs at h with h1 h2
    · split at h
      · exact absurd h (by simp)
      · split_ifs at h
        · exact rotateRight_isBST h hb
        · exact rotateLeftRight_isBST h hb
    · split at h
      · exact absurd h (by simp)
      · split_ifs at h
        · exact rotateLeft_isBST h hb
        · exact rotateRightLeft_isBST h hb

theorem handleChildChange_isBST {v : α} {l r t' : AVLTree α} {bf : Int}
    {ch ch' : HeightChange} {side : Side}
    (h : handleChildChange (node v l r bf) ch side = some (t', ch'))
    (h1 : allKeys (fun y => decide (y < v)) l = true)
    (h2 : allKeys (fun y => decide (v < y)) r = true)
    (h3 : isBST l = true) (h4 : isBST r = true) : isBST t' = true := by
  have hass : isBST (node v l r bf) = true := isBST_node.mpr ⟨h1, h2, h3, h4⟩
  cases ch with
  | Unchanged =>
    simp only [handleChildChange] at h
    simp only [Option.some.injEq, Prod.mk.injEq] at h
    obtain ⟨ha, hb⟩ := h
    subst ha
    exact isBST_node.mpr ⟨h1, h2, h3, h4⟩
  | Increased =>
    simp only [handleChildChange] at h
    split_ifs at h with h0 h5
    · simp only [Option.some.injEq, Prod.mk.injEq] at h
      obtain ⟨ha, hb⟩ := h
      subst ha
      exact isBST_node.mpr ⟨h1, h2, h3, h4⟩
    · simp only [Option.some.injEq, Prod.mk.injEq] at h
      obtain ⟨ha, hb⟩ := h
      subst ha
      exact isBST_node.mpr ⟨h1, h2, h3, h4⟩
    · split at h
      · exact absurd h (by simp)
      · rename_i t2 heq
        simp only [Option.some.injEq, Prod.mk.injEq] at h
        obtain ⟨ha, hb⟩ := h
        subst ha
        exact balance_isBST heq (isBST_node.mpr ⟨h1, h2, h3, h4⟩)
  | Decreased =>
    simp only [handleChildChange] at h
    split_ifs at h with h0 h5
    · simp only [Option.some.injEq, Prod.mk.injEq] at h
      obtain ⟨ha, hb⟩ := h
      subst ha
      exact isBST_node.mpr ⟨h1, h2, h3, h4⟩
    · simp only [Option.some.injEq, Prod.mk.injEq] at h
      obtain ⟨ha, hb⟩ := h
      subst ha
      exact isBST_node.mpr ⟨h1, h2, h3, h4⟩
    · split at h
      · exact absurd h (by simp)
      · rename_i t2 heq
        split_ifs at h <;>
          (simp only [Option.some.injEq, Prod.mk.injEq] at h;
           obtain ⟨ha, hb⟩ := h; subst ha;
           exact balance_isBST heq (isBST_node.mpr ⟨h1, h2, h3, h4⟩))

theorem insert_keys {x : α} {p : α → Bool} :
    ∀ {t t' : AVLTree α} {ch : HeightChange},
    insert t x = some (t', ch) → allKeys p t = true → p x = true →
    allKeys p t' = true := by
  intro t
  induction t with
  | nil => intro t' ch h _ _; simp [insert] at h
  | node v l r bf ihl ihr =>
    intro t' ch h hk hx
    rw [allKeys_node] at hk
    obtain ⟨hv, hkl, hkr⟩ := hk
    unfold insert at h
    split_ifs at h with hlt hgt
    · split at h
      · exact handleChildChange_keys h hv (allKeys_newNode.mpr hx) hkr
      · rename_i v1 l1 r1 b1
        obtain ⟨⟨l2, ch0⟩, hp, h2⟩ := Option.bind_eq_some.mp h
        have h2' : handleChildChange (node v l2 r bf) ch0 Side.Left = some (t', ch) := h2
        exact handleChildChange_keys h2' hv (ihl hp hkl hx) hkr
    · split at h
      · exact handleChildChange_keys h hv hkl (allKeys_newNode.mpr hx)
      · rename_i v1 l1 r1 b1
        obtain ⟨⟨r2, ch0⟩, hp, h2⟩ := Option.bind_eq_some.mp h
        have h2' : handleChildChange (node v l r2 bf) ch0 Side.Right = some (t', ch) := h2
        exact handleChildChange_keys h2' hv hkl (ihr hp hkr hx)
    · simp only [Option.some.injEq, Prod.mk.injEq] at h
      obtain ⟨h1, h2⟩ := h
      subst h1
      exact allKeys_node.mpr ⟨hx, hkl, hkr⟩

theorem insert_isBST {x : α} : ∀ {t t' : AVLTree α} {ch : HeightChange},
    insert t x = some (t', ch) → isBST t = true → isBST t' = true := by
  intro t
  induction t with
  | nil => intro t' ch h _; simp [insert] at h
  | node v l r bf ihl ihr =>
    intro t' ch h hb
    rw [isBST_node] at hb
    obtain ⟨h1, h2, h3, h4⟩ := hb
    unfold insert at h
    split_ifs at h with hlt hgt
    · split at h
      · exact handleChildChange_isBST h (allKeys_newNode.mpr (decide_eq_true hlt))
          h2 rfl h4
      · rename_i v1 l1 r1 b1
        obtain ⟨⟨l2, ch0⟩, hp, hq⟩ := Option.bind_eq_some.mp h
        have hq' : handleChildChange (node v l2 r bf) ch0 Side.Left = some (t', ch) := hq
        exact handleChildChange_isBST hq'
          (insert_keys hp h1 (decide_eq_true hlt)) h2 (ihl hp h3) h4
    · split at h
      · exact handleChildChange_isBST h h1
          (allKeys_newNode.mpr (decide_eq_true hgt)) h3 rfl
      · rename_i v1 l1 r1 b1
        obtain ⟨⟨r2, ch0⟩, hp, hq⟩ := Option.bind_eq_some.mp h
        have hq' : handleChildChange (node v l r2 bf) ch0 Side.Right = some (t', ch) := hq
        exact handleChildChange_isBST hq' h1
          (insert_keys hp h2 (decide_eq_true hgt)) h3 (ihr hp h4)
    · simp only [Option.some.injEq, Prod.mk.injEq] at h
      obtain ⟨ha, hbq⟩ := h
      subst ha
      have hxv : x = v := le_antisymm (le_of_not_lt hgt) (le_of_not_lt hlt)
      subst hxv
      exact isBST_node.mpr ⟨h1, h2, h3, h4⟩

theorem popSmallest_keys {q : α → Bool} :
    ∀ {t t2 : AVLTree α} {p0 : α} {ch : HeightChange},
    popSmallest t = some (t2, p0, ch) → allKeys q t = true →
    q p0 = true ∧ allKeys q t2 = true := by
  intro t
  induction t with
  | nil => intro t2 p0 ch h _; simp [popSmallest] at h
  | node v l r bf ihl ihr =>
    intro t2 p0 ch h hk
    rw [allKeys_node] at hk
    obtain ⟨hv, hkl, hkr⟩ := hk
    unfold popSmallest at h
    split at h
    · simp only [Option.some.injEq, Prod.mk.injEq] at h
      obtain ⟨ha, hb, hc⟩ := h
      subst ha; subst hb
      exact ⟨hv, hkr⟩
    · rename_i v1 l1 r1 b1
      obtain ⟨⟨l2, p1, ch0⟩, hp, h2⟩ := Option.bind_eq_some.mp h
      have h2' : (do
          let (t1, ch1) ← handleChildChange (node v l2 r bf) ch0 Side.Left
          some (t1, p1, ch1) : Option _) = some (t2, p0, ch) := h2
      obtain ⟨⟨t1, ch1⟩, hq, h3⟩ := Option.bind_eq_some.mp h2'
      have h3' : (some (t1, p1, ch1) : Option _) = some (t2, p0, ch) := h3
      simp only [Option.some.injEq, Prod.mk.injEq] at h3'
      obtain ⟨e1, e2, e3⟩ := h3'
      subst e1; subst e2
      obtain ⟨hq0, hkl2⟩ := ihl hp hkl
      exact ⟨hq0, handleChildChange_keys hq hv hkl2 hkr⟩

theorem popSmallest_isBST :
    ∀ {t t2 : AVLTree α} {p0 : α} {ch : HeightChange},
    popSmallest t = some (t2, p0, ch) → isBST t = true →
    isBST t2 = true ∧ allKeys (fun y => decide (p0 < y)) t2 = true := by
  intro t
  induction t with
  | nil => intro t2 p0 ch h _; simp [popSmallest] at h
  | node v l r bf ihl ihr =>
    intro t2 p0 ch h hb
    rw [isBST_node] at hb
    obtain ⟨h1, h2, h3, h4⟩ := hb
    unfold popSmallest at h
    split at h
    · simp only [Option.some.injEq, Prod.mk.injEq] at h
      obtain ⟨ha, hbq, hc⟩ := h
      subst ha; subst hbq
      exact ⟨h4, h2⟩
    · rename_i v1 l1 r1 b1
      obtain ⟨⟨l2, p1, ch0⟩, hp, hq2⟩ := Option.bind_eq_some.mp h
      have hq2' : (do
          let (t1, ch1) ← handleChildChange (node v l2 r bf) ch0 Side.Left
          some (t1, p1, ch1) : Option _) = some (t2, p0, ch) := hq2
      obtain ⟨⟨t1, ch1⟩, hq, h3'⟩ := Option.bind_eq_some.mp hq2'
      have h3'' : (some (t1, p1, ch1) : Option _) = some (t2, p0, ch) := h3'
      simp only [Option.some.injEq, Prod.mk.injEq] at h3''
      obtain ⟨e1, e2, e3⟩ := h3''
      subst e1; subst e2
      obtain ⟨hkl2a, hkl2b⟩ := popSmallest_keys hp h1
      obtain ⟨hbst2, hbound⟩ := ihl hp h3
      have hp0v : p1 < v := of_decide_eq_true hkl2a
      constructor
      · exact handleChildChange_isBST hq hkl2b h2 hbst2 h4
      · refine handleChildChange_keys hq (decide_eq_true hp0v) hbound ?_
        exact allKeys_imp (fun y hy =>
          decide_eq_true (lt_trans hp0v (of_decide_eq_true hy))) h2

theorem remove_keys {x : α} {q : α → Bool} :
    ∀ {t t' : AVLTree α} {ch : HeightChange} {rv : Option α},
    remove t x = some (t', ch, rv) → allKeys q t = true →
    allKeys q t' = true := by
  intro t
  induction t with
  | nil => intro t' ch rv h _; simp [remove] at h
  | node v l r bf ihl ihr =>
    intro t' ch rv h hk
    rw [allKeys_node] at hk
    obtain ⟨hv, hkl, hkr⟩ := hk
    unfold remove at h
    split_ifs at h with hlt hgt
    · split at h
      · simp only [Option.some.injEq, Prod.mk.injEq] at h
        obtain ⟨ha, hb, hc⟩ := h
        subst ha
        exact allKeys_node.mpr ⟨hv, hkl, hkr⟩
      · rename_i v1 l1 r1 b1
        obtain ⟨⟨l2, ch0, rv0⟩, hp, h2⟩ := Option.bind_eq_some.mp h
        have h2' : (do
            let (t1, ch1) ← handleChildChange (node v l2 r bf) ch0 Side.Left
            some (t1, ch1, rv0) : Option _) = some (t', ch, rv) := h2
        obtain ⟨⟨t1, ch1⟩, hq, h3⟩ := Option.bind_eq_some.mp h2'
        have h3' : (some (t1, ch1, rv0) : Option _) = some (t', ch, rv) := h3
        simp only [Option.some.injEq, Prod.mk.injEq] at h3'
        obtain ⟨e1, e2, e3⟩ := h3'
        subst e1
        exact handleChildChange_keys hq hv (ihl hp hkl) hkr
    · split at h
      · simp only [Option.some.injEq, Prod.mk.injEq] at h
        obtain ⟨ha, hb, hc⟩ := h
        subst ha
        exact allKeys_node.mpr ⟨hv, hkl, hkr⟩
      · rename_i v1 l1 r1 b1
        obtain ⟨⟨r2, ch0, rv0⟩, hp, h2⟩ := Option.bind_eq_some.mp h
        have h2' : (do
            let (t1, ch1) ← handleChildChange (node v l r2 bf) ch0 Side.Right
            some (t1, ch1, rv0) : Option _) = some (t', ch, rv) := h2
        obtain ⟨⟨t1, ch1⟩, hq, h3⟩ := Option.bind_eq_some.mp h2'
        have h3' : (some (t1, ch1, rv0) : Option _) = some (t', ch, rv) := h3
        simp only [Option.some.injEq, Prod.mk.injEq] at h3'
        obtain ⟨e1, e2, e3⟩ := h3'
        subst e1
        exact handleChildChange_keys hq hv hkl (ihr hp hkr)
    · split at h
      · rename_i lv ll lr lb rv1 rl rr rb
        obtain ⟨⟨r2, repl, ch0⟩, hp, h2⟩ := Option.bind_eq_some.mp h
        have h2' : (do
            let (t1, ch1) ←
              handleChildChange (node repl (node lv ll lr lb) r2 bf) ch0 Side.Right
            some (t1, ch1, some v) : Option _) = some (t', ch, rv) := h2
        obtain ⟨⟨t1, ch1⟩, hq, h3⟩ := Option.bind_eq_some.mp h2'
        have h3' : (some (t1, ch1, some v) : Option _) = some (t', ch, rv) := h3
        simp only [Option.some.injEq, Prod.mk.injEq] at h3'
        obtain ⟨e1, e2, e3⟩ := h3'
        subst e1
        obtain ⟨hrepl, hkr2⟩ := popSmallest_keys hp hkr
        exact handleChildChange_keys hq hrepl hkl hkr2
      · simp only [Option.some.injEq, Prod.mk.injEq] at h
        obtain ⟨ha, hb, hc⟩ := h
        subst ha
        exact hkr
      · simp only [Option.some.injEq, Prod.mk.injEq] at h
        obtain ⟨ha, hb, hc⟩ := h
        subst ha
        exact hkl
      · simp only [Option.some.injEq, Prod.mk.injEq] at h
        obtain ⟨ha, hb, hc⟩ := h
        subst ha
        exact rfl

theorem remove_isBST {x : α} :
    ∀ {t t' : AVLTree α} {ch : HeightChange} {rv : Option α},
    remove t x = some (t', ch, rv) → isBST t = true → isBST t' = true := by
  intro t
  induction t with
  | nil => intro t' ch rv h _; simp [remove] at h
  | node v l r bf ihl ihr =>
    intro t' ch rv h hb
    rw [isBST_node] at hb
    obtain ⟨h1, h2, h3, h4⟩ := hb
    unfold remove at h
    split_ifs at h with hlt hgt
    · split at h
      · simp only [Option.some.injEq, Prod.mk.injEq] at h
        obtain ⟨ha, hbq, hc⟩ := h
        subst ha
        exact isBST_node.mpr ⟨h1, h2, h3, h4⟩
      · rename_i v1 l1 r1 b1
        obtain ⟨⟨l2, ch0, rv0⟩, hp, hq2⟩ := Option.bind_eq_some.mp h
        have hq2' : (do
            let (t1, ch1) ← handleChildChange (node v l2 r bf) ch0 Side.Left
            some (t1, ch1, rv0) : Option _) = some (t', ch, rv) := hq2
        obtain ⟨⟨t1, ch1⟩, hq, h3'⟩ := Option.bind_eq_some.mp hq2'
        have h3'' : (some (t1, ch1, rv0) : Option _) = some (t', ch, rv) := h3'
        simp only [Option.some.injEq, Prod.mk.injEq] at h3''
        obtain ⟨e1, e2, e3⟩ := h3''
        subst e1
        exact handleChildChange_isBST hq (remove_keys hp h1) h2 (ihl hp h3) h4
    · split at h
      · simp only [Option.some.injEq, Prod.mk.injEq] at h
        obtain ⟨ha, hbq, hc⟩ := h
        subst ha
        exact isBST_node.mpr ⟨h1, h2, h3, h4⟩
      · rename_i v1 l1 r1 b1
        obtain ⟨⟨r2, ch0, rv0⟩, hp, hq2⟩ := Option.bind_eq_some.mp h
        have hq2' : (do
            let (t1, ch1) ← handleChildChange (node v l r2 bf) ch0 Side.Right
            some (t1, ch1, rv0) : Option _) = some (t', ch, rv) := hq2
        obtain ⟨⟨t1, ch1⟩, hq, h3'⟩ := Option.bind_eq_some.mp hq2'
        have h3'' : (some (t1, ch1, rv0) : Option _) = some (t', ch, rv) := h3'
        simp only [Option.some.injEq, Prod.mk.injEq] at h3''
        obtain ⟨e1, e2, e3⟩ := h3''
        subst e1
        exact handleChildChange_isBST hq h1 (remove_keys hp h2) h3 (ihr hp h4)
    · split at h
      · rename_i lv ll lr lb rv1 rl rr rb
        obtain ⟨⟨r2, repl, ch0⟩, hp, hq2⟩ := Option.bind_eq_some.mp h
        have hq2' : (do
            let (t1, ch1) ←
              handleChildChange (node repl (node lv ll lr lb) r2 bf) ch0 Side.Right
            some (t1, ch1, some v) : Option _) = some (t', ch, rv) := hq2
        obtain ⟨⟨t1, ch1⟩, hq, h3'⟩ := Option.bind_eq_some.mp hq2'
        have h3'' : (some (t1, ch1, some v) : Option _) = some (t', ch, rv) := h3'
        simp only [Option.some.injEq, Prod.mk.injEq] at h3''
        obtain ⟨e1, e2, e3⟩ := h3''
        subst e1
        obtain ⟨hvrepl, _⟩ := popSmallest_keys hp h2
        obtain ⟨hbst2, hbound⟩ := popSmallest_isBST hp h4
        have hvrepl' : v < repl := of_decide_eq_true hvrepl
        refine handleChildChange_isBST hq ?_ hbound ?_ hbst2
        · exact allKeys_imp (fun y hy =>
            decide_eq_true (lt_trans (of_decide_eq_true hy) hvrepl')) h1
        · exact h3
      · simp only [Option.some.injEq, Prod.mk.injEq] at h
        obtain ⟨ha, hbq, hc⟩ := h
        subst ha
        exact h4
      · simp only [Option.some.injEq, Prod.mk.injEq] at h
        obtain ⟨ha, hbq, hc⟩ := h
        subst ha
        exact h3
      · simp only [Option.some.injEq, Prod.mk.injEq] at h
        obtain ⟨ha, hbq, hc⟩ := h
        subst ha
        exact rfl

end AVLTree

namespace AVLTree

variable {α : Type} [LinearOrder α]

theorem treeInsert_isBST {t t' : AVLTree α} {x : α}
    (h : treeInsert t x = some t') (ht : isBST t = true) : isBST t' = true := by
  cases t with
  | nil =>
    simp only [treeInsert, Option.some.injEq] at h
    subst h
    rfl
  | node v l r bf =>
    simp only [treeInsert] at h
    obtain ⟨⟨t1, ch⟩, hp, h2⟩ := Option.bind_eq_some.mp h
    have h2' : (some t1 : Option _) = some t' := h2
    rw [Option.some.injEq] at h2'
    subst h2'
    exact insert_isBST hp ht

theorem treeRemove_isBST {t t' : AVLTree α} {x : α} {rv : Option α}
    (h : treeRemove t x = some (t', rv)) (ht : isBST t = true) : isBST t' = true := by
  cases t with
  | nil =>
    simp only [treeRemove, Option.some.injEq, Prod.mk.injEq] at h
    obtain ⟨h1, h2⟩ := h
    subst h1
    rfl
  | node v l r bf =>
    simp only [treeRemove] at h
    obtain ⟨⟨t1, ch, rv0⟩, hp, h2⟩ := Option.bind_eq_some.mp h
    have h2' : (some (t1, rv0) : Option _) = some (t', rv) := h2
    simp only [Option.some.injEq, Prod.mk.injEq] at h2'
    obtain ⟨h1, h2⟩ := h2'
    subst h1
    exact remove_isBST hp ht

end AVLTree

theorem runAVLFrom_isBST {α : Type} [LinearOrder α] :
    ∀ (ops : List (AVLOp α)) (t t' : AVLTree α),
      runAVLFrom t ops = some t' → AVLTree.isBST t = true →
      AVLTree.isBST t' = true := by
  intro ops
  induction ops with
  | nil =>
    intro t t' h ht
    simp only [runAVLFrom, Option.some.injEq] at h
    subst h; exact ht
  | cons op ops ih =>
    intro t t' h ht
    cases op with
    | ins x =>
      simp only [runAVLFrom] at h
      obtain ⟨t1, hp, h2⟩ := Option.bind_eq_some.mp h
      exact ih t1 t' h2 (AVLTree.treeInsert_isBST hp ht)
    | del x =>
      simp only [runAVLFrom] at h
      obtain ⟨⟨t1, rv⟩, hp, h2⟩ := Option.bind_eq_some.mp h
      have h2' : runAVLFrom t1 ops = some t' := h2
      exact ih t1 t' h2' (AVLTree.treeRemove_isBST hp ht)

/-! ## Red-black tree order preservation -/

namespace STree

variable {K V M : Type}

theorem allKeys_nodeS {p : K → Bool} {k : K} {v : V} {l r : STree K V M} {m : M} :
    allKeys p (node k v l r m) = true ↔
      p k = true ∧ allKeys p l = true ∧ allKeys p r = true := by
  simp [allKeys, Bool.and_eq_true, and_assoc]

theorem isBST_nodeS [LinearOrder K] {k : K} {v : V} {l r : STree K V M} {m : M} :
    isBST (node k v l r m) = true ↔
      allKeys (fun y => decide (y < k)) l = true ∧
      allKeys (fun y => decide (k < y)) r = true ∧
      isBST l = true ∧ isBST r = true := by
  simp [isBST, Bool.and_eq_true, and_assoc]

theorem allKeys_impS {p q : K → Bool} (hpq : ∀ y, p y = true → q y = true) :
    ∀ {t : STree K V M}, allKeys p t = true → allKeys q t = true := by
  intro t
  induction t with
  | nil => intro h; rfl
  | node k v l r m ihl ihr =>
    intro h
    rw [allKeys_nodeS] at h ⊢
    exact ⟨hpq k h.1, ihl h.2.1, ihr h.2.2⟩

theorem size_nodeS {k : K} {v : V} {l r : STree K V M} {m : M} :
    size (node k v l r m) = 1 + size l + size r := rfl

end STree

namespace RB

open STree

variable {K V : Type} [LinearOrder K]

theorem pres_refl {t : RBT K V} : Pres t t := ⟨fun _ h => h, fun h => h, rfl⟩

theorem pres_trans {a b c : RBT K V} (h1 : Pres a b) (h2 : Pres b c) : Pres a c :=
  ⟨fun p hp => h2.1 p (h1.1 p hp), fun hb => h2.2.1 (h1.2.1 hb),
    h2.2.2.trans h1.2.2⟩

theorem pres_setColor {t : RBT K V} {c : Color} : Pres t (setColor t c) := by
  cases t with
  | nil => exact pres_refl
  | node k v l r c0 =>
    refine ⟨fun p hp => ?_, fun hb => ?_, rfl⟩
    · simp only [setColor, allKeys_nodeS] at hp ⊢; exact hp
    · simp only [setColor, isBST_nodeS] at hb ⊢; exact hb

theorem pres_rotateLeft {t t' : RBT K V} (h : rotateLeft t = some t') :
    Pres t t' := by
  cases t with
  | nil => simp [rotateLeft] at h
  | node k v l r c =>
    cases r with
    | nil => simp [rotateLeft] at h
    | node rk rv rl rr rc =>
      simp only [rotateLeft, Option.some.injEq] at h
      subst h
      refine ⟨fun p hp => ?_, fun hb => ?_, ?_⟩
      · simp only [allKeys_nodeS] at hp ⊢; tauto
      · rw [isBST_nodeS] at hb ⊢
        obtain ⟨h1, h2, h3, h4⟩ := hb
        rw [allKeys_nodeS] at h2
        obtain ⟨hkr, hrl, hrr⟩ := h2
        rw [isBST_nodeS] at h4
        obtain ⟨g1, g2, g3, g4⟩ := h4
        have hkr' : k < rk := of_decide_eq_true hkr
        refine ⟨?_, g2, ?_, g4⟩
        · rw [allKeys_nodeS]
          exact ⟨decide_eq_true hkr',
            allKeys_impS (fun y hy =>
              decide_eq_true (lt_trans (of_decide_eq_true hy) hkr')) h1, g1⟩
        · rw [isBST_nodeS]
          exact ⟨h1, hrl, h3, g3⟩
      · simp only [size_nodeS]; omega

theorem pres_rotateRight {t t' : RBT K V} (h : rotateRight t = some t') :
    Pres t t' := by
  cases t with
  | nil => simp [rotateRight] at h
  | node k v l r c =>
    cases l with
    | nil => simp [rotateRight] at h
    | node lk lv ll lr lc =>
      simp only [rotateRight, Option.some.injEq] at h
      subst h
      refine ⟨fun p hp => ?_, fun hb => ?_, ?_⟩
      · simp only [allKeys_nodeS] at hp ⊢; tauto
      · rw [isBST_nodeS] at hb ⊢
        obtain ⟨h1, h2, h3, h4⟩ := hb
        rw [allKeys_nodeS] at h1
        obtain ⟨hlk, hll, hlr⟩ := h1
        rw [isBST_nodeS] at h3
        obtain ⟨g1, g2, g3, g4⟩ := h3
        have hlk' : lk < k := of_decide_eq_true hlk
        refine ⟨g1, ?_, g3, ?_⟩
        · rw [allKeys_nodeS]
          exact ⟨decide_eq_true hlk', g2,
            allKeys_impS (fun y hy =>
              decide_eq_true (lt_trans hlk' (of_decide_eq_true hy))) h2⟩
        · rw [isBST_nodeS]
          exact ⟨hlr, h2, g4, h4⟩
      · simp only [size_nodeS]; omega

theorem pres_rotateFrom {t t' : RBT K V} {side : Side}
    (h : rotateFrom t side = some t') : Pres t t' := by
  cases side with
  | Left => exact pres_rotateRight h
  | Right => exact pres_rotateLeft h

theorem pres_rotateTo {t t' : RBT K V} {side : Side}
    (h : rotateTo t side = some t') : Pres t t' := by
  cases side with
  | Left => exact pres_rotateLeft h
  | Right => exact pres_rotateRight h

theorem pres_setChild_child {t c' : RBT K V} {side : Side}
    (hp : Pres (childOf t side) c') : Pres t (setChild t side c') := by
  cases t with
  | nil => exact pres_refl
  | node k v l r c =>
    cases side with
    | Left =>
      simp only [childOf] at hp
      refine ⟨fun p hq => ?_, fun hb => ?_, ?_⟩
      · simp only [setChild, allKeys_nodeS] at hq ⊢
        exact ⟨hq.1, hp.1 p hq.2.1, hq.2.2⟩
      · simp only [setChild, isBST_nodeS] at hb ⊢
        exact ⟨hp.1 _ hb.1, hb.2.1, hp.2.1 hb.2.2.1, hb.2.2.2⟩
      · simp only [setChild, size_nodeS, hp.2.2]
    | Right =>
      simp only [childOf] at hp
      refine ⟨fun p hq => ?_, fun hb => ?_, ?_⟩
      · simp only [setChild, allKeys_nodeS] at hq ⊢
        exact ⟨hq.1, hq.2.1, hp.1 p hq.2.2⟩
      · simp only [setChild, isBST_nodeS] at hb ⊢
        exact ⟨hb.1, hp.1 _ hb.2.1, hb.2.2.1, hp.2.1 hb.2.2.2⟩
      · simp only [setChild, size_nodeS, hp.2.2]

theorem pres_paintChild {t t' : RBT K V} {side : Side} {c : Color}
    (h : paintChild t side c = some t') : Pres t t' := by
  unfold paintChild at h
  split at h
  · exact absurd h (by simp)
  · rename_i k v l r c0 heq
    rw [Option.some.injEq] at h
    subst h
    refine pres_setChild_child ?_
    rw [heq]
    exact pres_setColor (t := node k v l r c0)

theorem pres_rotateChildFrom {t t' : RBT K V} {cside fside : Side}
    (h : rotateChildFrom t cside fside = some t') : Pres t t' := by
  unfold rotateChildFrom at h
  split at h
  · exact absurd h (by simp)
  · rename_i heq
    obtain ⟨c1, hc1, h2⟩ := Option.bind_eq_some.mp h
    have h2' : (some (setChild t cside c1) : Option _) = some t' := h2
    rw [Option.some.injEq] at h2'
    subst h2'
    exact pres_setChild_child (pres_rotateFrom hc1)

theorem pres_insRotate {t t' : RBT K V} {cs gcs : Side}
    (h : insRotate t cs gcs = some t') : Pres t t' := by
  unfold insRotate at h
  obtain ⟨t1, h1, h2⟩ := Option.bind_eq_some.mp h
  obtain ⟨t2, h3, h4⟩ := Option.bind_eq_some.mp h2
  have hp1 : Pres t t1 := by
    split_ifs at h1
    · exact pres_rotateChildFrom h1
    · rw [Option.some.injEq] at h1; subst h1; exact pres_refl
  exact pres_trans hp1 (pres_trans (pres_paintChild h3)
    (pres_trans pres_setColor (pres_rotateFrom h4)))

theorem pres_handleInsertRotation {t t' : RBT K V} {rot rot' : Option Side}
    {cs : Side} (h : handleInsertRotation t rot cs = some (t', rot')) :
    Pres t t' := by
  unfold handleInsertRotation at h
  split at h
  · rw [Option.some.injEq, Prod.mk.injEq] at h
    obtain ⟨h1, h2⟩ := h
    subst h1
    exact pres_refl
  · rename_i gcs
    split at h
    · rename_i sk sv sl sr sc heq
      split_ifs at h with hred
      · rw [Option.some.injEq, Prod.mk.injEq] at h
        obtain ⟨h1, h2⟩ := h
        subst h1
        have hp1 : Pres t (setChild t cs.other (node sk sv sl sr Color.Black)) :=
          pres_setChild_child (by rw [heq]; exact pres_setColor)
        refine pres_trans hp1 ?_
        split
        · exact pres_setColor
        · rename_i ck cv cl cr cc hc2
          refine pres_trans ?_ pres_setColor
          exact pres_setChild_child (by rw [hc2]; exact pres_setColor)
      · obtain ⟨t1, h1, h2⟩ := Option.bind_eq_some.mp h
        have h2' : (some (t1, (none : Option Side)) : Option _) = some (t', rot') := h2
        simp only [Option.some.injEq, Prod.mk.injEq] at h2'
        obtain ⟨e1, e2⟩ := h2'
        subst e1
        exact pres_insRotate h1
    · obtain ⟨t1, h1, h2⟩ := Option.bind_eq_some.mp h
      have h2' : (some (t1, (none : Option Side)) : Option _) = some (t', rot') := h2
      simp only [Option.some.injEq, Prod.mk.injEq] at h2'
      obtain ⟨e1, e2⟩ := h2'
      subst e1
      exact pres_insRotate h1

theorem pres_balanceRedNode {t t' : RBT K V} {side : Side}
    (h : balanceRedNode t side = some t') : Pres t t' :=
  pres_trans pres_setColor (pres_paintChild h)

theorem pres_balanceOtherNephewRed {t t' : RBT K V} {side : Side}
    (h : balanceOtherNephewRed t side = some t') : Pres t t' := by
  unfold balanceOtherNephewRed at h
  obtain ⟨t1, h1, h2⟩ := Option.bind_eq_some.mp h
  exact pres_trans (pres_trans pres_setColor (pres_rotateTo h1))
    (pres_trans pres_setColor (pres_paintChild h2))

theorem pres_balanceSameNephewRed {t t' : RBT K V} {side : Side}
    (h : balanceSameNephewRed t side = some t') : Pres t t' := by
  unfold balanceSameNephewRed at h
  split at h
  · exact absurd h (by simp)
  · rename_i sk sv sl sr sc heq
    obtain ⟨s1, hs1, h2⟩ := Option.bind_eq_some.mp h
    refine pres_trans (pres_setChild_child ?_) (pres_balanceOtherNephewRed h2)
    rw [heq]
    exact pres_trans (pres_trans pres_setColor (pres_rotateTo hs1)) pres_setColor

theorem pres_balanceRedSibling {t t' : RBT K V} {side : Side}
    (h : balanceRedSibling t side = some t') : Pres t t' := by
  unfold balanceRedSibling at h
  obtain ⟨t1, h1, h2⟩ := Option.bind_eq_some.mp h
  have hp1 : Pres t (setColor t1 Color.Black) :=
    pres_trans (pres_rotateTo h1) pres_setColor
  split at h2
  · exact absurd h2 (by simp)
  · rename_i pk pv pl pr pc heq2
    split at h2
    · exact absurd h2 (by simp)
    · obtain ⟨ps2, hps2, h3⟩ := Option.bind_eq_some.mp h2
      rw [Option.some.injEq] at h3
      subst h3
      refine pres_trans hp1 (pres_setChild_child ?_)
      have hpres0 : Pres (childOf (setColor t1 Color.Black) side)
          (node pk pv pl pr Color.Red) := by
        rw [heq2]
        exact pres_setColor
      refine pres_trans hpres0 ?_
      split_ifs at hps2
      · exact pres_balanceOtherNephewRed hps2
      · exact pres_balanceSameNephewRed hps2
      · exact pres_balanceRedNode hps2

theorem pres_checkImbalance {t t' : RBT K V} {side : Side} {b : Bool}
    (h : checkImbalance t side = some (t', b)) : Pres t t' := by
  unfold checkImbalance at h
  split at h
  · exact absurd h (by simp)
  · rename_i sk sv sl sr sc heq
    split_ifs at h with h1 h2 h3 h4
    · obtain ⟨t1, hh1, hh2⟩ := Option.bind_eq_some.mp h
      have hh2' : (some (t1, false) : Option _) = some (t', b) := hh2
      simp only [Option.some.injEq, Prod.mk.injEq] at hh2'
      obtain ⟨e1, e2⟩ := hh2'
      subst e1
      exact pres_balanceRedSibling hh1
    · obtain ⟨t1, hh1, hh2⟩ := Option.bind_eq_some.mp h
      have hh2' : (some (t1, false) : Option _) = some (t', b) := hh2
      simp only [Option.some.injEq, Prod.mk.injEq] at hh2'
      obtain ⟨e1, e2⟩ := hh2'
      subst e1
      exact pres_balanceOtherNephewRed hh1
    · obtain ⟨t1, hh1, hh2⟩ := Option.bind_eq_some.mp h
      have hh2' : (some (t1, false) : Option _) = some (t', b) := hh2
      simp only [Option.some.injEq, Prod.mk.injEq] at hh2'
      obtain ⟨e1, e2⟩ := hh2'
      subst e1
      exact pres_balanceSameNephewRed hh1
    · obtain ⟨t1, hh1, hh2⟩ := Option.bind_eq_some.mp h
      have hh2' : (some (t1, false) : Option _) = some (t', b) := hh2
      simp only [Option.some.injEq, Prod.mk.injEq] at hh2'
      obtain ⟨e1, e2⟩ := hh2'
      subst e1
      exact pres_balanceRedNode hh1
    · simp only [Option.some.injEq, Prod.mk.injEq] at h
      obtain ⟨e1, e2⟩ := h
      subst e1
      refine pres_setChild_child ?_
      rw [heq]
      exact pres_setColor

theorem find_node_eq {k0 k : K} {v0 : V} {l r : RBT K V} {c : Color} :
    find (node k0 v0 l r c) k =
      (if k < k0 then find l k else if k0 < k then find r k else some v0) := rfl

theorem rb_insertRec_spec {k : K} {v : V} : ∀ {t t' : RBT K V} {rot : Option Side},
    insertRec t k v = some (t', rot) →
    (∀ p : K → Bool, allKeys p t = true → p k = true → allKeys p t' = true) ∧
    (isBST t = true → isBST t' = true) ∧
    (find t k = none → STree.size t' = STree.size t + 1) ∧
    ((find t k).isSome = true → STree.size t' = STree.size t) := by
  intro t
  induction t with
  | nil => intro t' rot h; simp [insertRec] at h
  | node k0 v0 l r c ihl ihr =>
    intro t' rot h
    unfold insertRec at h
    split_ifs at h with hlt hgt
    · split at h
      · simp only [Option.some.injEq, Prod.mk.injEq] at h
        obtain ⟨h1, h2⟩ := h
        subst h1
        refine ⟨fun p hp hpk => ?_, fun hb => ?_, fun _ => ?_, fun hf => ?_⟩
        · rw [allKeys_nodeS] at hp ⊢
          exact ⟨hp.1, allKeys_nodeS.mpr ⟨hpk, rfl, rfl⟩, hp.2.2⟩
        · rw [isBST_nodeS] at hb ⊢
          refine ⟨allKeys_nodeS.mpr ⟨decide_eq_true hlt, rfl, rfl⟩, hb.2.1, ?_, hb.2.2.2⟩
          rw [isBST_nodeS]
          exact ⟨rfl, rfl, rfl, rfl⟩
        · simp only [size_nodeS, STree.size]; omega
        · rw [find_node_eq, if_pos hlt] at hf
          simp [STree.find] at hf
      · rename_i k1 v1 l1 r1 m1
        obtain ⟨⟨l2, rot0⟩, hp, hq⟩ := Option.bind_eq_some.mp h
        have hq' : handleInsertRotation (node k0 v0 l2 r c) rot0 Side.Left =
            some (t', rot) := hq
        obtain ⟨i1, i2, i3, i4⟩ := ihl hp
        obtain ⟨g1, g2, g3⟩ := pres_handleInsertRotation hq'
        refine ⟨fun p hp2 hpk => ?_, fun hb => ?_, fun hf => ?_, fun hf => ?_⟩
        · rw [allKeys_nodeS] at hp2
          exact g1 p (allKeys_nodeS.mpr ⟨hp2.1, i1 p hp2.2.1 hpk, hp2.2.2⟩)
        · rw [isBST_nodeS] at hb
          exact g2 (isBST_nodeS.mpr
            ⟨i1 _ hb.1 (decide_eq_true hlt), hb.2.1, i2 hb.2.2.1, hb.2.2.2⟩)
        · rw [find_node_eq, if_pos hlt] at hf
          rw [g3]
          simp only [size_nodeS]
          rw [i3 hf]
          simp only [size_nodeS]
          omega
        · rw [find_node_eq, if_pos hlt] at hf
          rw [g3]
          simp only [size_nodeS]
          rw [i4 hf]
          simp only [size_nodeS]
    · split at h
      · simp only [Option.some.injEq, Prod.mk.injEq] at h
        obtain ⟨h1, h2⟩ := h
        subst h1
        refine ⟨fun p hp hpk => ?_, fun hb => ?_, fun _ => ?_, fun hf => ?_⟩
        · rw [allKeys_nodeS] at hp ⊢
          exact ⟨hp.1, hp.2.1, allKeys_nodeS.mpr ⟨hpk, rfl, rfl⟩⟩
        · rw [isBST_nodeS] at hb ⊢
          refine ⟨hb.1, allKeys_nodeS.mpr ⟨decide_eq_true hgt, rfl, rfl⟩, hb.2.2.1, ?_⟩
          rw [isBST_nodeS]
          exact ⟨rfl, rfl, rfl, rfl⟩
        · simp only [size_nodeS, STree.size]
        · rw [find_node_eq, if_neg hlt, if_pos hgt] at hf
          simp [STree.find] at hf
      · rename_i k1 v1 l1 r1 m1
        obtain ⟨⟨r2, rot0⟩, hp, hq⟩ := Option.bind_eq_some.mp h
        have hq' : handleInsertRotation (node k0 v0 l r2 c) rot0 Side.Right =
            some (t', rot) := hq
        obtain ⟨i1, i2, i3, i4⟩ := ihr hp
        obtain ⟨g1, g2, g3⟩ := pres_handleInsertRotation hq'
        refine ⟨fun p hp2 hpk => ?_, fun hb => ?_, fun hf => ?_, fun hf => ?_⟩
        · rw [allKeys_nodeS] at hp2
          exact g1 p (allKeys_nodeS.mpr ⟨hp2.1, hp2.2.1, i1 p hp2.2.2 hpk⟩)
        · rw [isBST_nodeS] at hb
          exact g2 (isBST_nodeS.mpr
            ⟨hb.1, i1 _ hb.2.1 (decide_eq_true hgt), hb.2.2.1, i2 hb.2.2.2⟩)
        · rw [find_node_eq, if_neg hlt, if_pos hgt] at hf
          rw [g3]
          simp only [size_nodeS]
          rw [i3 hf]
          simp only [size_nodeS]
          omega
        · rw [find_node_eq, if_neg hlt, if_pos hgt] at hf
          rw [g3]
          simp only [size_nodeS]
          rw [i4 hf]
          simp only [size_nodeS]
    · simp only [Option.some.injEq, Prod.mk.injEq] at h
      obtain ⟨h1, h2⟩ := h
      subst h1
      have hk0 : k = k0 := le_antisymm (le_of_not_lt hgt) (le_of_not_lt hlt)
      subst hk0
      refine ⟨fun p hp hpk => ?_, fun hb => ?_, fun hf => ?_, fun _ => ?_⟩
      · rw [allKeys_nodeS] at hp ⊢
        exact ⟨hpk, hp.2.1, hp.2.2⟩
      · rw [isBST_nodeS] at hb ⊢
        exact hb
      · rw [find_node_eq, if_neg hlt, if_neg hgt] at hf
        exact absurd hf (by simp)
      · simp only [size_nodeS]

theorem rb_popSmallest_spec : ∀ {t t2 : RBT K V} {p : K × V} {chk : Bool},
    popSmallest t = some (t2, p, chk) →
    (∀ q : K → Bool, allKeys q t = true → q p.1 = true ∧ allKeys q t2 = true) ∧
    (isBST t = true →
      isBST t2 = true ∧ allKeys (fun y => decide (p.1 < y)) t2 = true) ∧
    STree.size t = STree.size t2 + 1 := by
  intro t
  induction t with
  | nil => intro t2 p chk h; simp [popSmallest] at h
  | node k v l r c ihl ihr =>
    intro t2 p chk h
    unfold popSmallest at h
    split at h
    · split at h
      · split at h <;>
          (simp only [Option.some.injEq, Prod.mk.injEq] at h;
           obtain ⟨h1, h2, h3⟩ := h; subst h1; subst h2)
        all_goals
          refine ⟨fun q hq => ?_, fun hb => ⟨rfl, rfl⟩, ?_⟩
        any_goals
          rw [allKeys_nodeS] at hq
          exact ⟨hq.1, rfl⟩
        all_goals
          simp [size_nodeS, STree.size]
      · rename_i rk rv rl rr rm
        simp only [Option.some.injEq, Prod.mk.injEq] at h
        obtain ⟨h1, h2, h3⟩ := h
        subst h1; subst h2
        refine ⟨fun q hq => ?_, fun hb => ?_, ?_⟩
        · rw [allKeys_nodeS] at hq
          rw [allKeys_nodeS] at hq
          exact ⟨hq.1, allKeys_nodeS.mpr ⟨hq.2.2.1, hq.2.2.2.1, hq.2.2.2.2⟩⟩
        · rw [isBST_nodeS] at hb ⊢
          rw [isBST_nodeS] at hb
          rw [allKeys_nodeS] at hb
          exact ⟨⟨hb.2.2.2.1, hb.2.2.2.2.1, hb.2.2.2.2.2.1, hb.2.2.2.2.2.2⟩,
            allKeys_nodeS.mpr ⟨hb.2.1.1, hb.2.1.2.1, hb.2.1.2.2⟩⟩
        · simp only [size_nodeS, STree.size]; omega
    · rename_i k1 v1 l1 r1 m1
      obtain ⟨⟨l2, p0, chk0⟩, hp, h2⟩ := Option.bind_eq_some.mp h
      obtain ⟨i1, i2, i3⟩ := ihl hp
      cases chk0 with
      | false =>
        have h3 : (some (node k v l2 r c, p0, false) : Option _) = some (t2, p, chk) := h2
        simp only [Option.some.injEq, Prod.mk.injEq] at h3
        obtain ⟨e1, e2, e3⟩ := h3
        subst e1; subst e2
        refine ⟨fun q hq => ?_, fun hb => ?_, ?_⟩
        · rw [allKeys_nodeS] at hq
          obtain ⟨i1a, i1b⟩ := i1 q hq.2.1
          exact ⟨i1a, allKeys_nodeS.mpr ⟨hq.1, i1b, hq.2.2⟩⟩
        · rw [isBST_nodeS] at hb
          obtain ⟨i2a, i2b⟩ := i2 hb.2.2.1
          obtain ⟨i1a, i1b⟩ := i1 _ hb.1
          have hp0k : p0.1 < k := of_decide_eq_true i1a
          constructor
          · exact isBST_nodeS.mpr ⟨i1b, hb.2.1, i2a, hb.2.2.2⟩
          · refine allKeys_nodeS.mpr ⟨decide_eq_true hp0k, i2b, ?_⟩
            exact allKeys_impS (fun y hy =>
              decide_eq_true (lt_trans hp0k (of_decide_eq_true hy))) hb.2.1
        · simp only [size_nodeS] at i3 ⊢; omega
      | true =>
        have h3 : (do
            let (t2', chk2) ← checkImbalance (node k v l2 r c) Side.Left
            some (t2', p0, chk2) : Option _) = some (t2, p, chk) := h2
        obtain ⟨⟨t2', chk2⟩, hq, h4⟩ := Option.bind_eq_some.mp h3
        have h4' : (some (t2', p0, chk2) : Option _) = some (t2, p, chk) := h4
        simp only [Option.some.injEq, Prod.mk.injEq] at h4'
        obtain ⟨e1, e2, e3⟩ := h4'
        subst e1; subst e2
        obtain ⟨g1, g2, g3⟩ := pres_checkImbalance hq
        refine ⟨fun q hq2 => ?_, fun hb => ?_, ?_⟩
        · rw [allKeys_nodeS] at hq2
          obtain ⟨i1a, i1b⟩ := i1 q hq2.2.1
          exact ⟨i1a, g1 q (allKeys_nodeS.mpr ⟨hq2.1, i1b, hq2.2.2⟩)⟩
        · rw [isBST_nodeS] at hb
          obtain ⟨i2a, i2b⟩ := i2 hb.2.2.1
          obtain ⟨i1a, i1b⟩ := i1 _ hb.1
          have hp0k : p0.1 < k := of_decide_eq_true i1a
          constructor
          · exact g2 (isBST_nodeS.mpr ⟨i1b, hb.2.1, i2a, hb.2.2.2⟩)
          · refine g1 _ (allKeys_nodeS.mpr ⟨decide_eq_true hp0k, i2b, ?_⟩)
            exact allKeys_impS (fun y hy =>
              decide_eq_true (lt_trans hp0k (of_decide_eq_true hy))) hb.2.1
        · rw [g3]
          simp only [size_nodeS] at i3 ⊢; omega

theorem rb_removeRec_spec {k : K} : ∀ {t t' : RBT K V} {rv : Option (K × V)} {chk : Bool},
    removeRec t k = some (t', rv, chk) →
    (∀ q : K → Bool, allKeys q t = true → allKeys q t' = true) ∧
    (isBST t = true → isBST t' = true) ∧
    (rv.isSome = (find t k).isSome) ∧
    (rv = none → t' = t ∧ chk = false) ∧
    (rv.isSome = true → STree.size t = STree.size t' + 1) := by
  intro t
  induction t with
  | nil => intro t' rv chk h; simp [removeRec] at h
  | node k0 v0 l r c ihl ihr =>
    intro t' rv chk h
    unfold removeRec at h
    split_ifs at h with hlt hgt
    · split at h
      · simp only [Option.some.injEq, Prod.mk.injEq] at h
        obtain ⟨h1, h2, h3⟩ := h
        subst h1; subst h2; subst h3
        refine ⟨fun q hq => hq, fun hb => hb, ?_, fun _ => ⟨rfl, rfl⟩,
          fun hx => absurd hx (by simp)⟩
        rw [find_node_eq, if_pos hlt]
        rfl
      · rename_i k1 v1 l1 r1 m1
        obtain ⟨⟨l2, rv0, chk0⟩, hp, h2⟩ := Option.bind_eq_some.mp h
        obtain ⟨i1, i2, i3, i4, i5⟩ := ihl hp
        have hfind : find (node k0 v0 (node k1 v1 l1 r1 m1) r c) k =
            find (node k1 v1 l1 r1 m1) k := by
          rw [find_node_eq, if_pos hlt]
        cases chk0 with
        | false =>
          have h3 : (some (node k0 v0 l2 r c, rv0, false) : Option _) =
              some (t', rv, chk) := h2
          simp only [Option.some.injEq, Prod.mk.injEq] at h3
          obtain ⟨e1, e2, e3⟩ := h3
          subst e1; subst e2
          refine ⟨fun q hq => ?_, fun hb => ?_, ?_, fun hrv => ?_, fun hrv => ?_⟩
          · rw [allKeys_nodeS] at hq ⊢
            exact ⟨hq.1, i1 q hq.2.1, hq.2.2⟩
          · rw [isBST_nodeS] at hb ⊢
            exact ⟨i1 _ hb.1, hb.2.1, i2 hb.2.2.1, hb.2.2.2⟩
          · rw [hfind]; exact i3
          · obtain ⟨ha, hb⟩ := i4 hrv
            rw [ha]
            exact ⟨rfl, e3 ▸ rfl⟩
          · have := i5 hrv
            simp only [size_nodeS] at this ⊢
            omega
        | true =>
          have h3 : (do
              let (t2, chk2) ← checkImbalance (node k0 v0 l2 r c) Side.Left
              some (t2, rv0, chk2) : Option _) = some (t', rv, chk) := h2
          obtain ⟨⟨t2, chk2⟩, hq, h4⟩ := Option.bind_eq_some.mp h3
          have h4' : (some (t2, rv0, chk2) : Option _) = some (t', rv, chk) := h4
          simp only [Option.some.injEq, Prod.mk.injEq] at h4'
          obtain ⟨e1, e2, e3⟩ := h4'
          subst e1; subst e2
          obtain ⟨g1, g2, g3⟩ := pres_checkImbalance hq
          refine ⟨fun q hq2 => ?_, fun hb => ?_, ?_, fun hrv => ?_, fun hrv => ?_⟩
          · rw [allKeys_nodeS] at hq2
            exact g1 q (allKeys_nodeS.mpr ⟨hq2.1, i1 q hq2.2.1, hq2.2.2⟩)
          · rw [isBST_nodeS] at hb
            exact g2 (isBST_nodeS.mpr ⟨i1 _ hb.1, hb.2.1, i2 hb.2.2.1, hb.2.2.2⟩)
          · rw [hfind]; exact i3
          · exact absurd (i4 hrv).2 (by simp)
          · have := i5 hrv
            rw [g3]
            simp only [size_nodeS] at this ⊢
            omega
    · split at h
      · simp only [Option.some.injEq, Prod.mk.injEq] at h
        obtain ⟨h1, h2, h3⟩ := h
        subst h1; subst h2; subst h3
        refine ⟨fun q hq => hq, fun hb => hb, ?_, fun _ => ⟨rfl, rfl⟩,
          fun hx => absurd hx (by simp)⟩
        rw [find_node_eq, if_neg hlt, if_pos hgt]
        rfl
      · rename_i k1 v1 l1 r1 m1
        obtain ⟨⟨r2, rv0, chk0⟩, hp, h2⟩ := Option.bind_eq_some.mp h
        obtain ⟨i1, i2, i3, i4, i5⟩ := ihr hp
        have hfind : find (node k0 v0 l (node k1 v1 l1 r1 m1) c) k =
            find (node k1 v1 l1 r1 m1) k := by
          rw [find_node_eq, if_neg hlt, if_pos hgt]
        cases chk0 with
        | false =>
          have h3 : (some (node k0 v0 l r2 c, rv0, false) : Option _) =
              some (t', rv, chk) := h2
          simp only [Option.some.injEq, Prod.mk.injEq] at h3
          obtain ⟨e1, e2, e3⟩ := h3
          subst e1; subst e2
          refine ⟨fun q hq => ?_, fun hb => ?_, ?_, fun hrv => ?_, fun hrv => ?_⟩
          · rw [allKeys_nodeS] at hq ⊢
            exact ⟨hq.1, hq.2.1, i1 q hq.2.2⟩
          · rw [isBST_nodeS] at hb ⊢
            exact ⟨hb.1, i1 _ hb.2.1, hb.2.2.1, i2 hb.2.2.2⟩
          · rw [hfind]; exact i3
          · obtain ⟨ha, hb⟩ := i4 hrv
            rw [ha]
            exact ⟨rfl, e3 ▸ rfl⟩
          · have := i5 hrv
            simp only [size_nodeS] at this ⊢
            omega
        | true =>
          have h3 : (do
              let (t2, chk2) ← checkImbalance (node k0 v0 l r2 c) Side.Right
              some (t2, rv0, chk2) : Option _) = some (t', rv, chk) := h2
          obtain ⟨⟨t2, chk2⟩, hq, h4⟩ := Option.bind_eq_some.mp h3
          have h4' : (some (t2, rv0, chk2) : Option _) = some (t', rv, chk) := h4
          simp only [Option.some.injEq, Prod.mk.injEq] at h4'
          obtain ⟨e1, e2, e3⟩ := h4'
          subst e1; subst e2
          obtain ⟨g1, g2, g3⟩ := pres_checkImbalance hq
          refine ⟨fun q hq2 => ?_, fun hb => ?_, ?_, fun hrv => ?_, fun hrv => ?_⟩
          · rw [allKeys_nodeS] at hq2
            exact g1 q (allKeys_nodeS.mpr ⟨hq2.1, hq2.2.1, i1 q hq2.2.2⟩)
          · rw [isBST_nodeS] at hb
            exact g2 (isBST_nodeS.mpr ⟨hb.1, i1 _ hb.2.1, hb.2.2.1, i2 hb.2.2.2⟩)
          · rw [hfind]; exact i3
          · exact absurd (i4 hrv).2 (by simp)
          · have := i5 hrv
            rw [g3]
            simp only [size_nodeS] at this ⊢
            omega
    · have hfind : find (node k0 v0 l r c) k = some v0 := by
        rw [find_node_eq, if_neg hlt, if_neg hgt]
      split at h
      · rename_i lk lv ll lr lm rk rv1 rl rr rm
        obtain ⟨⟨r2, p0, chk0⟩, hp, h2⟩ := Option.bind_eq_some.mp h
        obtain ⟨i1, i2, i3⟩ := rb_popSmallest_spec hp
        cases chk0 with
        | false =>
          have h3 : (some (node p0.1 p0.2 (node lk lv ll lr lm) r2 c,
              some (k0, v0), false) : Option _) = some (t', rv, chk) := h2
          simp only [Option.some.injEq, Prod.mk.injEq] at h3
          obtain ⟨e1, e2, e3⟩ := h3
          subst e1; subst e2
          refine ⟨fun q hq => ?_, fun hb => ?_, ?_, fun hrv => ?_, fun hrv => ?_⟩
          · rw [allKeys_nodeS] at hq ⊢
            obtain ⟨i1a, i1b⟩ := i1 q hq.2.2
            exact ⟨i1a, hq.2.1, i1b⟩
          · rw [isBST_nodeS] at hb ⊢
            obtain ⟨i2a, i2b⟩ := i2 hb.2.2.2
            obtain ⟨i1a, i1b⟩ := i1 _ hb.2.1
            have hk0p : k0 < p0.1 := of_decide_eq_true i1a
            refine ⟨?_, i2b, hb.2.2.1, i2a⟩
            exact allKeys_impS (fun y hy =>
              decide_eq_true (lt_trans (of_decide_eq_true hy) hk0p)) hb.1
          · rw [hfind]; rfl
          · exact absurd hrv (by simp)
          · simp only [size_nodeS] at i3 ⊢
            omega
        | true =>
          have h3 : (do
              let (t2, chk2) ←
                checkImbalance (node p0.1 p0.2 (node lk lv ll lr lm) r2 c) Side.Right
              some (t2, some (k0, v0), chk2) : Option _) = some (t', rv, chk) := h2
          obtain ⟨⟨t2, chk2⟩, hq, h4⟩ := Option.bind_eq_some.mp h3
          have h4' : (some (t2, some (k0, v0), chk2) : Option _) =
              some (t', rv, chk) := h4
          simp only [Option.some.injEq, Prod.mk.injEq] at h4'
          obtain ⟨e1, e2, e3⟩ := h4'
          subst e1; subst e2
          obtain ⟨g1, g2, g3⟩ := pres_checkImbalance hq
          refine ⟨fun q hq2 => ?_, fun hb => ?_, ?_, fun hrv => ?_, fun hrv => ?_⟩
          · rw [allKeys_nodeS] at hq2
            obtain ⟨i1a, i1b⟩ := i1 q hq2.2.2
            exact g1 q (allKeys_nodeS.mpr ⟨i1a, hq2.2.1, i1b⟩)
          · rw [isBST_nodeS] at hb
            obtain ⟨i2a, i2b⟩ := i2 hb.2.2.2
            obtain ⟨i1a, i1b⟩ := i1 _ hb.2.1
            have hk0p : k0 < p0.1 := of_decide_eq_true i1a
            refine g2 (isBST_nodeS.mpr ⟨?_, i2b, hb.2.2.1, i2a⟩)
            exact allKeys_impS (fun y hy =>
              decide_eq_true (lt_trans (of_decide_eq_true hy) hk0p)) hb.1
          · rw [hfind]; rfl
          · exact absurd hrv (by simp)
          · rw [g3]
            simp only [size_nodeS] at i3 ⊢
            omega
      · rename_i rk rv1 rl rr rm
        simp only [Option.some.injEq, Prod.mk.injEq] at h
        obtain ⟨h1, h2, h3⟩ := h
        subst h1; subst h2
        refine ⟨fun q hq => ?_, fun hb => ?_, ?_, fun hrv => ?_, fun _ => ?_⟩
        · rw [allKeys_nodeS] at hq
          rw [allKeys_nodeS] at hq
          exact allKeys_nodeS.mpr ⟨hq.2.2.1, hq.2.2.2.1, hq.2.2.2.2⟩
        · rw [isBST_nodeS] at hb
          rw [isBST_nodeS] at hb
          exact isBST_nodeS.mpr ⟨hb.2.2.2.1, hb.2.2.2.2.1, hb.2.2.2.2.2.1,
            hb.2.2.2.2.2.2⟩
        · rw [hfind]; rfl
        · exact absurd hrv (by simp)
        · simp only [size_nodeS, STree.size]; omega
      · rename_i lk lv ll lr lm
        simp only [Option.some.injEq, Prod.mk.injEq] at h
        obtain ⟨h1, h2, h3⟩ := h
        subst h1; subst h2
        refine ⟨fun q hq => ?_, fun hb => ?_, ?_, fun hrv => ?_, fun _ => ?_⟩
        · rw [allKeys_nodeS] at hq
          rw [allKeys_nodeS] at hq
          exact allKeys_nodeS.mpr ⟨hq.2.1.1, hq.2.1.2.1, hq.2.1.2.2⟩
        · rw [isBST_nodeS] at hb
          rw [isBST_nodeS] at hb
          exact isBST_nodeS.mpr ⟨hb.2.2.1.1, hb.2.2.1.2.1, hb.2.2.1.2.2.1,
            hb.2.2.1.2.2.2⟩
        · rw [hfind]; rfl
        · exact absurd hrv (by simp)
        · simp only [size_nodeS, STree.size]; omega
      · split at h <;>
          (simp only [Option.some.injEq, Prod.mk.injEq] at h;
           obtain ⟨h1, h2, h3⟩ := h; subst h1; subst h2)
        all_goals
          refine ⟨fun q hq => rfl, fun hb => rfl, ?_, fun hrv => absurd hrv (by simp),
            fun _ => ?_⟩
        any_goals
          rw [hfind]; rfl
        all_goals
          simp [size_nodeS, STree.size]

theorem setColor_rootBlack {t : RBT K V} (h : rootBlack t = true) :
    setColor t Color.Black = t := by
  cases t with
  | nil => rfl
  | node k v l r c =>
    have : c = Color.Black := of_decide_eq_true h
    rw [this]
    rfl

theorem rb_treeInsert_spec {t t' : RBT K V} {k : K} {v : V}
    (h : treeInsert t k v = some t') :
    (isBST t = true → isBST t' = true) ∧
    (find t k = none → STree.size t' = STree.size t + 1) ∧
    ((find t k).isSome = true → STree.size t' = STree.size t) := by
  cases t with
  | nil =>
    simp only [treeInsert, Option.some.injEq] at h
    subst h
    refine ⟨fun _ => ?_, fun _ => ?_, fun hf => ?_⟩
    · exact isBST_nodeS.mpr ⟨rfl, rfl, rfl, rfl⟩
    · simp [size_nodeS, STree.size]
    · simp [STree.find] at hf
  | node k0 v0 l r c =>
    simp only [treeInsert, nodeInsert] at h
    obtain ⟨⟨t1, rot⟩, hp, h2⟩ := Option.bind_eq_some.mp h
    have h2' : (some (setColor t1 Color.Black) : Option _) = some t' := h2
    rw [Option.some.injEq] at h2'
    subst h2'
    obtain ⟨i1, i2, i3, i4⟩ := rb_insertRec_spec hp
    obtain ⟨g1, g2, g3⟩ := pres_setColor (t := t1) (c := Color.Black)
    exact ⟨fun hb => g2 (i2 hb), fun hf => by rw [g3, i3 hf],
      fun hf => by rw [g3, i4 hf]⟩

theorem rb_treeRemove_spec {t t' : RBT K V} {k : K} {rv : Option (K × V)}
    (h : treeRemove t k = some (t', rv)) :
    (isBST t = true → isBST t' = true) ∧
    (rv.isSome = (find t k).isSome) ∧
    (rv = none → t' = setColor t Color.Black) ∧
    (rv.isSome = true → STree.size t = STree.size t' + 1) := by
  cases t with
  | nil =>
    simp only [treeRemove, Option.some.injEq, Prod.mk.injEq] at h
    obtain ⟨h1, h2⟩ := h
    subst h1; subst h2
    exact ⟨fun _ => rfl, rfl, fun _ => rfl, fun hx => absurd hx (by simp)⟩
  | node k0 v0 l r c =>
    simp only [treeRemove, nodeRemove] at h
    obtain ⟨⟨t1, rv0, chk⟩, hp, h2⟩ := Option.bind_eq_some.mp h
    have h2' : (some (setColor t1 Color.Black, rv0) : Option _) = some (t', rv) := h2
    simp only [Option.some.injEq, Prod.mk.injEq] at h2'
    obtain ⟨e1, e2⟩ := h2'
    subst e1; subst e2
    obtain ⟨i1, i2, i3, i4, i5⟩ := rb_removeRec_spec hp
    obtain ⟨g1, g2, g3⟩ := pres_setColor (t := t1) (c := Color.Black)
    refine ⟨fun hb => g2 (i2 hb), i3, fun hrv => ?_, fun hrv => by rw [g3]; exact i5 hrv⟩
    rw [(i4 hrv).1]

theorem runRBFrom_isBST {K V : Type} [LinearOrder K] :
    ∀ (ops : List (RBOp K V)) (t t' : RBT K V),
      runRBFrom t ops = some t' → STree.isBST t = true →
      STree.isBST t' = true := by
  intro ops
  induction ops with
  | nil =>
    intro t t' h ht
    simp only [runRBFrom, Option.some.injEq] at h
    subst h; exact ht
  | cons op ops ih =>
    intro t t' h ht
    cases op with
    | ins k v =>
      simp only [runRBFrom] at h
      obtain ⟨t1, hp, h2⟩ := Option.bind_eq_some.mp h
      exact ih t1 t' h2 ((RB.rb_treeInsert_spec hp).1 ht)
    | del k =>
      simp only [runRBFrom] at h
      obtain ⟨⟨t1, rv⟩, hp, h2⟩ := Option.bind_eq_some.mp h
      have h2' : runRBFrom t1 ops = some t' := h2
      exact ih t1 t' h2' ((RB.rb_treeRemove_spec hp).1 ht)

end RB

/-- Claim C1: after any sequence of inserts and removes from an empty tree
(AVL or red-black), every node's left-subtree keys are strictly below its
key and its right-subtree keys strictly above. -/
theorem claim_C1 {α K V : Type} [LinearOrder α] [LinearOrder K] :
    (∀ (ops : List (AVLOp α)) (t : AVLTree α),
      runAVL ops = some t → AVLTree.isBST t = true) ∧
    (∀ (ops : List (RBOp K V)) (t : RBT K V),
      runRB ops = some t → STree.isBST t = true) :=
  ⟨fun ops t h => runAVLFrom_isBST ops .nil t h rfl,
   fun ops t h => RB.runRBFrom_isBST ops .nil t h rfl⟩

/-- Witness for claim C1 at concrete operation sequences of each kind. -/
theorem claim_C1_witness :
    AVLTree.isBST (AVLTree.node 2 (AVLTree.node 1 .nil .nil 0)
      (AVLTree.node 3 .nil .nil 0) (0 : Int) : AVLTree Nat) = true ∧
    STree.isBST (STree.node 1 10 .nil
      (STree.node 2 20 .nil .nil Color.Red) Color.Black : RBT Nat Nat) = true :=
  ⟨(claim_C1 (K := Nat) (V := Nat)).1 [AVLOp.ins 2, AVLOp.ins 1, AVLOp.ins 3]
      (AVLTree.node 2 (AVLTree.node 1 .nil .nil 0) (AVLTree.node 3 .nil .nil 0) 0)
      (by decide),
   (claim_C1 (α := Nat)).2 [RBOp.ins 1 10, RBOp.ins 2 20]
      (STree.node 1 10 .nil (STree.node 2 20 .nil .nil Color.Red) Color.Black)
      (by decide)⟩

/-! ## Size, membership and frame lemmas -/

namespace AVLTree

variable {α : Type} [LinearOrder α]

theorem size_node {v : α} {l r : AVLTree α} {bf : Int} :
    size (node v l r bf) = 1 + size l + size r := rfl

theorem find_node_eqA {v x : α} {l r : AVLTree α} {bf : Int} :
    find (node v l r bf) x =
      (if x < v then find l x else if v < x then find r x else some v) := rfl

theorem keyMem_node {x v : α} {l r : AVLTree α} {bf : Int} :
    keyMem x (node v l r bf) = (decide (x = v) || keyMem x l || keyMem x r) := rfl

theorem keyMem_true_allKeys {p : α → Bool} {x : α} :
    ∀ {t : AVLTree α}, allKeys p t = true → keyMem x t = true → p x = true := by
  intro t
  induction t with
  | nil => intro _ hm; simp [keyMem] at hm
  | node v l r bf ihl ihr =>
    intro hk hm
    rw [allKeys_node] at hk
    rw [keyMem_node] at hm
    simp only [Bool.or_eq_true, decide_eq_true_eq] at hm
    rcases hm with (hm | hm) | hm
    · subst hm; exact hk.1
    · exact ihl hk.2.1 hm
    · exact ihr hk.2.2 hm

theorem find_isSome_iff_keyMem {x : α} :
    ∀ {t : AVLTree α}, isBST t = true →
      ((find t x).isSome = true ↔ keyMem x t = true) := by
  intro t
  induction t with
  | nil => intro _; simp [find, keyMem]
  | node v l r bf ihl ihr =>
    intro hb
    rw [isBST_node] at hb
    obtain ⟨h1, h2, h3, h4⟩ := hb
    rw [find_node_eqA, keyMem_node]
    rcases lt_trichotomy x v with hlt | heq | hgt
    · rw [if_pos hlt]
      simp only [Bool.or_eq_true, decide_eq_true_eq]
      constructor
      · intro hf
        exact Or.inl (Or.inr ((ihl h3).mp hf))
      · intro hm
        rcases hm with (hm | hm) | hm
        · exact absurd hm (ne_of_lt hlt)
        · exact (ihl h3).mpr hm
        · have := keyMem_true_allKeys h2 hm
          rw [decide_eq_true_eq] at this
          exact absurd hlt (lt_asymm this)
    · subst heq
      rw [if_neg (lt_irrefl x), if_neg (lt_irrefl x)]
      simp
    · rw [if_neg (lt_asymm hgt), if_pos hgt]
      simp only [Bool.or_eq_true, decide_eq_true_eq]
      constructor
      · intro hf
        exact Or.inr ((ihr h4).mp hf)
      · intro hm
        rcases hm with (hm | hm) | hm
        · exact absurd hm (ne_of_gt hgt)
        · have := keyMem_true_allKeys h1 hm
          rw [decide_eq_true_eq] at this
          exact absurd hgt (lt_asymm this)
        · exact (ihr h4).mpr hm

theorem rotateRight_size {t t' : AVLTree α} (h : rotateRight t = some t') :
    size t' = size t := by
  cases t with
  | nil => simp [rotateRight] at h
  | node a l r bf =>
    cases l with
    | nil => simp [rotateRight] at h
    | node b bl br bbf =>
      simp only [rotateRight] at h
      split_ifs at h <;> (injection h with h; subst h) <;>
        (simp only [size_node]; omega)

theorem rotateLeft_size {t t' : AVLTree α} (h : rotateLeft t = some t') :
    size t' = size t := by
  cases t with
  | nil => simp [rotateLeft] at h
  | node a l r bf =>
    cases r with
    | nil => simp [rotateLeft] at h
    | node b bl br bbf =>
      simp only [rotateLeft] at h
      split_ifs at h <;> (injection h with h; subst h) <;>
        (simp only [size_node]; omega)

theorem rotateLeftRight_size {t t' : AVLTree α} (h : rotateLeftRight t = some t') :
    size t' = size t := by
  cases t with
  | nil => simp [rotateLeftRight] at h
  | node a l w bf =>
    cases l with
    | nil => simp [rotateLeftRight] at h
    | node b x c bbf =>
      cases c with
      | nil => simp [rotateLeftRight] at h
      | node cv y z cbf =>
        simp only [rotateLeftRight] at h
        injection h with h; subst h
        simp only [size_node]; omega

theorem rotateRightLeft_size {t t' : AVLTree α} (h : rotateRightLeft t = some t') :
    size t' = size t := by
  cases t with
  | nil => simp [rotateRightLeft] at h
  | node a w r bf =>
    cases r with
    | nil => simp [rotateRightLeft] at h
    | node b c x bbf =>
      cases c with
      | nil => simp [rotateRightLeft] at h
      | node cv y z cbf =>
        simp only [rotateRightLeft] at h
        injection h with h; subst h
        simp only [size_node]; omega

theorem balance_size {t t' : AVLTree α} (h : balance t = some t') :
    size t' = size t := by
  cases t with
  | nil => simp [balance] at h
  | node v l r bf =>
    simp only [balance] at h
    split_ifs at h with h1 h2
    · split at h
      · exact absurd h (by simp)
      · split_ifs at h
        · exact rotateRight_size h
        · exact rotateLeftRight_size h
    · split at h
      · exact absurd h (by simp)
      · split_ifs at h
        · exact rotateLeft_size h
        · exact rotateRightLeft_size h

theorem handleChildChange_size {v : α} {l r t' : AVLTree α} {bf : Int}
    {ch ch' : HeightChange} {side : Side}
    (h : handleChildChange (node v l r bf) ch side = some (t', ch')) :
    size t' = 1 + size l + size r := by
  cases ch with
  | Unchanged =>
    simp only [handleChildChange] at h
    simp only [Option.some.injEq, Prod.mk.injEq] at h
    obtain ⟨h1, h2⟩ := h
    subst h1
    rfl
  | Increased =>
    simp only [handleChildChange] at h
    split_ifs at h with h0 h5
    · simp only [Option.some.injEq, Prod.mk.injEq] at h
      obtain ⟨h1, h2⟩ := h
      subst h1
      rfl
    · simp only [Option.some.injEq, Prod.mk.injEq] at h
      obtain ⟨h1, h2⟩ := h
      subst h1
      rfl
    · split at h
      · exact absurd h (by simp)
      · rename_i t2 heq
        simp only [Option.some.injEq, Prod.mk.injEq] at h
        obtain ⟨h1, h2⟩ := h
        subst h1
        rw [balance_size heq]
        rfl
  | Decreased =>
    simp only [handleChildChange] at h
    split_ifs at h with h0 h5
    · simp only [Option.some.injEq, Prod.mk.injEq] at h
      obtain ⟨h1, h2⟩ := h
      subst h1
      rfl
    · simp only [Option.some.injEq, Prod.mk.injEq] at h
      obtain ⟨h1, h2⟩ := h
      subst h1
      rfl
    · split at h
      · exact absurd h (by simp)
      · rename_i t2 heq
        split_ifs at h <;>
          (simp only [Option.some.injEq, Prod.mk.injEq] at h;
           obtain ⟨h1, h2⟩ := h; subst h1; rw [balance_size heq]; rfl)

end AVLTree

namespace AVLTree

variable {α : Type} [LinearOrder α]

theorem insert_extra {x : α} : ∀ {t t' : AVLTree α} {ch : HeightChange},
    insert t x = some (t', ch) →
    (find t x = none → size t' = size t + 1) ∧
    ((find t x).isSome = true → t' = t ∧ ch = HeightChange.Unchanged) := by
  intro t
  induction t with
  | nil => intro t' ch h; simp [insert] at h
  | node v l r bf ihl ihr =>
    intro t' ch h
    unfold insert at h
    split_ifs at h with hlt hgt
    · split at h
      · refine ⟨fun _ => ?_, fun hf => ?_⟩
        · rw [handleChildChange_size h]
          simp [size_node, size, newNode]
          omega
        · rw [find_node_eqA, if_pos hlt] at hf
          simp [find] at hf
      · rename_i v1 l1 r1 b1
        obtain ⟨⟨l2, ch0⟩, hp, hq⟩ := Option.bind_eq_some.mp h
        have hq' : handleChildChange (node v l2 r bf) ch0 Side.Left = some (t', ch) := hq
        obtain ⟨i1, i2⟩ := ihl hp
        refine ⟨fun hf => ?_, fun hf => ?_⟩
        · rw [find_node_eqA, if_pos hlt] at hf
          rw [handleChildChange_size hq', i1 hf]
          simp only [size_node]
          omega
        · rw [find_node_eqA, if_pos hlt] at hf
          obtain ⟨e1, e2⟩ := i2 hf
          subst e1; subst e2
          simp only [handleChildChange] at hq'
          simp only [Option.some.injEq, Prod.mk.injEq] at hq'
          exact ⟨hq'.1.symm, hq'.2.symm⟩
    · split at h
      · refine ⟨fun _ => ?_, fun hf => ?_⟩
        · rw [handleChildChange_size h]
          simp [size_node, size, newNode]
        · rw [find_node_eqA, if_neg hlt, if_pos hgt] at hf
          simp [find] at hf
      · rename_i v1 l1 r1 b1
        obtain ⟨⟨r2, ch0⟩, hp, hq⟩ := Option.bind_eq_some.mp h
        have hq' : handleChildChange (node v l r2 bf) ch0 Side.Right = some (t', ch) := hq
        obtain ⟨i1, i2⟩ := ihr hp
        refine ⟨fun hf => ?_, fun hf => ?_⟩
        · rw [find_node_eqA, if_neg hlt, if_pos hgt] at hf
          rw [handleChildChange_size hq', i1 hf]
          simp only [size_node]
          omega
        · rw [find_node_eqA, if_neg hlt, if_pos hgt] at hf
          obtain ⟨e1, e2⟩ := i2 hf
          subst e1; subst e2
          simp only [handleChildChange] at hq'
          simp only [Option.some.injEq, Prod.mk.injEq] at hq'
          exact ⟨hq'.1.symm, hq'.2.symm⟩
    · simp only [Option.some.injEq, Prod.mk.injEq] at h
      obtain ⟨h1, h2⟩ := h
      subst h1; subst h2
      have hxv : x = v := le_antisymm (le_of_not_lt hgt) (le_of_not_lt hlt)
      subst hxv
      refine ⟨fun hf => ?_, fun _ => ⟨rfl, rfl⟩⟩
      rw [find_node_eqA, if_neg hlt, if_neg hgt] at hf
      exact absurd hf (by simp)

theorem popSmallest_size : ∀ {t t2 : AVLTree α} {p : α} {ch : HeightChange},
    popSmallest t = some (t2, p, ch) → size t = size t2 + 1 := by
  intro t
  induction t with
  | nil => intro t2 p ch h; simp [popSmallest] at h
  | node v l r bf ihl ihr =>
    intro t2 p ch h
    unfold popSmallest at h
    split at h
    · simp only [Option.some.injEq, Prod.mk.injEq] at h
      obtain ⟨h1, h2, h3⟩ := h
      subst h1
      simp [size_node, size]
      omega
    · rename_i v1 l1 r1 b1
      obtain ⟨⟨l2, p0, ch0⟩, hp, h2⟩ := Option.bind_eq_some.mp h
      have h2' : (do
          let (t1, ch1) ← handleChildChange (node v l2 r bf) ch0 Side.Left
          some (t1, p0, ch1) : Option _) = some (t2, p, ch) := h2
      obtain ⟨⟨t1, ch1⟩, hq, h3⟩ := Option.bind_eq_some.mp h2'
      have h3' : (some (t1, p0, ch1) : Option _) = some (t2, p, ch) := h3
      simp only [Option.some.injEq, Prod.mk.injEq] at h3'
      obtain ⟨e1, e2, e3⟩ := h3'
      subst e1
      have hs := handleChildChange_size hq
      have hi := ihl hp
      rw [hs]
      simp only [size_node] at hi ⊢
      omega

theorem remove_extra {x : α} : ∀ {t t' : AVLTree α} {ch : HeightChange} {rv : Option α},
    remove t x = some (t', ch, rv) →
    (rv.isSome = (find t x).isSome) ∧
    (rv = none → t' = t ∧ ch = HeightChange.Unchanged) ∧
    (rv.isSome = true → size t = size t' + 1) := by
  intro t
  induction t with
  | nil => intro t' ch rv h; simp [remove] at h
  | node v l r bf ihl ihr =>
    intro t' ch rv h
    unfold remove at h
    split_ifs at h with hlt hgt
    · split at h
      · simp only [Option.some.injEq, Prod.mk.injEq] at h
        obtain ⟨h1, h2, h3⟩ := h
        subst h1; subst h2; subst h3
        refine ⟨?_, fun _ => ⟨rfl, rfl⟩, fun hx => absurd hx (by simp)⟩
        rw [find_node_eqA, if_pos hlt]
        rfl
      · rename_i v1 l1 r1 b1
        obtain ⟨⟨l2, ch0, rv0⟩, hp, h2⟩ := Option.bind_eq_some.mp h
        have h2' : (do
            let (t1, ch1) ← handleChildChange (node v l2 r bf) ch0 Side.Left
            some (t1, ch1, rv0) : Option _) = some (t', ch, rv) := h2
        obtain ⟨⟨t1, ch1⟩, hq, h3⟩ := Option.bind_eq_some.mp h2'
        have h3' : (some (t1, ch1, rv0) : Option _) = some (t', ch, rv) := h3
        simp only [Option.some.injEq, Prod.mk.injEq] at h3'
        obtain ⟨e1, e2, e3⟩ := h3'
        subst e1; subst e2; subst e3
        obtain ⟨i1, i2, i3⟩ := ihl hp
        refine ⟨?_, fun hrv => ?_, fun hrv => ?_⟩
        · rw [find_node_eqA, if_pos hlt]
          exact i1
        · obtain ⟨e4, e5⟩ := i2 hrv
          subst e4; subst e5
          simp only [handleChildChange] at hq
          simp only [Option.some.injEq, Prod.mk.injEq] at hq
          exact ⟨hq.1.symm, hq.2.symm⟩
        · have := i3 hrv
          rw [handleChildChange_size hq]
          simp only [size_node] at this ⊢
          omega
    · split at h
      · simp only [Option.some.injEq, Prod.mk.injEq] at h
        obtain ⟨h1, h2, h3⟩ := h
        subst h1; subst h2; subst h3
        refine ⟨?_, fun _ => ⟨rfl, rfl⟩, fun hx => absurd hx (by simp)⟩
        rw [find_node_eqA, if_neg hlt, if_pos hgt]
        rfl
      · rename_i v1 l1 r1 b1
        obtain ⟨⟨r2, ch0, rv0⟩, hp, h2⟩ := Option.bind_eq_some.mp h
        have h2' : (do
            let (t1, ch1) ← handleChildChange (node v l r2 bf) ch0 Side.Right
            some (t1, ch1, rv0) : Option _) = some (t', ch, rv) := h2
        obtain ⟨⟨t1, ch1⟩, hq, h3⟩ := Option.bind_eq_some.mp h2'
        have h3' : (some (t1, ch1, rv0) : Option _) = some (t', ch, rv) := h3
        simp only [Option.some.injEq, Prod.mk.injEq] at h3'
        obtain ⟨e1, e2, e3⟩ := h3'
        subst e1; subst e2; subst e3
        obtain ⟨i1, i2, i3⟩ := ihr hp
        refine ⟨?_, fun hrv => ?_, fun hrv => ?_⟩
        · rw [find_node_eqA, if_neg hlt, if_pos hgt]
          exact i1
        · obtain ⟨e4, e5⟩ := i2 hrv
          subst e4; subst e5
          simp only [handleChildChange] at hq
          simp only [Option.some.injEq, Prod.mk.injEq] at hq
          exact ⟨hq.1.symm, hq.2.symm⟩
        · have := i3 hrv
          rw [handleChildChange_size hq]
          simp only [size_node] at this ⊢
          omega
    · have hfind : find (node v l r bf) x = some v := by
        rw [find_node_eqA, if_neg hlt, if_neg hgt]
      split at h
      · rename_i lv ll lr lb rv1 rl rr rb
        obtain ⟨⟨r2, repl, ch0⟩, hp, h2⟩ := Option.bind_eq_some.mp h
        have h2' : (do
            let (t1, ch1) ←
              handleChildChange (node repl (node lv ll lr lb) r2 bf) ch0 Side.Right
            some (t1, ch1, some v) : Option _) = some (t', ch, rv) := h2
        obtain ⟨⟨t1, ch1⟩, hq, h3⟩ := Option.bind_eq_some.mp h2'
        have h3' : (some (t1, ch1, some v) : Option _) = some (t', ch, rv) := h3
        simp only [Option.some.injEq, Prod.mk.injEq] at h3'
        obtain ⟨e1, e2, e3⟩ := h3'
        subst e1; subst e2
        refine ⟨by rw [hfind]; simp [e3], fun hrv => ?_, fun _ => ?_⟩
        · rw [← e3] at hrv
          exact absurd hrv (by simp)
        · have := popSmallest_size hp
          rw [handleChildChange_size hq]
          simp only [size_node] at this ⊢
          omega
      · rename_i rv1 rl rr rb
        simp only [Option.some.injEq, Prod.mk.injEq] at h
        obtain ⟨h1, h2, h3⟩ := h
        subst h1; subst h2
        refine ⟨by rw [hfind]; simp [← h3], fun hrv => ?_, fun _ => ?_⟩
        · rw [← h3] at hrv
          exact absurd hrv (by simp)
        · simp [size_node, size]
          omega
      · rename_i lv ll lr lb
        simp only [Option.some.injEq, Prod.mk.injEq] at h
        obtain ⟨h1, h2, h3⟩ := h
        subst h1; subst h2
        refine ⟨by rw [hfind]; simp [← h3], fun hrv => ?_, fun _ => ?_⟩
        · rw [← h3] at hrv
          exact absurd hrv (by simp)
        · simp [size_node, size]
          omega
      · simp only [Option.some.injEq, Prod.mk.injEq] at h
        obtain ⟨h1, h2, h3⟩ := h
        subst h1; subst h2
        refine ⟨by rw [hfind]; simp [← h3], fun hrv => ?_, fun _ => ?_⟩
        · rw [← h3] at hrv
          exact absurd hrv (by simp)
        · simp [size_node, size]

end AVLTree

namespace STree

variable {K V M : Type}

theorem find_nodeS [LinearOrder K] {k0 k : K} {v0 : V} {l r : STree K V M} {m : M} :
    find (node k0 v0 l r m) k =
      (if k < k0 then find l k else if k0 < k then find r k else some v0) := rfl

theorem keyMemS_node [DecidableEq K] {k k0 : K} {v : V} {l r : STree K V M} {m : M} :
    keyMemS k (node k0 v l r m) =
      (decide (k = k0) || keyMemS k l || keyMemS k r) := rfl

theorem keyMemS_true_allKeys [DecidableEq K] {p : K → Bool} {k : K} :
    ∀ {t : STree K V M}, allKeys p t = true → keyMemS k t = true → p k = true := by
  intro t
  induction t with
  | nil => intro _ hm; simp [keyMemS] at hm
  | node k0 v l r m ihl ihr =>
    intro hk hm
    rw [allKeys_nodeS] at hk
    rw [keyMemS_node] at hm
    simp only [Bool.or_eq_true, decide_eq_true_eq] at hm
    rcases hm with (hm | hm) | hm
    · subst hm; exact hk.1
    · exact ihl hk.2.1 hm
    · exact ihr hk.2.2 hm

theorem findS_isSome_iff_keyMemS [LinearOrder K] {k : K} :
    ∀ {t : STree K V M}, isBST t = true →
      ((find t k).isSome = true ↔ keyMemS k t = true) := by
  intro t
  induction t with
  | nil => intro _; simp [find, keyMemS]
  | node k0 v l r m ihl ihr =>
    intro hb
    rw [isBST_nodeS] at hb
    obtain ⟨h1, h2, h3, h4⟩ := hb
    rw [find_nodeS, keyMemS_node]
    rcases lt_trichotomy k k0 with hlt | heq | hgt
    · rw [if_pos hlt]
      simp only [Bool.or_eq_true, decide_eq_true_eq]
      constructor
      · intro hf
        exact Or.inl (Or.inr ((ihl h3).mp hf))
      · intro hm
        rcases hm with (hm | hm) | hm
        · exact absurd hm (ne_of_lt hlt)
        · exact (ihl h3).mpr hm
        · have hgk := keyMemS_true_allKeys h2 hm
          rw [decide_eq_true_eq] at hgk
          exact absurd hlt (lt_asymm hgk)
    · subst heq
      rw [if_neg (lt_irrefl k), if_neg (lt_irrefl k)]
      simp
    · rw [if_neg (lt_asymm hgt), if_pos hgt]
      simp only [Bool.or_eq_true, decide_eq_true_eq]
      constructor
      · intro hf
        exact Or.inr ((ihr h4).mp hf)
      · intro hm
        rcases hm with (hm | hm) | hm
        · exact absurd hm (ne_of_gt hgt)
        · have hgk := keyMemS_true_allKeys h1 hm
          rw [decide_eq_true_eq] at hgk
          exact absurd hgt (lt_asymm hgk)
        · exact (ihr h4).mpr hm

end STree

namespace RB

open STree

variable {K V : Type}

theorem stripVals_node {k : K} {v : V} {l r : RBT K V} {c : Color} :
    stripVals (STree.node k v l r c) =
      STree.node k () (stripVals l) (stripVals r) c := rfl

theorem stripVals_rootBlack {t1 t2 : RBT K V}
    (h : stripVals t1 = stripVals t2) : rootBlack t1 = rootBlack t2 := by
  cases t1 with
  | nil =>
    cases t2 with
    | nil => rfl
    | node k v l r c => simp [stripVals] at h
  | node k v l r c =>
    cases t2 with
    | nil => simp [stripVals] at h
    | node k2 v2 l2 r2 c2 =>
      simp only [stripVals_node, STree.node.injEq] at h
      simp [rootBlack, h.2.2.2.2]

end RB

namespace AVLTree

variable {α : Type} [LinearOrder α]

theorem remove_rv {x : α} : ∀ {t t' : AVLTree α} {ch : HeightChange} {rv : Option α},
    remove t x = some (t', ch, rv) →
    ∀ y, rv = some y → y = x ∧ find t x = some y := by
  intro t
  induction t with
  | nil => intro t' ch rv h; simp [remove] at h
  | node v l r bf ihl ihr =>
    intro t' ch rv h y hy
    unfold remove at h
    split_ifs at h with hlt hgt
    · split at h
      · simp only [Option.some.injEq, Prod.mk.injEq] at h
        rw [← h.2.2] at hy
        exact absurd hy (by simp)
      · rename_i v1 l1 r1 b1
        obtain ⟨⟨l2, ch0, rv0⟩, hp, h2⟩ := Option.bind_eq_some.mp h
        have h2' : (do
            let (t1, ch1) ← handleChildChange (node v l2 r bf) ch0 Side.Left
            some (t1, ch1, rv0) : Option _) = some (t', ch, rv) := h2
        obtain ⟨⟨t1, ch1⟩, hq, h3⟩ := Option.bind_eq_some.mp h2'
        have h3' : (some (t1, ch1, rv0) : Option _) = some (t', ch, rv) := h3
        simp only [Option.some.injEq, Prod.mk.injEq] at h3'
        rw [← h3'.2.2] at hy
        obtain ⟨e1, e2⟩ := ihl hp y hy
        rw [find_node_eqA, if_pos hlt]
        exact ⟨e1, e2⟩
    · split at h
      · simp only [Option.some.injEq, Prod.mk.injEq] at h
        rw [← h.2.2] at hy
        exact absurd hy (by simp)
      · rename_i v1 l1 r1 b1
        obtain ⟨⟨r2, ch0, rv0⟩, hp, h2⟩ := Option.bind_eq_some.mp h
        have h2' : (do
            let (t1, ch1) ← handleChildChange (node v l r2 bf) ch0 Side.Right
            some (t1, ch1, rv0) : Option _) = some (t', ch, rv) := h2
        obtain ⟨⟨t1, ch1⟩, hq, h3⟩ := Option.bind_eq_some.mp h2'
        have h3' : (some (t1, ch1, rv0) : Option _) = some (t', ch, rv) := h3
        simp only [Option.some.injEq, Prod.mk.injEq] at h3'
        rw [← h3'.2.2] at hy
        obtain ⟨e1, e2⟩ := ihr hp y hy
        rw [find_node_eqA, if_neg hlt, if_pos hgt]
        exact ⟨e1, e2⟩
    · have hxv : x = v := le_antisymm (le_of_not_lt hgt) (le_of_not_lt hlt)
      have hfind : find (node v l r bf) x = some v := by
        rw [find_node_eqA, if_neg hlt, if_neg hgt]
      split at h
      · rename_i lv ll lr lb rv1 rl rr rb
        obtain ⟨⟨r2, repl, ch0⟩, hp, h2⟩ := Option.bind_eq_some.mp h
        have h2' : (do
            let (t1, ch1) ←
              handleChildChange (node repl (node lv ll lr lb) r2 bf) ch0 Side.Right
            some (t1, ch1, some v) : Option _) = some (t', ch, rv) := h2
        obtain ⟨⟨t1, ch1⟩, hq, h3⟩ := Option.bind_eq_some.mp h2'
        have h3' : (some (t1, ch1, some v) : Option _) = some (t', ch, rv) := h3
        simp only [Option.some.injEq, Prod.mk.injEq] at h3'
        rw [← h3'.2.2] at hy
        rw [Option.some.injEq] at hy
        subst hy
        exact ⟨hxv.symm, hfind⟩
      · simp only [Option.some.injEq, Prod.mk.injEq] at h
        rw [← h.2.2] at hy
        rw [Option.some.injEq] at hy
        subst hy
        exact ⟨hxv.symm, hfind⟩
      · simp only [Option.some.injEq, Prod.mk.injEq] at h
        rw [← h.2.2] at hy
        rw [Option.some.injEq] at hy
        subst hy
        exact ⟨hxv.symm, hfind⟩
      · simp only [Option.some.injEq, Prod.mk.injEq] at h
        rw [← h.2.2] at hy
        rw [Option.some.injEq] at hy
        subst hy
        exact ⟨hxv.symm, hfind⟩

theorem treeInsert_extra {t t' : AVLTree α} {x : α}
    (h : treeInsert t x = some t') :
    (find t x = none → size t' = size t + 1) ∧
    ((find t x).isSome = true → t' = t) := by
  cases t with
  | nil =>
    simp only [treeInsert, Option.some.injEq] at h
    subst h
    refine ⟨fun _ => by simp [size, newNode], fun hf => ?_⟩
    simp [find] at hf
  | node v l r bf =>
    simp only [treeInsert] at h
    obtain ⟨⟨t1, ch⟩, hp, h2⟩ := Option.bind_eq_some.mp h
    have h2' : (some t1 : Option _) = some t' := h2
    rw [Option.some.injEq] at h2'
    subst h2'
    obtain ⟨i1, i2⟩ := insert_extra hp
    exact ⟨i1, fun hf => (i2 hf).1⟩

theorem treeRemove_extra {t t' : AVLTree α} {x : α} {rv : Option α}
    (h : treeRemove t x = some (t', rv)) :
    (rv.isSome = (find t x).isSome) ∧
    (rv = none → t' = t) ∧
    ((find t x).isSome = true → size t = size t' + 1) ∧
    (∀ y, rv = some y → y = x ∧ find t x = some y) := by
  cases t with
  | nil =>
    simp only [treeRemove, Option.some.injEq, Prod.mk.injEq] at h
    obtain ⟨h1, h2⟩ := h
    subst h1; subst h2
    refine ⟨rfl, fun _ => rfl, fun hf => ?_, fun y hy => absurd hy (by simp)⟩
    simp [find] at hf
  | node v l r bf =>
    simp only [treeRemove] at h
    obtain ⟨⟨t1, ch, rv0⟩, hp, h2⟩ := Option.bind_eq_some.mp h
    have h2' : (some (t1, rv0) : Option _) = some (t', rv) := h2
    simp only [Option.some.injEq, Prod.mk.injEq] at h2'
    obtain ⟨e1, e2⟩ := h2'
    subst e1; subst e2
    obtain ⟨i1, i2, i3⟩ := remove_extra hp
    refine ⟨i1, fun hrv => (i2 hrv).1, fun hf => i3 (by rw [i1, hf]),
      fun y hy => remove_rv hp y hy⟩

end AVLTree

namespace RB

open STree

variable {K V : Type} [LinearOrder K]

theorem rb_removeRec_rv {k : K} : ∀ {t t' : RBT K V} {rv : Option (K × V)} {chk : Bool},
    removeRec t k = some (t', rv, chk) →
    ∀ p, rv = some p → p.1 = k ∧ find t k = some p.2 := by
  intro t
  induction t with
  | nil => intro t' rv chk h; simp [removeRec] at h
  | node k0 v0 l r c ihl ihr =>
    intro t' rv chk h p hp
    unfold removeRec at h
    split_ifs at h with hlt hgt
    · split at h
      · simp only [Option.some.injEq, Prod.mk.injEq] at h
        rw [← h.2.1] at hp
        exact absurd hp (by simp)
      · rename_i k1 v1 l1 r1 m1
        obtain ⟨⟨l2, rv0, chk0⟩, hq, h2⟩ := Option.bind_eq_some.mp h
        have hfind : find (node k0 v0 (node k1 v1 l1 r1 m1) r c) k =
            find (node k1 v1 l1 r1 m1) k := by
          rw [find_node_eq, if_pos hlt]
        cases chk0 with
        | false =>
          have h3 : (some (node k0 v0 l2 r c, rv0, false) : Option _) =
              some (t', rv, chk) := h2
          simp only [Option.some.injEq, Prod.mk.injEq] at h3
          rw [← h3.2.1] at hp
          obtain ⟨e1, e2⟩ := ihl hq p hp
          rw [hfind]
          exact ⟨e1, e2⟩
        | true =>
          have h3 : (do
              let (t2, chk2) ← checkImbalance (node k0 v0 l2 r c) Side.Left
              some (t2, rv0, chk2) : Option _) = some (t', rv, chk) := h2
          obtain ⟨⟨t2, chk2⟩, hq2, h4⟩ := Option.bind_eq_some.mp h3
          have h4' : (some (t2, rv0, chk2) : Option _) = some (t', rv, chk) := h4
          simp only [Option.some.injEq, Prod.mk.injEq] at h4'
          rw [← h4'.2.1] at hp
          obtain ⟨e1, e2⟩ := ihl hq p hp
          rw [hfind]
          exact ⟨e1, e2⟩
    · split at h
      · simp only [Option.some.injEq, Prod.mk.injEq] at h
        rw [← h.2.1] at hp
        exact absurd hp (by simp)
      · rename_i k1 v1 l1 r1 m1
        obtain ⟨⟨r2, rv0, chk0⟩, hq, h2⟩ := Option.bind_eq_some.mp h
        have hfind : find (node k0 v0 l (node k1 v1 l1 r1 m1) c) k =
            find (node k1 v1 l1 r1 m1) k := by
          rw [find_node_eq, if_neg hlt, if_pos hgt]
        cases chk0 with
        | false =>
          have h3 : (some (node k0 v0 l r2 c, rv0, false) : Option _) =
              some (t', rv, chk) := h2
          simp only [Option.some.injEq, Prod.mk.injEq] at h3
          rw [← h3.2.1] at hp
          obtain ⟨e1, e2⟩ := ihr hq p hp
          rw [hfind]
          exact ⟨e1, e2⟩
        | true =>
          have h3 : (do
              let (t2, chk2) ← checkImbalance (node k0 v0 l r2 c) Side.Right
              some (t2, rv0, chk2) : Option _) = some (t', rv, chk) := h2
          obtain ⟨⟨t2, chk2⟩, hq2, h4⟩ := Option.bind_eq_some.mp h3
          have h4' : (some (t2, rv0, chk2) : Option _) = some (t', rv, chk) := h4
          simp only [Option.some.injEq, Prod.mk.injEq] at h4'
          rw [← h4'.2.1] at hp
          obtain ⟨e1, e2⟩ := ihr hq p hp
          rw [hfind]
          exact ⟨e1, e2⟩
    · have hk0 : k = k0 := le_antisymm (le_of_not_lt hgt) (le_of_not_lt hlt)
      have hfind : find (node k0 v0 l r c) k = some v0 := by
        rw [find_node_eq, if_neg hlt, if_neg hgt]
      split at h
      · rename_i lk lv ll lr lm rk rv1 rl rr rm
        obtain ⟨⟨r2, q, chk0⟩, hq, h2⟩ := Option.bind_eq_some.mp h
        cases chk0 with
        | false =>
          have h3 : (some (node q.1 q.2 (node lk lv ll lr lm) r2 c,
              some (k0, v0), false) : Option _) = some (t', rv, chk) := h2
          simp only [Option.some.injEq, Prod.mk.injEq] at h3
          rw [← h3.2.1] at hp
          rw [Option.some.injEq] at hp
          subst hp
          exact ⟨hk0.symm, hfind⟩
        | true =>
          have h3 : (do
              let (t2, chk2) ← checkImbalance
                (node q.1 q.2 (node lk lv ll lr lm) r2 c) Side.Right
              some (t2, some (k0, v0), chk2) : Option _) = some (t', rv, chk) := h2
          obtain ⟨⟨t2, chk2⟩, hq2, h4⟩ := Option.bind_eq_some.mp h3
          have h4' : (some (t2, some (k0, v0), chk2) : Option _) =
              some (t', rv, chk) := h4
          simp only [Option.some.injEq, Prod.mk.injEq] at h4'
          rw [← h4'.2.1] at hp
          rw [Option.some.injEq] at hp
          subst hp
          exact ⟨hk0.symm, hfind⟩
      · simp only [Option.some.injEq, Prod.mk.injEq] at h
        rw [← h.2.1] at hp
        rw [Option.some.injEq] at hp
        subst hp
        exact ⟨hk0.symm, hfind⟩
      · simp only [Option.some.injEq, Prod.mk.injEq] at h
        rw [← h.2.1] at hp
        rw [Option.some.injEq] at hp
        subst hp
        exact ⟨hk0.symm, hfind⟩
      · split at h
        · simp only [Option.some.injEq, Prod.mk.injEq] at h
          rw [← h.2.1] at hp
          rw [Option.some.injEq] at hp
          subst hp
          exact ⟨hk0.symm, hfind⟩
        · simp only [Option.some.injEq, Prod.mk.injEq] at h
          rw [← h.2.1] at hp
          rw [Option.some.injEq] at hp
          subst hp
          exact ⟨hk0.symm, hfind⟩

end RB

namespace RB

open STree

variable {K V : Type} [LinearOrder K]

theorem rb_insertRec_existing {k : K} {v : V} : ∀ {t t' : RBT K V} {rot : Option Side},
    (find t k).isSome = true → insertRec t k v = some (t', rot) →
    rot = none ∧ stripVals t' = stripVals t ∧ find t' k = some v ∧
    ∀ k2, ¬ k2 = k → find t' k2 = find t k2 := by
  intro t
  induction t with
  | nil => intro t' rot hf h; simp [find] at hf
  | node k0 v0 l r c ihl ihr =>
    intro t' rot hf h
    unfold insertRec at h
    split_ifs at h with hlt hgt
    · rw [find_node_eq, if_pos hlt] at hf
      split at h
      · simp [find] at hf
      · rename_i k1 v1 l1 r1 m1
        obtain ⟨⟨l2, rot0⟩, hp, hq⟩ := Option.bind_eq_some.mp h
        obtain ⟨i1, i2, i3, i4⟩ := ihl hf hp
        subst i1
        simp only [handleInsertRotation] at hq
        simp only [Option.some.injEq, Prod.mk.injEq] at hq
        obtain ⟨e1, e2⟩ := hq
        subst e1
        refine ⟨e2.symm, ?_, ?_, ?_⟩
        · rw [stripVals_node, stripVals_node, i2]
        · rw [find_node_eq, if_pos hlt]
          exact i3
        · intro k2 hk2
          rw [find_node_eq, find_node_eq]
          by_cases h2 : k2 < k0
          · rw [if_pos h2, if_pos h2]
            exact i4 k2 hk2
          · rw [if_neg h2, if_neg h2]
    · rw [find_node_eq, if_neg hlt, if_pos hgt] at hf
      split at h
      · simp [find] at hf
      · rename_i k1 v1 l1 r1 m1
        obtain ⟨⟨r2, rot0⟩, hp, hq⟩ := Option.bind_eq_some.mp h
        obtain ⟨i1, i2, i3, i4⟩ := ihr hf hp
        subst i1
        simp only [handleInsertRotation] at hq
        simp only [Option.some.injEq, Prod.mk.injEq] at hq
        obtain ⟨e1, e2⟩ := hq
        subst e1
        refine ⟨e2.symm, ?_, ?_, ?_⟩
        · rw [stripVals_node, stripVals_node, i2]
        · rw [find_node_eq, if_neg hlt, if_pos hgt]
          exact i3
        · intro k2 hk2
          rw [find_node_eq, find_node_eq]
          by_cases h2 : k2 < k0
          · rw [if_pos h2, if_pos h2]
          · by_cases h3 : k0 < k2
            · rw [if_neg h2, if_pos h3, if_neg h2, if_pos h3]
              exact i4 k2 hk2
            · rw [if_neg h2, if_neg h3, if_neg h2, if_neg h3]
    · have hk0 : k = k0 := le_antisymm (le_of_not_lt hgt) (le_of_not_lt hlt)
      subst hk0
      simp only [Option.some.injEq, Prod.mk.injEq] at h
      obtain ⟨e1, e2⟩ := h
      subst e1
      refine ⟨e2.symm, rfl, ?_, ?_⟩
      · rw [find_node_eq, if_neg (lt_irrefl k), if_neg (lt_irrefl k)]
      · intro k2 hk2
        rw [find_node_eq, find_node_eq]
        by_cases h2 : k2 < k
        · rw [if_pos h2, if_pos h2]
        · by_cases h3 : k < k2
          · rw [if_neg h2, if_pos h3, if_neg h2, if_pos h3]
          · exact absurd (le_antisymm (le_of_not_lt h3) (le_of_not_lt h2)) hk2

theorem rb_treeInsert_existing {t t' : RBT K V} {k : K} {v : V}
    (hb : rootBlack t = true) (hf : (find t k).isSome = true)
    (h : treeInsert t k v = some t') :
    stripVals t' = stripVals t ∧ find t' k = some v ∧
    ∀ k2, ¬ k2 = k → find t' k2 = find t k2 := by
  cases t with
  | nil => simp [find] at hf
  | node k0 v0 l r c =>
    simp only [treeInsert, nodeInsert] at h
    obtain ⟨⟨t1, rot⟩, hp, h2⟩ := Option.bind_eq_some.mp h
    have h2' : (some (setColor t1 Color.Black) : Option _) = some t' := h2
    rw [Option.some.injEq] at h2'
    obtain ⟨i1, i2, i3, i4⟩ := rb_insertRec_existing hf hp
    have hb1 : rootBlack t1 = true := by
      rw [stripVals_rootBlack i2]
      exact hb
    rw [setColor_rootBlack hb1] at h2'
    subst h2'
    exact ⟨i2, i3, i4⟩

theorem rb_treeRemove_extra {t t' : RBT K V} {k : K} {rv : Option (K × V)}
    (hb : rootBlack t = true) (h : treeRemove t k = some (t', rv)) :
    (rv = none → t' = t) ∧
    (∀ p, rv = some p → p.1 = k ∧ find t k = some p.2) := by
  cases t with
  | nil =>
    simp only [treeRemove, Option.some.injEq, Prod.mk.injEq] at h
    obtain ⟨h1, h2⟩ := h
    subst h1; subst h2
    exact ⟨fun _ => rfl, fun p hp => absurd hp (by simp)⟩
  | node k0 v0 l r c =>
    simp only [treeRemove, nodeRemove] at h
    obtain ⟨⟨t1, rv0, chk⟩, hq, h2⟩ := Option.bind_eq_some.mp h
    have h2' : (some (setColor t1 Color.Black, rv0) : Option _) = some (t', rv) := h2
    simp only [Option.some.injEq, Prod.mk.injEq] at h2'
    obtain ⟨e1, e2⟩ := h2'
    subst e1; subst e2
    obtain ⟨i1, i2, i3, i4, i5⟩ := rb_removeRec_spec hq
    refine ⟨fun hrv => ?_, fun p hp2 => rb_removeRec_rv hq p hp2⟩
    rw [(i4 hrv).1]
    exact setColor_rootBlack hb

end RB

/-- C6: size law for both tree kinds — a successful insert of an absent key
grows the node count by exactly 1, inserting a present key leaves it
unchanged, a successful remove of a present key shrinks it by exactly 1, and
removing an absent key leaves the count unchanged and returns `none`
(presence is genuine key membership, with the tree assumed to be a valid
binary search tree). -/
theorem claim_C6 {α K V : Type} [LinearOrder α] [LinearOrder K] :
    (∀ (t t' : AVLTree α) (x : α), AVLTree.isBST t = true →
       AVLTree.treeInsert t x = some t' →
       (AVLTree.keyMem x t = false →
         AVLTree.size t' = AVLTree.size t + 1) ∧
       (AVLTree.keyMem x t = true →
         AVLTree.size t' = AVLTree.size t)) ∧
    (∀ (t t' : AVLTree α) (x : α) (rv : Option α), AVLTree.isBST t = true →
       AVLTree.treeRemove t x = some (t', rv) →
       (AVLTree.keyMem x t = true →
         AVLTree.size t = AVLTree.size t' + 1) ∧
       (AVLTree.keyMem x t = false →
         AVLTree.size t' = AVLTree.size t ∧ rv = none)) ∧
    (∀ (t t' : RBT K V) (k : K) (v : V), STree.isBST t = true →
       RB.treeInsert t k v = some t' →
       (STree.keyMemS k t = false →
         STree.size t' = STree.size t + 1) ∧
       (STree.keyMemS k t = true →
         STree.size t' = STree.size t)) ∧
    (∀ (t t' : RBT K V) (k : K) (rv : Option (K × V)), STree.isBST t = true →
       RB.treeRemove t k = some (t', rv) →
       (STree.keyMemS k t = true →
         STree.size t = STree.size t' + 1) ∧
       (STree.keyMemS k t = false →
         STree.size t' = STree.size t ∧ rv = none)) := by
  refine ⟨?_, ?_, ?_, ?_⟩
  · intro t t' x hbst h
    obtain ⟨i1, i2⟩ := AVLTree.treeInsert_extra h
    constructor
    · intro hkm
      apply i1
      cases hfo : AVLTree.find t x with
      | none => rfl
      | some y =>
        have hm := (AVLTree.find_isSome_iff_keyMem hbst).mp (by rw [hfo]; rfl)
        rw [hkm] at hm
        exact absurd hm (by simp)
    · intro hkm
      have hfs : (AVLTree.find t x).isSome = true :=
        (AVLTree.find_isSome_iff_keyMem hbst).mpr hkm
      rw [i2 hfs]
  · intro t t' x rv hbst h
    obtain ⟨i1, i2, i3, i4⟩ := AVLTree.treeRemove_extra h
    constructor
    · intro hkm
      exact i3 ((AVLTree.find_isSome_iff_keyMem hbst).mpr hkm)
    · intro hkm
      have hfn : AVLTree.find t x = none := by
        cases hfo : AVLTree.find t x with
        | none => rfl
        | some y =>
          have hm := (AVLTree.find_isSome_iff_keyMem hbst).mp (by rw [hfo]; rfl)
          rw [hkm] at hm
          exact absurd hm (by simp)
      have hrvn : rv = none := by
        rw [hfn] at i1
        cases rv with
        | none => rfl
        | some y => simp at i1
      refine ⟨by rw [i2 hrvn], hrvn⟩
  · intro t t' k v hbst h
    obtain ⟨j1, j2, j3⟩ := RB.rb_treeInsert_spec h
    constructor
    · intro hkm
      apply j2
      cases hfo : STree.find t k with
      | none => rfl
      | some y =>
        have hm := (STree.findS_isSome_iff_keyMemS hbst).mp (by rw [hfo]; rfl)
        rw [hkm] at hm
        exact absurd hm (by simp)
    · intro hkm
      exact j3 ((STree.findS_isSome_iff_keyMemS hbst).mpr hkm)
  · intro t t' k rv hbst h
    obtain ⟨j1, j2, j3, j4⟩ := RB.rb_treeRemove_spec h
    constructor
    · intro hkm
      exact j4 (by rw [j2]; exact (STree.findS_isSome_iff_keyMemS hbst).mpr hkm)
    · intro hkm
      have hfn : STree.find t k = none := by
        cases hfo : STree.find t k with
        | none => rfl
        | some y =>
          have hm := (STree.findS_isSome_iff_keyMemS hbst).mp (by rw [hfo]; rfl)
          rw [hkm] at hm
          exact absurd hm (by simp)
      have hrvn : rv = none := by
        rw [hfn] at j2
        cases rv with
        | none => rfl
        | some y => simp at j2
      refine ⟨?_, hrvn⟩
      rw [j3 hrvn]
      exact RB.pres_setColor.2.2

/-- Witness for claim C6 at concrete one-node trees of each kind: an
absent-key insert and a present-key remove change the size by one, while a
present-key insert and an absent-key remove leave it unchanged. -/
theorem claim_C6_witness :
    AVLTree.size (AVLTree.node 1 .nil .nil 0 : AVLTree Nat) =
      AVLTree.size (.nil : AVLTree Nat) + 1 ∧
    AVLTree.size (AVLTree.node 1 .nil .nil 0 : AVLTree Nat) =
      AVLTree.size (AVLTree.node 1 .nil .nil 0 : AVLTree Nat) ∧
    AVLTree.size (AVLTree.node 1 .nil .nil 0 : AVLTree Nat) =
      AVLTree.size (.nil : AVLTree Nat) + 1 ∧
    (AVLTree.size (AVLTree.node 1 .nil .nil 0 : AVLTree Nat) =
      AVLTree.size (AVLTree.node 1 .nil .nil 0 : AVLTree Nat) ∧
      (none : Option Nat) = none) ∧
    STree.size (STree.node 1 10 .nil .nil Color.Black : RBT Nat Nat) =
      STree.size (.nil : RBT Nat Nat) + 1 ∧
    STree.size (STree.node 1 20 .nil .nil Color.Black : RBT Nat Nat) =
      STree.size (STree.node 1 10 .nil .nil Color.Black : RBT Nat Nat) ∧
    STree.size (STree.node 1 10 .nil .nil Color.Black : RBT Nat Nat) =
      STree.size (.nil : RBT Nat Nat) + 1 ∧
    (STree.size (STree.node 1 10 .nil .nil Color.Black : RBT Nat Nat) =
      STree.size (STree.node 1 10 .nil .nil Color.Black : RBT Nat Nat) ∧
      (none : Option (Nat × Nat)) = none) :=
  ⟨((claim_C6 (α := Nat) (K := Nat) (V := Nat)).1 .nil
      (AVLTree.node 1 .nil .nil 0) 1 (by decide) (by decide)).1 (by decide),
   ((claim_C6 (α := Nat) (K := Nat) (V := Nat)).1 (AVLTree.node 1 .nil .nil 0)
      (AVLTree.node 1 .nil .nil 0) 1 (by decide) (by decide)).2 (by decide),
   ((claim_C6 (α := Nat) (K := Nat) (V := Nat)).2.1 (AVLTree.node 1 .nil .nil 0)
      .nil 1 (some 1) (by decide) (by decide)).1 (by decide),
   ((claim_C6 (α := Nat) (K := Nat) (V := Nat)).2.1 (AVLTree.node 1 .nil .nil 0)
      (AVLTree.node 1 .nil .nil 0) 2 none (by decide) (by decide)).2 (by decide),
   ((claim_C6 (α := Nat) (K := Nat) (V := Nat)).2.2.1 .nil
      (STree.node 1 10 .nil .nil Color.Black) 1 10 (by decide) (by decide)).1
      (by decide),
   ((claim_C6 (α := Nat) (K := Nat) (V := Nat)).2.2.1
      (STree.node 1 10 .nil .nil Color.Black)
      (STree.node 1 20 .nil .nil Color.Black) 1 20 (by decide) (by decide)).2
      (by decide),
   ((claim_C6 (α := Nat) (K := Nat) (V := Nat)).2.2.2
      (STree.node 1 10 .nil .nil Color.Black) .nil 1 (some (1, 10))
      (by decide) (by decide)).1 (by decide),
   ((claim_C6 (α := Nat) (K := Nat) (V := Nat)).2.2.2
      (STree.node 1 10 .nil .nil Color.Black)
      (STree.node 1 10 .nil .nil Color.Black) 2 none (by decide) (by decide)).2
      (by decide)⟩

/-- C7: for both tree kinds, a successful `remove(k)` returns `Some` exactly
when `k` is genuinely present (the tree being a valid binary search tree,
and for the red-black tree having the black root its operations maintain);
the returned pair carries the removed key and its stored value, and when the
result is `None` the tree is returned entirely unchanged — structure, keys,
values and metadata. -/
theorem claim_C7 {α K V : Type} [LinearOrder α] [LinearOrder K] :
    (∀ (t t' : AVLTree α) (x : α) (rv : Option α), AVLTree.isBST t = true →
       AVLTree.treeRemove t x = some (t', rv) →
       (rv.isSome = true ↔ AVLTree.keyMem x t = true) ∧
       (rv = none → t' = t) ∧
       (∀ y, rv = some y → y = x ∧ AVLTree.find t x = some y)) ∧
    (∀ (t t' : RBT K V) (k : K) (rv : Option (K × V)), STree.isBST t = true →
       RB.rootBlack t = true → RB.treeRemove t k = some (t', rv) →
       (rv.isSome = true ↔ STree.keyMemS k t = true) ∧
       (rv = none → t' = t) ∧
       (∀ p, rv = some p → p.1 = k ∧ STree.find t k = some p.2)) := by
  constructor
  · intro t t' x rv hbst h
    obtain ⟨i1, i2, i3, i4⟩ := AVLTree.treeRemove_extra h
    refine ⟨?_, i2, i4⟩
    rw [i1]
    exact AVLTree.find_isSome_iff_keyMem hbst
  · intro t t' k rv hbst hb h
    obtain ⟨j1, j2, j3, j4⟩ := RB.rb_treeRemove_spec h
    obtain ⟨m1, m2⟩ := RB.rb_treeRemove_extra hb h
    refine ⟨?_, m1, m2⟩
    rw [j2]
    exact STree.findS_isSome_iff_keyMemS hbst

/-- Witness for claim C7 at concrete one-node trees: removing the stored key
returns it together with its value, and removing an absent key returns the
tree unchanged. -/
theorem claim_C7_witness :
    ((some 1 : Option Nat).isSome = true ↔
      AVLTree.keyMem 1 (AVLTree.node 1 .nil .nil 0 : AVLTree Nat) = true) ∧
    AVLTree.find (AVLTree.node 1 .nil .nil 0 : AVLTree Nat) 1 = some 1 ∧
    (AVLTree.node 1 .nil .nil 0 : AVLTree Nat) = AVLTree.node 1 .nil .nil 0 ∧
    STree.find (STree.node 1 10 .nil .nil Color.Black : RBT Nat Nat) 1 =
      some 10 ∧
    (STree.node 1 10 .nil .nil Color.Black : RBT Nat Nat) =
      STree.node 1 10 .nil .nil Color.Black :=
  ⟨((claim_C7 (α := Nat) (K := Nat) (V := Nat)).1 (AVLTree.node 1 .nil .nil 0)
      .nil 1 (some 1) (by decide) (by decide)).1,
   (((claim_C7 (α := Nat) (K := Nat) (V := Nat)).1 (AVLTree.node 1 .nil .nil 0)
      .nil 1 (some 1) (by decide) (by decide)).2.2 1 rfl).2,
   ((claim_C7 (α := Nat) (K := Nat) (V := Nat)).1 (AVLTree.node 1 .nil .nil 0)
      (AVLTree.node 1 .nil .nil 0) 2 none (by decide) (by decide)).2.1 rfl,
   (((claim_C7 (α := Nat) (K := Nat) (V := Nat)).2
      (STree.node 1 10 .nil .nil Color.Black) .nil 1 (some (1, 10))
      (by decide) (by decide) (by decide)).2.2 (1, 10) rfl).2,
   ((claim_C7 (α := Nat) (K := Nat) (V := Nat)).2
      (STree.node 1 10 .nil .nil Color.Black)
      (STree.node 1 10 .nil .nil Color.Black) 2 none
      (by decide) (by decide) (by decide)).2.1 rfl⟩

/-- C8: inserting a key that is already present only updates the stored
value at that key. For the AVL tree (which stores bare values) the tree is
returned exactly unchanged; for the red-black tree the value-erased view —
shape, keys and every node's color — is unchanged, the inserted key now maps
to the new value, and every other key maps to its old value (the tree being
a valid binary search tree with the black root the operations maintain). -/
theorem claim_C8 {α K V : Type} [LinearOrder α] [LinearOrder K] :
    (∀ (t t' : AVLTree α) (x : α), AVLTree.isBST t = true →
       AVLTree.keyMem x t = true → AVLTree.treeInsert t x = some t' →
       t' = t) ∧
    (∀ (t t' : RBT K V) (k : K) (v : V), STree.isBST t = true →
       RB.rootBlack t = true → STree.keyMemS k t = true →
       RB.treeInsert t k v = some t' →
       RB.stripVals t' = RB.stripVals t ∧ STree.find t' k = some v ∧
       ∀ k2, ¬ k2 = k → STree.find t' k2 = STree.find t k2) := by
  constructor
  · intro t t' x hbst hkm h
    exact (AVLTree.treeInsert_extra h).2
      ((AVLTree.find_isSome_iff_keyMem hbst).mpr hkm)
  · intro t t' k v hbst hb hkm h
    exact RB.rb_treeInsert_existing hb
      ((STree.findS_isSome_iff_keyMemS hbst).mpr hkm) h

/-- Witness for claim C8 at concrete one-node trees: re-inserting the stored
key leaves the AVL tree identical, and in the red-black tree changes only
the stored value while shape, keys, colors and all other lookups are
untouched. -/
theorem claim_C8_witness :
    (AVLTree.node 1 .nil .nil 0 : AVLTree Nat) = AVLTree.node 1 .nil .nil 0 ∧
    RB.stripVals (STree.node 1 20 .nil .nil Color.Black : RBT Nat Nat) =
      RB.stripVals (STree.node 1 10 .nil .nil Color.Black : RBT Nat Nat) ∧
    STree.find (STree.node 1 20 .nil .nil Color.Black : RBT Nat Nat) 1 =
      some 20 ∧
    STree.find (STree.node 1 20 .nil .nil Color.Black : RBT Nat Nat) 5 =
      STree.find (STree.node 1 10 .nil .nil Color.Black : RBT Nat Nat) 5 :=
  ⟨(claim_C8 (α := Nat) (K := Nat) (V := Nat)).1 (AVLTree.node 1 .nil .nil 0)
      (AVLTree.node 1 .nil .nil 0) 1 (by decide) (by decide) (by decide),
   ((claim_C8 (α := Nat) (K := Nat) (V := Nat)).2
      (STree.node 1 10 .nil .nil Color.Black)
      (STree.node 1 20 .nil .nil Color.Black) 1 20
      (by decide) (by decide) (by decide) (by decide)).1,
   ((claim_C8 (α := Nat) (K := Nat) (V := Nat)).2
      (STree.node 1 10 .nil .nil Color.Black)
      (STree.node 1 20 .nil .nil Color.Black) 1 20
      (by decide) (by decide) (by decide) (by decide)).2.1,
   ((claim_C8 (α := Nat) (K := Nat) (V := Nat)).2
      (STree.node 1 10 .nil .nil Color.Black)
      (STree.node 1 20 .nil .nil Color.Black) 1 20
      (by decide) (by decide) (by decide) (by decide)).2.2 5 (by decide)⟩
